import Mathlib

/-!
# Smart pointers: control blocks, `SharedPtr` and `WeakPtr`

A shallow embedding of `sw_fwd.h`, `shared.h` and `weak.h`; the sections on
`compressed_pair.h`, `intrusive.h` and `unique.h` follow it and say how each is
represented.

* The heap is a `Machine`: the control blocks allocated so far and the payload
  objects allocated so far.  An address is an index, `none` is `nullptr`.
* Every member function becomes a function that takes the machine (and the
  handles it reads) and returns the new machine (and the handles it wrote).
* What C++ leaves undefined (a null or dangling dereference, a second destruction)
  is the result `Fault.undefined`; the exception `BadWeakPtr` is `Fault.BadWeakPtr`.
* The counters are `size_t`.  `--x` on zero wraps to `SIZE_MAX`.  `++x` is `x + 1`:
  a counter is raised once per handle that is constructed, a handle occupies
  sixteen bytes of a 64-bit address space, so no increment can reach `2 ^ 64`.
* Ghost fields (`deleteObjectCalls`, `deleteThisCalls`, `dtorCalls`, `freeCalls`)
  count the calls whose number the specification speaks about.
* The constructor and destructor bodies of the payload type itself are taken to
  leave the machine alone; the destructors of its members (the two weak slots of
  `EnableSharedFromThis`) do run.
-/

namespace SmartPointers

/-- A C++ pointer: `none` is `nullptr`, `some a` is the address `a`. -/
abbrev Ptr := Option Nat

/-- The largest `size_t` value. -/
def SIZE_MAX : Nat := 2 ^ 64 - 1

/-- The operator `--x` on a `size_t`. -/
def decSize (x : Nat) : Nat := if x = 0 then SIZE_MAX else x - 1

/-- The class `WeakPtr<T>`: its two data members. -/
structure WeakPtr where
  ptr_ : Ptr
  block_ : Ptr
deriving DecidableEq

/-- The class `SharedPtr<T>`: its two data members. -/
structure SharedPtr where
  ptr_ : Ptr
  block_ : Ptr
deriving DecidableEq

/-- The class `EnableSharedFromThis<T>`: its two data members. -/
structure EnableSharedFromThis where
  weak_this_ : WeakPtr
  const_weak_this_ : WeakPtr
deriving DecidableEq

/-- A payload object of some type `T`.  `base` is its `EnableSharedFromThis<T>`
base subobject when `T` derives from it.  Ghost: `dtorCalls` counts the runs of
`~T()`, `freeCalls` the releases of its separately allocated memory. -/
structure Object where
  base : Option EnableSharedFromThis
  dtorCalls : Nat
  freeCalls : Nat
deriving DecidableEq

/-- The dynamic type of a control block. -/
inductive BlockKind where
  | Pointer
  | Holder
deriving DecidableEq

/-- A control block: the two counters of `ControlBlockBase`, the dynamic type, and
the payload address (`ControlBlockPointer::ptr_`, or the address of
`ControlBlockHolder::storage_`).  Ghost: `deleteObjectCalls` counts the calls of
`DeleteObject`, `deleteThisCalls` the executions of `delete this`. -/
structure ControlBlock where
  shared_counter_ : Nat
  weak_counter_ : Nat
  kind : BlockKind
  ptr_ : Ptr
  deleteObjectCalls : Nat
  deleteThisCalls : Nat
deriving DecidableEq

/-- The heap. -/
structure Machine where
  blocks : List ControlBlock
  objects : List Object
deriving DecidableEq

/-- How a call can fail to return normally: the exception `BadWeakPtr`, with the
machine in which it was thrown (the one its handler sees), or undefined behaviour. -/
inductive Fault where
  | BadWeakPtr (m : Machine)
  | undefined
deriving DecidableEq

deriving instance DecidableEq for Except

/-- Dereference a control block pointer: the block must be allocated and not freed. -/
def Machine.derefBlock (m : Machine) (b : Nat) : Except Fault ControlBlock :=
  match m.blocks[b]? with
  | some blk => if blk.deleteThisCalls = 0 then .ok blk else .error .undefined
  | none => .error .undefined

/-- Store into the fields of a control block. -/
def Machine.writeBlock (m : Machine) (b : Nat) (blk : ControlBlock) : Machine :=
  { m with blocks := m.blocks.set b blk }

/-- Dereference a payload pointer: the object must be allocated and not destroyed. -/
def Machine.derefObject (m : Machine) (o : Nat) : Except Fault Object :=
  match m.objects[o]? with
  | some obj => if obj.dtorCalls = 0 ∧ obj.freeCalls = 0 then .ok obj else .error .undefined
  | none => .error .undefined

/-- Store into the fields of a payload object. -/
def Machine.writeObject (m : Machine) (o : Nat) (obj : Object) : Machine :=
  { m with objects := m.objects.set o obj }

/-- The expression `new ControlBlockPointer<Y>(ptr)` or `new ControlBlockHolder<T>(...)`:
both counters start at zero (their default member initialisers). -/
def Machine.newBlock (m : Machine) (kind : BlockKind) (ptr : Ptr) : Machine × Nat :=
  ({ m with blocks := m.blocks ++ [⟨0, 0, kind, ptr, 0, 0⟩] }, m.blocks.length)

/-- A freshly constructed payload; `esft` says whether its type derives from
`EnableSharedFromThis`, whose two slots are then default-constructed (empty). -/
def Object.fresh (esft : Bool) : Object :=
  ⟨if esft then some ⟨⟨none, none⟩, ⟨none, none⟩⟩ else none, 0, 0⟩

/-- Construction of a payload object (`new T(...)`, or the placement new of
`ControlBlockHolder`). -/
def Machine.newObject (m : Machine) (esft : Bool) : Machine × Nat :=
  ({ m with objects := m.objects ++ [Object.fresh esft] }, m.objects.length)

/-! ## `ControlBlockBase` -/

/-- Method `size_t GetSCounter() const`. -/
def GetSCounter (m : Machine) (b : Nat) : Except Fault Nat := do
  let blk ← m.derefBlock b
  pure blk.shared_counter_

/-- Method `size_t GetWCounter() const`. -/
def GetWCounter (m : Machine) (b : Nat) : Except Fault Nat := do
  let blk ← m.derefBlock b
  pure blk.weak_counter_

/-- Method `void IncSCounter()`. -/
def IncSCounter (m : Machine) (b : Nat) : Except Fault Machine := do
  let blk ← m.derefBlock b
  pure (m.writeBlock b { blk with shared_counter_ := blk.shared_counter_ + 1 })

/-- Method `void IncWCounter()`. -/
def IncWCounter (m : Machine) (b : Nat) : Except Fault Machine := do
  let blk ← m.derefBlock b
  pure (m.writeBlock b { blk with weak_counter_ := blk.weak_counter_ + 1 })

/-- Method `void DecWCounter()`: decrement, then `delete this` when both counters are zero. -/
def DecWCounter (m : Machine) (b : Nat) : Except Fault Machine := do
  let blk ← m.derefBlock b
  let blk := { blk with weak_counter_ := decSize blk.weak_counter_ }
  if blk.weak_counter_ = 0 ∧ blk.shared_counter_ = 0 then
    pure (m.writeBlock b { blk with deleteThisCalls := blk.deleteThisCalls + 1 })
  else
    pure (m.writeBlock b blk)

/-- Destructor `WeakPtr::~WeakPtr()`. -/
def WeakPtr.dtor (m : Machine) (self : WeakPtr) : Except Fault Machine :=
  match self.block_ with
  | none => pure m
  | some b => DecWCounter m b

/-- The destructor `~T()` of the payload at address `o`: the object must be alive;
its members are destroyed in reverse order of declaration. -/
def destroyObject (m : Machine) (o : Nat) : Except Fault Machine := do
  let obj ← m.derefObject o
  let m := m.writeObject o { obj with dtorCalls := obj.dtorCalls + 1 }
  match obj.base with
  | none => pure m
  | some e =>
    let m ← WeakPtr.dtor m e.const_weak_this_
    WeakPtr.dtor m e.weak_this_

/-- Release of the memory of a separately allocated payload (the second half of
a `delete` expression). -/
def freeObject (m : Machine) (o : Nat) : Except Fault Machine :=
  match m.objects[o]? with
  | some obj =>
    if obj.freeCalls = 0 then pure (m.writeObject o { obj with freeCalls := obj.freeCalls + 1 })
    else .error .undefined
  | none => .error .undefined

/-- Method `virtual void DeleteObject()`: `delete ptr_` in `ControlBlockPointer` (nothing
happens for a null pointer), `GetPointer()->~T()` in `ControlBlockHolder`. -/
def DeleteObject (m : Machine) (b : Nat) : Except Fault Machine := do
  let blk ← m.derefBlock b
  let m := m.writeBlock b { blk with deleteObjectCalls := blk.deleteObjectCalls + 1 }
  match blk.kind, blk.ptr_ with
  | .Pointer, none => pure m
  | .Pointer, some o =>
    let m ← destroyObject m o
    freeObject m o
  | .Holder, none => .error .undefined
  | .Holder, some o => destroyObject m o

/-- Method `void DecSCounter()`. -/
def DecSCounter (m : Machine) (b : Nat) : Except Fault Machine := do
  let blk ← m.derefBlock b
  if blk.shared_counter_ = 1 then
    let m ← DeleteObject m b
    let blk ← m.derefBlock b
    if blk.weak_counter_ = 0 then
      pure (m.writeBlock b { blk with deleteThisCalls := blk.deleteThisCalls + 1 })
    else
      pure (m.writeBlock b { blk with shared_counter_ := decSize blk.shared_counter_ })
  else
    pure (m.writeBlock b { blk with shared_counter_ := decSize blk.shared_counter_ })

/-! ## `WeakPtr` -/

/-- Constructor `WeakPtr()`. -/
def WeakPtr.empty : WeakPtr := ⟨none, none⟩

/-- Constructor `WeakPtr(const WeakPtr& other)`. -/
def WeakPtr.copy (m : Machine) (other : WeakPtr) : Except Fault (Machine × WeakPtr) :=
  match other.block_ with
  | none => pure (m, ⟨other.ptr_, other.block_⟩)
  | some b => do
    let m ← IncWCounter m b
    pure (m, ⟨other.ptr_, other.block_⟩)

/-- Constructor `WeakPtr(WeakPtr&& other)`: the new handle and what is left in `other`. -/
def WeakPtr.move (other : WeakPtr) : WeakPtr × WeakPtr :=
  (⟨other.ptr_, other.block_⟩, ⟨none, none⟩)

/-- Constructor `WeakPtr(const SharedPtr<T>& other)`. -/
def WeakPtr.ofShared (m : Machine) (other : SharedPtr) : Except Fault (Machine × WeakPtr) :=
  match other.block_ with
  | none => pure (m, ⟨other.ptr_, other.block_⟩)
  | some b => do
    let m ← IncWCounter m b
    pure (m, ⟨other.ptr_, other.block_⟩)

/-- Method `WeakPtr& operator=(const WeakPtr& other)` (also the template overload): the
new value of `*this`. -/
def WeakPtr.assign (m : Machine) (self other : WeakPtr) : Except Fault (Machine × WeakPtr) := do
  let m ← (match self.block_ with
    | none => pure m
    | some b => DecWCounter m b)
  match other.block_ with
  | none => pure (m, ⟨other.ptr_, other.block_⟩)
  | some b =>
    let m ← IncWCounter m b
    pure (m, ⟨other.ptr_, other.block_⟩)

/-- Method `WeakPtr& operator=(WeakPtr&& other)`: the new values of `*this` and of `other`.
When both name one object, the value of `other` is the one that remains. -/
def WeakPtr.moveAssign (m : Machine) (self other : WeakPtr) :
    Except Fault (Machine × WeakPtr × WeakPtr) := do
  let m ← (match self.block_ with
    | none => pure m
    | some b => DecWCounter m b)
  pure (m, ⟨other.ptr_, other.block_⟩, ⟨none, none⟩)

/-- Method `WeakPtr& operator=(SharedPtr<Y>& other)`. -/
def WeakPtr.assignShared (m : Machine) (self : WeakPtr) (other : SharedPtr) :
    Except Fault (Machine × WeakPtr) := do
  let m ← (match self.block_ with
    | none => pure m
    | some b => DecWCounter m b)
  match other.block_ with
  | none => pure (m, ⟨other.ptr_, other.block_⟩)
  | some b =>
    let m ← IncWCounter m b
    pure (m, ⟨other.ptr_, other.block_⟩)

/-- Method `void WeakPtr::Reset()`. -/
def WeakPtr.Reset (m : Machine) (self : WeakPtr) : Except Fault (Machine × WeakPtr) :=
  match self.block_ with
  | none => pure (m, self)
  | some b => do
    let m ← DecWCounter m b
    pure (m, ⟨none, none⟩)

/-- Method `void WeakPtr::Swap(WeakPtr& other)`: the new values of `*this` and of `other`. -/
def WeakPtr.Swap (self other : WeakPtr) : WeakPtr × WeakPtr :=
  (⟨other.ptr_, other.block_⟩, ⟨self.ptr_, self.block_⟩)

/-- Method `size_t WeakPtr::UseCount() const`. -/
def WeakPtr.UseCount (m : Machine) (self : WeakPtr) : Except Fault Nat :=
  match self.block_ with
  | none => pure 0
  | some b => GetSCounter m b

/-- Method `bool WeakPtr::Expired() const`. -/
def WeakPtr.Expired (m : Machine) (self : WeakPtr) : Except Fault Bool :=
  match self.block_ with
  | none => pure true
  | some b => do
    let s ← GetSCounter m b
    pure (s == 0)

/-! ## `SharedPtr` -/

/-- Constructors `SharedPtr()` and `SharedPtr(std::nullptr_t)`. -/
def SharedPtr.empty : SharedPtr := ⟨none, none⟩

/-- Constructor `SharedPtr(const SharedPtr& other)` (also the template overload). -/
def SharedPtr.copy (m : Machine) (other : SharedPtr) : Except Fault (Machine × SharedPtr) :=
  match other.block_ with
  | none => pure (m, ⟨other.ptr_, other.block_⟩)
  | some b => do
    let m ← IncSCounter m b
    pure (m, ⟨other.ptr_, other.block_⟩)

/-- Constructor `SharedPtr(SharedPtr<Y>&& other)`: the new handle and what is left in `other`. -/
def SharedPtr.move (other : SharedPtr) : SharedPtr × SharedPtr :=
  (⟨other.ptr_, other.block_⟩, ⟨none, none⟩)

/-- Constructor `SharedPtr(const SharedPtr<Y>& other, T* ptr)`: the block is dereferenced
without a null test. -/
def SharedPtr.alias (m : Machine) (other : SharedPtr) (ptr : Ptr) :
    Except Fault (Machine × SharedPtr) :=
  match other.block_ with
  | none => .error .undefined
  | some b => do
    let m ← IncSCounter m b
    pure (m, ⟨ptr, other.block_⟩)

/-- Constructor `explicit SharedPtr(const WeakPtr<T>& other)`. -/
def SharedPtr.ofWeak (m : Machine) (other : WeakPtr) : Except Fault (Machine × SharedPtr) := do
  let n ← other.UseCount m
  if n = 0 then
    .error (.BadWeakPtr m)
  else
    match other.block_ with
    | none => pure (m, ⟨other.ptr_, other.block_⟩)
    | some b =>
      let m ← IncSCounter m b
      pure (m, ⟨other.ptr_, other.block_⟩)

/-- Method `SharedPtr& operator=(const SharedPtr& other)` (also the template overload):
the new value of `*this`.  `other` is only read, so a self-assignment is the call
with `other = self`. -/
def SharedPtr.assign (m : Machine) (self other : SharedPtr) :
    Except Fault (Machine × SharedPtr) := do
  let m ← (match self.block_ with
    | none => pure m
    | some b => DecSCounter m b)
  match other.block_ with
  | none => pure (m, ⟨other.ptr_, other.block_⟩)
  | some b =>
    let m ← IncSCounter m b
    pure (m, ⟨other.ptr_, other.block_⟩)

/-- Method `SharedPtr& operator=(SharedPtr<Y>&& other)`: the new values of `*this` and of
`other`.  When both name one object, the value of `other` is the one that remains. -/
def SharedPtr.moveAssign (m : Machine) (self other : SharedPtr) :
    Except Fault (Machine × SharedPtr × SharedPtr) := do
  let m ← (match self.block_ with
    | none => pure m
    | some b => DecSCounter m b)
  pure (m, ⟨other.ptr_, other.block_⟩, ⟨none, none⟩)

/-- Destructor `SharedPtr::~SharedPtr()`. -/
def SharedPtr.dtor (m : Machine) (self : SharedPtr) : Except Fault Machine :=
  match self.block_ with
  | none => pure m
  | some b => DecSCounter m b

/-- Method `void SharedPtr::Reset()`. -/
def SharedPtr.Reset (m : Machine) (self : SharedPtr) : Except Fault (Machine × SharedPtr) :=
  match self.block_ with
  | none => pure (m, self)
  | some b => do
    let m ← DecSCounter m b
    pure (m, ⟨none, none⟩)

/-- Method `void SharedPtr::Swap(SharedPtr& other)`: the new values of `*this` and of `other`. -/
def SharedPtr.Swap (self other : SharedPtr) : SharedPtr × SharedPtr :=
  (⟨other.ptr_, other.block_⟩, ⟨self.ptr_, self.block_⟩)

/-- Method `T* SharedPtr::Get() const`: the pointer returned, and the machine after the call. -/
def SharedPtr.Get (m : Machine) (self : SharedPtr) : Except Fault (Machine × Ptr) :=
  match self.block_ with
  | none => pure (m, self.ptr_)
  | some b => do
    let s ← GetSCounter m b
    if s = 0 then pure (m, none) else pure (m, self.ptr_)

/-- Method `T* SharedPtr::operator->() const`: the pointer returned, and the machine after
the call. -/
def SharedPtr.arrow (m : Machine) (self : SharedPtr) : Except Fault (Machine × Ptr) :=
  match self.block_ with
  | none => pure (m, self.ptr_)
  | some b => do
    let s ← GetSCounter m b
    if s = 0 then pure (m, none) else pure (m, self.ptr_)

/-- Method `size_t SharedPtr::UseCount() const`. -/
def SharedPtr.UseCount (m : Machine) (self : SharedPtr) : Except Fault Nat :=
  match self.block_ with
  | none => pure 0
  | some b => GetSCounter m b

/-- Method `explicit SharedPtr::operator bool() const`. -/
def SharedPtr.toBool (self : SharedPtr) : Bool := self.ptr_ != none

/-- Method `SharedPtr<T> WeakPtr::Lock() const`. -/
def WeakPtr.Lock (m : Machine) (self : WeakPtr) : Except Fault (Machine × SharedPtr) := do
  let n ← self.UseCount m
  if n = 0 then
    pure (m, SharedPtr.empty)
  else
    SharedPtr.ofWeak m self

/-- The two statements under `if constexpr (std::is_convertible_v<Y*,
EnableSharedFromThisBase*>)` in both owning constructors.

`ptr_->weak_this_ = WeakPtr<T>(*this)` builds a temporary weak handle from `*this`,
move-assigns it into the slot and destroys the (then empty) temporary.
`ptr_->const_weak_this_ = WeakPtr<const T>(*this)` first converts `*this` to a
temporary `SharedPtr<const T>` (a copy), builds the weak temporary from that,
move-assigns it, and destroys both temporaries at the end of the statement. -/
def installWeakThis (m : Machine) (self : SharedPtr) : Except Fault Machine := do
  let (m, tmp) ← WeakPtr.ofShared m self
  let o ← (match self.ptr_ with
    | none => .error .undefined
    | some o => pure o)
  let obj ← m.derefObject o
  let e ← (match obj.base with
    | none => .error .undefined
    | some e => pure e)
  let (m, slot, tmp) ← WeakPtr.moveAssign m e.weak_this_ tmp
  let e := { e with weak_this_ := slot }
  let m := m.writeObject o { obj with base := some e }
  let m ← WeakPtr.dtor m tmp
  let (m, stmp) ← SharedPtr.copy m self
  let (m, tmp) ← WeakPtr.ofShared m stmp
  let (m, slot, tmp) ← WeakPtr.moveAssign m e.const_weak_this_ tmp
  let e := { e with const_weak_this_ := slot }
  let m := m.writeObject o { obj with base := some e }
  let m ← WeakPtr.dtor m tmp
  SharedPtr.dtor m stmp

/-- Constructor `explicit SharedPtr(Y* ptr)`: adoption of a raw pointer.  `esft` is
`std::is_convertible_v<Y*, EnableSharedFromThisBase*>`. -/
def SharedPtr.ofPtr (esft : Bool) (m : Machine) (ptr : Ptr) :
    Except Fault (Machine × SharedPtr) := do
  let (m, b) := m.newBlock .Pointer ptr
  let self : SharedPtr := ⟨ptr, some b⟩
  let m ← IncSCounter m b
  if esft then
    let m ← installWeakThis m self
    pure (m, self)
  else
    pure (m, self)

/-- Constructor `SharedPtr(ControlBlockHolder<T>* block)`. -/
def SharedPtr.ofHolder (esft : Bool) (m : Machine) (block : Nat) :
    Except Fault (Machine × SharedPtr) := do
  let blk ← m.derefBlock block
  let self : SharedPtr := ⟨blk.ptr_, some block⟩
  let m ← IncSCounter m block
  if esft then
    let m ← installWeakThis m self
    pure (m, self)
  else
    pure (m, self)

/-- Function `MakeShared<T>(args...)`: `new ControlBlockHolder<T>(...)` constructs the payload
inside the new block, which is then wrapped. -/
def MakeShared (esft : Bool) (m : Machine) : Except Fault (Machine × SharedPtr) :=
  let (m, o) := m.newObject esft
  let (m, b) := m.newBlock .Holder (some o)
  SharedPtr.ofHolder esft m b

/-- Method `void SharedPtr::Reset(Y* ptr)`. -/
def SharedPtr.ResetPtr (m : Machine) (self : SharedPtr) (ptr : Ptr) :
    Except Fault (Machine × SharedPtr) := do
  let m ← (match self.block_ with
    | none => pure m
    | some b => DecSCounter m b)
  let (m, b) := m.newBlock .Pointer ptr
  let m ← IncSCounter m b
  pure (m, ⟨ptr, some b⟩)

/-- Method `SharedPtr<T> EnableSharedFromThis<T>::SharedFromThis()`. -/
def EnableSharedFromThis.SharedFromThis (m : Machine) (self : EnableSharedFromThis) :
    Except Fault (Machine × SharedPtr) :=
  SharedPtr.ofWeak m self.weak_this_

/-- Method `SharedPtr<const T> EnableSharedFromThis<T>::SharedFromThis() const`. -/
def EnableSharedFromThis.SharedFromThisConst (m : Machine) (self : EnableSharedFromThis) :
    Except Fault (Machine × SharedPtr) :=
  SharedPtr.ofWeak m self.const_weak_this_

/-- Method `WeakPtr<T> EnableSharedFromThis<T>::WeakFromThis() noexcept`: a copy of the slot. -/
def EnableSharedFromThis.WeakFromThis (m : Machine) (self : EnableSharedFromThis) :
    Except Fault (Machine × WeakPtr) :=
  WeakPtr.copy m self.weak_this_

/-- Method `WeakPtr<const T> EnableSharedFromThis<T>::WeakFromThis() const noexcept`. -/
def EnableSharedFromThis.WeakFromThisConst (m : Machine) (self : EnableSharedFromThis) :
    Except Fault (Machine × WeakPtr) :=
  WeakPtr.copy m self.const_weak_this_

/-! ## Well-formed payloads -/

/-- Whether a weak slot holds the block `b`: 1 or 0. -/
def slotOn (b : Nat) (w : WeakPtr) : Nat := if w.block_ = some b then 1 else 0

/-- The number of weak back-reference slots of the payload that hold the block `b`. -/
def Object.slotsOn (b : Nat) (obj : Object) : Nat :=
  match obj.base with
  | none => 0
  | some e => slotOn b e.weak_this_ + slotOn b e.const_weak_this_

/-- Whether each weak back-reference slot of the payload is empty or holds the block `b`. -/
def Object.slotsWithin (b : Nat) (obj : Object) : Bool :=
  match obj.base with
  | none => true
  | some e =>
    (e.weak_this_.block_ == none || e.weak_this_.block_ == some b) &&
    (e.const_weak_this_.block_ == none || e.const_weak_this_.block_ == some b)

/-- The payload of the block `blk` at address `b`, seen from the block: `some k` when the
payload is a null pointer adopted by a `ControlBlockPointer` (`k = 0`), or an object
that is alive, whose weak slots are empty or hold `b`, `k` of them holding `b`;
`none` otherwise. -/
def payloadSlots (m : Machine) (b : Nat) (blk : ControlBlock) : Option Nat :=
  match blk.ptr_ with
  | none => if blk.kind = .Pointer then some 0 else none
  | some o =>
    match m.derefObject o with
    | .ok obj => if obj.slotsWithin b then some (obj.slotsOn b) else none
    | .error _ => none

/-- The payload after `DeleteObject`: destroyed, and released when it was allocated
on its own. -/
def Object.deleted (kind : BlockKind) (obj : Object) : Object :=
  { obj with
    dtorCalls := obj.dtorCalls + 1
    freeCalls := obj.freeCalls + (if kind = .Pointer then 1 else 0) }

/-- The block after the `DecSCounter` call of its last strong owner, when `DeleteObject`
has taken `k` weak references away. -/
def ControlBlock.released (k : Nat) (blk : ControlBlock) : ControlBlock :=
  if blk.weak_counter_ - k = 0 then
    { blk with
      weak_counter_ := blk.weak_counter_ - k
      deleteObjectCalls := blk.deleteObjectCalls + 1
      deleteThisCalls := blk.deleteThisCalls + 1 }
  else
    { blk with
      shared_counter_ := 0
      weak_counter_ := blk.weak_counter_ - k
      deleteObjectCalls := blk.deleteObjectCalls + 1 }

/-! ## Sequences of counter calls on one block -/

/-- A sequence of calls on the block `b`: `true` is `DecSCounter()`, `false` is
`DecWCounter()`. -/
def runCalls (m : Machine) (b : Nat) : List Bool → Except Fault Machine
  | [] => pure m
  | c :: cs => do
    let m ← (if c then DecSCounter m b else DecWCounter m b)
    runCalls m b cs

/-! ## Client programs

A client program is a sequence of statements over handle variables.  The variables
live in two tables; the entry `none` is a variable whose lifetime has ended.  A
statement that names such a variable (or one that was never declared) is not a
statement of any program and is skipped. -/

/-- The machine together with the handle variables of the client. -/
structure State where
  m : Machine
  shared : List (Option SharedPtr)
  weak : List (Option WeakPtr)
deriving DecidableEq

/-- One statement of a client program; `s i` is the `i`-th `SharedPtr` variable and
`w k` the `k`-th `WeakPtr` variable, a declaration adds a variable at the end. -/
inductive Op where
  /-- Statement `SharedPtr<T> x(new T)` -/
  | adopt (esft : Bool)
  /-- Statement `SharedPtr<T> x = MakeShared<T>()` -/
  | make (esft : Bool)
  /-- Statement `SharedPtr<T> x(s i)` -/
  | copy (i : Nat)
  /-- Statement `SharedPtr<T> x(std::move(s i))` -/
  | move (i : Nat)
  /-- Statement `SharedPtr<T> x(s i, p)` -/
  | aliasOf (i : Nat) (p : Ptr)
  /-- Statement `try { SharedPtr<T> x(w k); ... } catch (const BadWeakPtr&) {}`: `x` is declared
  only when the constructor returns -/
  | promote (k : Nat)
  /-- Statement `SharedPtr<T> x = (w k).Lock()` -/
  | lock (k : Nat)
  /-- Statement `s i = s j` -/
  | assign (i j : Nat)
  /-- Statement `s i = std::move(s j)` -/
  | moveAssign (i j : Nat)
  /-- Statement `(s i).Reset()` -/
  | reset (i : Nat)
  /-- Statement `(s i).Swap(s j)` -/
  | swap (i j : Nat)
  /-- the lifetime of `s i` ends -/
  | destroy (i : Nat)
  /-- Statement `WeakPtr<T> x(s i)` -/
  | weakOf (i : Nat)
  /-- Statement `WeakPtr<T> x(w k)` -/
  | weakCopy (k : Nat)
  /-- Statement `WeakPtr<T> x(std::move(w k))` -/
  | weakMove (k : Nat)
  /-- Statement `w k = w l` -/
  | weakAssign (k l : Nat)
  /-- Statement `w k = std::move(w l)` -/
  | weakMoveAssign (k l : Nat)
  /-- Statement `w k = s i` -/
  | weakAssignShared (k i : Nat)
  /-- Statement `(w k).Reset()` -/
  | weakReset (k : Nat)
  /-- Statement `(w k).Swap(w l)` -/
  | weakSwap (k l : Nat)
  /-- the lifetime of `w k` ends -/
  | weakDestroy (k : Nat)
deriving DecidableEq

/-- The live `SharedPtr` variable `s i`, if there is one. -/
def State.getShared (st : State) (i : Nat) : Option SharedPtr :=
  match st.shared[i]? with
  | some (some h) => some h
  | _ => none

/-- The live `WeakPtr` variable `w k`, if there is one. -/
def State.getWeak (st : State) (k : Nat) : Option WeakPtr :=
  match st.weak[k]? with
  | some (some h) => some h
  | _ => none

/-- Execution of one statement. -/
def step (st : State) : Op → Except Fault State
  | .adopt esft => do
    let (m, o) := st.m.newObject esft
    let (m, x) ← SharedPtr.ofPtr esft m (some o)
    pure { st with m := m, shared := st.shared ++ [some x] }
  | .make esft => do
    let (m, x) ← MakeShared esft st.m
    pure { st with m := m, shared := st.shared ++ [some x] }
  | .copy i =>
    match st.getShared i with
    | none => pure st
    | some h => do
      let (m, x) ← SharedPtr.copy st.m h
      pure { st with m := m, shared := st.shared ++ [some x] }
  | .move i =>
    match st.getShared i with
    | none => pure st
    | some h =>
      let r := SharedPtr.move h
      pure { st with shared := st.shared.set i (some r.2) ++ [some r.1] }
  | .aliasOf i p =>
    match st.getShared i with
    | none => pure st
    | some h => do
      let (m, x) ← SharedPtr.alias st.m h p
      pure { st with m := m, shared := st.shared ++ [some x] }
  | .promote k =>
    match st.getWeak k with
    | none => pure st
    | some w =>
      match SharedPtr.ofWeak st.m w with
      | .ok (m, x) => pure { st with m := m, shared := st.shared ++ [some x] }
      | .error (.BadWeakPtr m) => pure { st with m := m }
      | .error .undefined => .error .undefined
  | .lock k =>
    match st.getWeak k with
    | none => pure st
    | some w => do
      let (m, x) ← WeakPtr.Lock st.m w
      pure { st with m := m, shared := st.shared ++ [some x] }
  | .assign i j =>
    match st.getShared i, st.getShared j with
    | some a, some c => do
      let (m, a) ← SharedPtr.assign st.m a c
      pure { st with m := m, shared := st.shared.set i (some a) }
    | _, _ => pure st
  | .moveAssign i j =>
    match st.getShared i, st.getShared j with
    | some a, some c => do
      let (m, a, c) ← SharedPtr.moveAssign st.m a c
      pure { st with m := m, shared := (st.shared.set i (some a)).set j (some c) }
    | _, _ => pure st
  | .reset i =>
    match st.getShared i with
    | none => pure st
    | some h => do
      let (m, h) ← SharedPtr.Reset st.m h
      pure { st with m := m, shared := st.shared.set i (some h) }
  | .swap i j =>
    match st.getShared i, st.getShared j with
    | some a, some c =>
      let r := SharedPtr.Swap a c
      pure { st with shared := (st.shared.set i (some r.1)).set j (some r.2) }
    | _, _ => pure st
  | .destroy i =>
    match st.getShared i with
    | none => pure st
    | some h => do
      let m ← SharedPtr.dtor st.m h
      pure { st with m := m, shared := st.shared.set i none }
  | .weakOf i =>
    match st.getShared i with
    | none => pure st
    | some h => do
      let (m, x) ← WeakPtr.ofShared st.m h
      pure { st with m := m, weak := st.weak ++ [some x] }
  | .weakCopy k =>
    match st.getWeak k with
    | none => pure st
    | some w => do
      let (m, x) ← WeakPtr.copy st.m w
      pure { st with m := m, weak := st.weak ++ [some x] }
  | .weakMove k =>
    match st.getWeak k with
    | none => pure st
    | some w =>
      let r := WeakPtr.move w
      pure { st with weak := st.weak.set k (some r.2) ++ [some r.1] }
  | .weakAssign k l =>
    match st.getWeak k, st.getWeak l with
    | some a, some c => do
      let (m, a) ← WeakPtr.assign st.m a c
      pure { st with m := m, weak := st.weak.set k (some a) }
    | _, _ => pure st
  | .weakMoveAssign k l =>
    match st.getWeak k, st.getWeak l with
    | some a, some c => do
      let (m, a, c) ← WeakPtr.moveAssign st.m a c
      pure { st with m := m, weak := (st.weak.set k (some a)).set l (some c) }
    | _, _ => pure st
  | .weakAssignShared k i =>
    match st.getWeak k, st.getShared i with
    | some a, some c => do
      let (m, a) ← WeakPtr.assignShared st.m a c
      pure { st with m := m, weak := st.weak.set k (some a) }
    | _, _ => pure st
  | .weakReset k =>
    match st.getWeak k with
    | none => pure st
    | some w => do
      let (m, w) ← WeakPtr.Reset st.m w
      pure { st with m := m, weak := st.weak.set k (some w) }
  | .weakSwap k l =>
    match st.getWeak k, st.getWeak l with
    | some a, some c =>
      let r := WeakPtr.Swap a c
      pure { st with weak := (st.weak.set k (some r.1)).set l (some r.2) }
    | _, _ => pure st
  | .weakDestroy k =>
    match st.getWeak k with
    | none => pure st
    | some w => do
      let m ← WeakPtr.dtor st.m w
      pure { st with m := m, weak := st.weak.set k none }

/-- Execution of a program. -/
def run (st : State) : List Op → Except Fault State
  | [] => pure st
  | op :: ops => do
    let st ← step st op
    run st ops

/-- The number of live `SharedPtr` variables whose `block_` is the block `b`. -/
def liveShared (b : Nat) (hs : List (Option SharedPtr)) : Nat :=
  hs.countP (fun h => h.any (fun x => x.block_ == some b))

/-- The number of live `WeakPtr` variables whose `block_` is the block `b`. -/
def liveWeak (b : Nat) (ws : List (Option WeakPtr)) : Nat :=
  ws.countP (fun w => w.any (fun x => x.block_ == some b))

/-- The statements that work on the handles of one control block: they create no
block, and an assignment takes its value from a different variable. -/
def Op.onOneBlock : Op → Bool
  | .copy _ | .move _ | .promote _ | .lock _ | .reset _ | .swap _ _ | .destroy _ => true
  | .assign i j | .moveAssign i j => i != j
  | .weakOf _ | .weakCopy _ | .weakMove _ | .weakReset _ | .weakSwap _ _
  | .weakDestroy _ | .weakAssignShared _ _ => true
  | .weakAssign k l | .weakMoveAssign k l => k != l
  | .adopt _ | .make _ | .aliasOf _ _ => false

/-- The program state right after `SharedPtr<T> a(new T)` in the machine `m`. -/
def afterAdopt (esft : Bool) (m : Machine) : Except Fault State :=
  step ⟨m, [], []⟩ (.adopt esft)

/-- The program state right after `SharedPtr<T> a = MakeShared<T>()` in the machine `m`. -/
def afterMake (esft : Bool) (m : Machine) : Except Fault State :=
  step ⟨m, [], []⟩ (.make esft)

/-- The program state after the first owner of a fresh object is declared in the
machine `m`: by `MakeShared` when `viaMake`, by adoption of `new T` otherwise.  The
new block has the number `m.blocks.length`, the new payload the number
`m.objects.length`. -/
def firstOwner (viaMake esft : Bool) (m : Machine) : Except Fault State :=
  if viaMake then afterMake esft m else afterAdopt esft m

/-! ## The bookkeeping invariant of one block

`Tracks b o m ns nw` relates the block `b` and its payload `o` in the machine `m` to the
number `ns` of live `SharedPtr` variables and the number `nw` of live `WeakPtr`
variables on the block. -/

/-- The two phases of a block: owned (`ns > 0`: the strong count is `ns`, the weak count
is `nw` plus the slots of the payload, nothing was destroyed or freed), and expired
(`ns = 0`: `DeleteObject` was called once, the payload was destroyed once, the block is
allocated with weak count `nw` while `nw > 0` and was freed once when `nw = 0`). -/
def Phase (b : Nat) (blk : ControlBlock) (obj : Object) (ns nw : Nat) : Prop :=
  (0 < ns ∧ blk.shared_counter_ = ns ∧ blk.weak_counter_ = nw + obj.slotsOn b ∧
    blk.deleteObjectCalls = 0 ∧ blk.deleteThisCalls = 0 ∧
    obj.dtorCalls = 0 ∧ obj.freeCalls = 0) ∨
  (ns = 0 ∧ blk.deleteObjectCalls = 1 ∧ obj.dtorCalls = 1 ∧
    obj.freeCalls = (if blk.kind = .Pointer then 1 else 0) ∧
    ((0 < nw ∧ blk.shared_counter_ = 0 ∧ blk.weak_counter_ = nw ∧ blk.deleteThisCalls = 0) ∨
     (nw = 0 ∧ blk.deleteThisCalls = 1)))

/-- The block `b` of the machine owns the payload `o`, whose weak slots are empty or hold
`b`, and is in the phase that `ns` and `nw` determine. -/
def Tracks (b o : Nat) (m : Machine) (ns nw : Nat) : Prop :=
  ∃ blk obj, m.blocks[b]? = some blk ∧ m.objects[o]? = some obj ∧ blk.ptr_ = some o ∧
    obj.slotsWithin b = true ∧ Phase b blk obj ns nw

/-- Every live `SharedPtr` variable is empty or on the block `b`. -/
def sharedWithin (b : Nat) (hs : List (Option SharedPtr)) : Prop :=
  ∀ x, some x ∈ hs → x.block_ = none ∨ x.block_ = some b

/-- Every live `WeakPtr` variable is empty or on the block `b`. -/
def weakWithin (b : Nat) (ws : List (Option WeakPtr)) : Prop :=
  ∀ x, some x ∈ ws → x.block_ = none ∨ x.block_ = some b

/-- The invariant of a client program on the handles of the block `b`. -/
def Inv (b o : Nat) (st : State) : Prop :=
  Tracks b o st.m (liveShared b st.shared) (liveWeak b st.weak) ∧
  sharedWithin b st.shared ∧ weakWithin b st.weak

/-! ## `CompressedPair`: which specialization is selected and what it exposes

`compressed_pair.h` is a set of class declarations.  A type is represented by the
traits the primary template reads, a specialization by what its declaration says:
the accessors declared in its `public:` section and the `CompressedPair` base it
derives from.  The keyword `class` makes a base private unless it is written
`public`. -/

/-- A C++ type, as far as `CompressedPair` looks at it: an identity (for
`std::is_same_v`) and the two traits `std::is_empty_v` and `std::is_final_v`. -/
structure CppType where
  id : Nat
  is_empty : Bool
  is_final : Bool
deriving DecidableEq

/-- Where an accessor takes the element it returns a reference to: a data member
(`return first_;`) or the object itself converted to its base (`return *this;`). -/
inductive ElementHome where
  | member
  | base
deriving DecidableEq

/-- The access of a base class. -/
inductive BaseAccess where
  | isPublic
  | isPrivate
deriving DecidableEq

/-- The declaration of one specialization: `accessors` is `some (f, s)` when its
`public:` section declares `GetFirst()` and `GetSecond()`, returning a `T1&` from `f` and
a `T2&` from `s`; `pairBase` is the `CompressedPair` specialization it derives from, with
the access of that base. -/
structure PairDecl where
  accessors : Option (ElementHome × ElementHome)
  pairBase : Option (BaseAccess × (Bool × Bool × Bool))
deriving DecidableEq

/-- The eight partial specializations `CompressedPair<T1, T2, c1, c2, same>` of
`compressed_pair.h`, in the order of the file. -/
def CompressedPair.decl : Bool → Bool → Bool → PairDecl
  | false, false, false => ⟨some (.member, .member), none⟩
  | false, false, true => ⟨none, some (.isPrivate, (false, false, false))⟩
  | false, true, false => ⟨some (.member, .base), none⟩
  | false, true, true => ⟨none, some (.isPrivate, (false, true, false))⟩
  | true, false, false => ⟨some (.base, .member), none⟩
  | true, false, true => ⟨none, some (.isPrivate, (true, false, false))⟩
  | true, true, false => ⟨some (.base, .base), none⟩
  | true, true, true => ⟨some (.member, .base), none⟩

/-- The default template arguments of the primary template:
`is_compressed_T = std::is_empty_v<T> && !std::is_final_v<T>` and
`is_same = std::is_same_v<T1, T2>`; the result is the declaration selected for
`CompressedPair<T1, T2>`. -/
def CompressedPair.select (T1 T2 : CppType) : PairDecl :=
  CompressedPair.decl (T1.is_empty && !T1.is_final) (T2.is_empty && !T2.is_final)
    (decide (T1 = T2))

/-- The accessors a client of the class can call: the ones the class declares in its
`public:` section, and the public ones of a base that is itself public. -/
def PairDecl.publicAccessors (d : PairDecl) : Option (ElementHome × ElementHome) :=
  match d.accessors with
  | some a => some a
  | none =>
    match d.pairBase with
    | some (.isPublic, (c1, c2, same)) => (CompressedPair.decl c1 c2 same).accessors
    | _ => none

/-! ## `IntrusivePtr` -/

/-- An object of a class derived from `SimpleRefCounted`: the field `count_` of its
`SimpleCounter`.  Ghost: `destroyCalls` counts the calls of `Deleter::Destroy` on it. -/
structure RefCountedObject where
  count_ : Nat
  destroyCalls : Nat
deriving DecidableEq

/-- The objects allocated so far; an address is an index. -/
abbrev RefHeap := List RefCountedObject

/-- The class `IntrusivePtr<T>`: its data member. -/
structure IntrusivePtr where
  ptr_ : Ptr
deriving DecidableEq

/-- Dereference a pointer to a counted object: it must be allocated and not destroyed. -/
def RefHeap.deref (h : RefHeap) (o : Nat) : Except Fault RefCountedObject :=
  match h[o]? with
  | some obj => if obj.destroyCalls = 0 then .ok obj else .error .undefined
  | none => .error .undefined

/-- Method `void RefCounted::IncRef()`: `counter_.IncRef()`, that is `count_++`. -/
def IncRef (h : RefHeap) (o : Nat) : Except Fault RefHeap := do
  let obj ← h.deref o
  pure (h.set o { obj with count_ := obj.count_ + 1 })

/-- Method `void RefCounted::DecRef()`: `count_--`, then `Deleter::Destroy(this)` when
the count is 0. -/
def DecRef (h : RefHeap) (o : Nat) : Except Fault RefHeap := do
  let obj ← h.deref o
  let obj := { obj with count_ := decSize obj.count_ }
  if obj.count_ = 0 then
    pure (h.set o { obj with destroyCalls := obj.destroyCalls + 1 })
  else
    pure (h.set o obj)

/-- Method `size_t RefCounted::RefCount() const`. -/
def RefCount (h : RefHeap) (o : Nat) : Except Fault Nat := do
  let obj ← h.deref o
  pure obj.count_

/-- Constructor `IntrusivePtr(T* ptr)`. -/
def IntrusivePtr.ofPtr (h : RefHeap) (ptr : Ptr) : Except Fault (RefHeap × IntrusivePtr) :=
  match ptr with
  | none => pure (h, ⟨ptr⟩)
  | some o => do
    let h ← IncRef h o
    pure (h, ⟨ptr⟩)

/-- Constructor `IntrusivePtr(const IntrusivePtr& other)` (also the template overload). -/
def IntrusivePtr.copy (h : RefHeap) (other : IntrusivePtr) :
    Except Fault (RefHeap × IntrusivePtr) :=
  match other.ptr_ with
  | none => pure (h, ⟨other.ptr_⟩)
  | some o => do
    let h ← IncRef h o
    pure (h, ⟨other.ptr_⟩)

/-- Constructor `IntrusivePtr(IntrusivePtr<Y>&& other)`: the new handle and what is left
in `other`. -/
def IntrusivePtr.move (other : IntrusivePtr) : IntrusivePtr × IntrusivePtr :=
  (⟨other.ptr_⟩, ⟨none⟩)

/-- Method `IntrusivePtr& operator=(const IntrusivePtr& other)`: the new value of `*this`. -/
def IntrusivePtr.assign (h : RefHeap) (self other : IntrusivePtr) :
    Except Fault (RefHeap × IntrusivePtr) :=
  if self.ptr_ = other.ptr_ then
    pure (h, self)
  else do
    let h ← (match self.ptr_ with
      | none => pure h
      | some o => DecRef h o)
    match other.ptr_ with
    | none => pure (h, ⟨other.ptr_⟩)
    | some o =>
      let h ← IncRef h o
      pure (h, ⟨other.ptr_⟩)

/-- Method `IntrusivePtr& operator=(IntrusivePtr&& other)`: the new values of `*this` and
of `other`. -/
def IntrusivePtr.moveAssign (h : RefHeap) (self other : IntrusivePtr) :
    Except Fault (RefHeap × IntrusivePtr × IntrusivePtr) :=
  if self.ptr_ = other.ptr_ then
    pure (h, self, other)
  else do
    let h ← (match self.ptr_ with
      | none => pure h
      | some o => DecRef h o)
    pure (h, ⟨other.ptr_⟩, ⟨none⟩)

/-- Destructor `IntrusivePtr::~IntrusivePtr()`. -/
def IntrusivePtr.dtor (h : RefHeap) (self : IntrusivePtr) : Except Fault RefHeap :=
  match self.ptr_ with
  | none => pure h
  | some o => DecRef h o

/-- Method `void IntrusivePtr::Reset()`. -/
def IntrusivePtr.Reset (h : RefHeap) (self : IntrusivePtr) :
    Except Fault (RefHeap × IntrusivePtr) := do
  let h ← (match self.ptr_ with
    | none => pure h
    | some o => DecRef h o)
  pure (h, ⟨none⟩)

/-- Method `void IntrusivePtr::Reset(T* ptr)`: the old object is released before the new
one is acquired, with no test whether they are the same. -/
def IntrusivePtr.ResetPtr (h : RefHeap) (self : IntrusivePtr) (ptr : Ptr) :
    Except Fault (RefHeap × IntrusivePtr) := do
  let h ← (match self.ptr_ with
    | none => pure h
    | some o => DecRef h o)
  match ptr with
  | none => pure (h, ⟨ptr⟩)
  | some o =>
    let h ← IncRef h o
    pure (h, ⟨ptr⟩)

/-- Method `void IntrusivePtr::Swap(IntrusivePtr& other)`: the new values of `*this` and
of `other`. -/
def IntrusivePtr.Swap (self other : IntrusivePtr) : IntrusivePtr × IntrusivePtr :=
  (⟨other.ptr_⟩, ⟨self.ptr_⟩)

/-- Method `T* IntrusivePtr::Get() const`. -/
def IntrusivePtr.Get (self : IntrusivePtr) : Ptr := self.ptr_

/-- Method `size_t IntrusivePtr::UseCount() const`. -/
def IntrusivePtr.UseCount (h : RefHeap) (self : IntrusivePtr) : Except Fault Nat :=
  match self.ptr_ with
  | none => pure 0
  | some o => RefCount h o

/-- Function `MakeIntrusive<T>(args...)`: `IntrusivePtr(new T(...))`; the counter of the
new object starts at 0. -/
def MakeIntrusive (h : RefHeap) : Except Fault (RefHeap × IntrusivePtr) :=
  IntrusivePtr.ofPtr (h ++ [⟨0, 0⟩]) (some h.length)

/-! ## Relations between the machine before and after a statement -/

/-- The strong side of the machine is untouched: the payloads are the same, and every
block is still there with the same strong count and the same number of `DeleteObject`
calls. -/
def StrongFrame (m m' : Machine) : Prop :=
  m'.objects = m.objects ∧ m'.blocks.length = m.blocks.length ∧
  ∀ (c : Nat) (blk : ControlBlock), m.blocks[c]? = some blk →
    ∃ blk' : ControlBlock, m'.blocks[c]? = some blk' ∧
      blk'.shared_counter_ = blk.shared_counter_ ∧
      blk'.deleteObjectCalls = blk.deleteObjectCalls

/-- The `WeakPtr` statements other than `Lock` and promotion. -/
def Op.isWeakOnly : Op → Bool
  | .weakOf _ | .weakCopy _ | .weakMove _ | .weakAssign _ _ | .weakMoveAssign _ _
  | .weakAssignShared _ _ | .weakReset _ | .weakSwap _ _ | .weakDestroy _ => true
  | _ => false

/-- A relation between machines that every change of a weak counter respects. -/
structure RespectsWeak (R : Machine → Machine → Prop) : Prop where
  refl : ∀ m, R m m
  trans : ∀ a b c, R a b → R b c → R a c
  incW : ∀ m b m', IncWCounter m b = .ok m' → R m m'
  decW : ∀ m b m', DecWCounter m b = .ok m' → R m m'

/-- A relation between machines that every change of a counter respects. -/
structure RespectsAll (R : Machine → Machine → Prop) extends RespectsWeak R : Prop where
  incS : ∀ m b m', IncSCounter m b = .ok m' → R m m'
  decS : ∀ m b m', DecSCounter m b = .ok m' → R m m'

/-- The statements that allocate a control block. -/
def Op.createsBlock : Op → Bool
  | .adopt _ | .make _ => true
  | _ => false

/-! ## What a statement does to the variable tables -/

/-- The live variable number `i` of a table, if there is one. -/
def lookup {α : Type} (l : List (Option α)) (i : Nat) : Option α :=
  match l[i]? with
  | some (some h) => some h
  | _ => none

/-- The variable tables after a statement that allocates no block, given for each weak
handle whether its `UseCount()` is non-zero (`live`).  This is the part of `step` that
does not look at the machine. -/
def storeStep (live : WeakPtr → Bool) (S : List (Option SharedPtr))
    (W : List (Option WeakPtr)) : Op → List (Option SharedPtr) × List (Option WeakPtr)
  | .adopt _ => (S, W)
  | .make _ => (S, W)
  | .copy i =>
    match lookup S i with
    | none => (S, W)
    | some h => (S ++ [some ⟨h.ptr_, h.block_⟩], W)
  | .move i =>
    match lookup S i with
    | none => (S, W)
    | some h => (S.set i (some ⟨none, none⟩) ++ [some ⟨h.ptr_, h.block_⟩], W)
  | .aliasOf i p =>
    match lookup S i with
    | none => (S, W)
    | some h => (S ++ [some ⟨p, h.block_⟩], W)
  | .promote k =>
    match lookup W k with
    | none => (S, W)
    | some w => if live w then (S ++ [some ⟨w.ptr_, w.block_⟩], W) else (S, W)
  | .lock k =>
    match lookup W k with
    | none => (S, W)
    | some w =>
      if live w then (S ++ [some ⟨w.ptr_, w.block_⟩], W) else (S ++ [some ⟨none, none⟩], W)
  | .assign i j =>
    match lookup S i, lookup S j with
    | some _, some c => (S.set i (some ⟨c.ptr_, c.block_⟩), W)
    | _, _ => (S, W)
  | .moveAssign i j =>
    match lookup S i, lookup S j with
    | some _, some c => ((S.set i (some ⟨c.ptr_, c.block_⟩)).set j (some ⟨none, none⟩), W)
    | _, _ => (S, W)
  | .reset i =>
    match lookup S i with
    | none => (S, W)
    | some h =>
      (S.set i (some (match h.block_ with
        | none => h
        | some _ => ⟨none, none⟩)), W)
  | .swap i j =>
    match lookup S i, lookup S j with
    | some a, some c =>
      ((S.set i (some ⟨c.ptr_, c.block_⟩)).set j (some ⟨a.ptr_, a.block_⟩), W)
    | _, _ => (S, W)
  | .destroy i =>
    match lookup S i with
    | none => (S, W)
    | some _ => (S.set i none, W)
  | .weakOf i =>
    match lookup S i with
    | none => (S, W)
    | some h => (S, W ++ [some ⟨h.ptr_, h.block_⟩])
  | .weakCopy k =>
    match lookup W k with
    | none => (S, W)
    | some w => (S, W ++ [some ⟨w.ptr_, w.block_⟩])
  | .weakMove k =>
    match lookup W k with
    | none => (S, W)
    | some w => (S, W.set k (some ⟨none, none⟩) ++ [some ⟨w.ptr_, w.block_⟩])
  | .weakAssign k l =>
    match lookup W k, lookup W l with
    | some _, some c => (S, W.set k (some ⟨c.ptr_, c.block_⟩))
    | _, _ => (S, W)
  | .weakMoveAssign k l =>
    match lookup W k, lookup W l with
    | some _, some c => (S, (W.set k (some ⟨c.ptr_, c.block_⟩)).set l (some ⟨none, none⟩))
    | _, _ => (S, W)
  | .weakAssignShared k i =>
    match lookup W k, lookup S i with
    | some _, some c => (S, W.set k (some ⟨c.ptr_, c.block_⟩))
    | _, _ => (S, W)
  | .weakReset k =>
    match lookup W k with
    | none => (S, W)
    | some w =>
      (S, W.set k (some (match w.block_ with
        | none => w
        | some _ => ⟨none, none⟩)))
  | .weakSwap k l =>
    match lookup W k, lookup W l with
    | some a, some c =>
      (S, (W.set k (some ⟨c.ptr_, c.block_⟩)).set l (some ⟨a.ptr_, a.block_⟩))
    | _, _ => (S, W)
  | .weakDestroy k =>
    match lookup W k with
    | none => (S, W)
    | some _ => (S, W.set k none)

/-- Whether `UseCount()` of a weak handle returns a non-zero value in the machine `m`. -/
def usable (m : Machine) (w : WeakPtr) : Bool :=
  match w.UseCount m with
  | .ok n => n != 0
  | .error _ => false

/-- Every payload that is alive in `m'` (neither destroyed nor released) is the same
object in `m`: a statement changes a payload only by destroying or releasing it. -/
def ObjMono (m m' : Machine) : Prop :=
  m'.objects.length = m.objects.length ∧
  ∀ (o : Nat) (obj : Object), m'.objects[o]? = some obj →
    obj.dtorCalls = 0 → obj.freeCalls = 0 → m.objects[o]? = some obj

/-- The strong count of the block number `c` as the handles see it: the field
`shared_counter_` of a block that is allocated and not freed, 0 for a block that was
freed or never allocated. -/
def strongCount (m : Machine) (c : Nat) : Nat :=
  match m.blocks[c]? with
  | some blk => if blk.deleteThisCalls = 0 then blk.shared_counter_ else 0
  | none => 0

/-- The strong count of every block is the number of live `SharedPtr` variables on it;
in particular no live `SharedPtr` variable is on a freed block. -/
def Counted (st : State) : Prop :=
  ∀ c, strongCount st.m c = liveShared c st.shared

/-- The strong counts seen by the handles are the same in both machines. -/
def SameStrong (m m' : Machine) : Prop :=
  ∀ c, strongCount m' c = strongCount m c

/-! ## `UniquePtr`

The three versions of the class in `unique.h` (`UniquePtr<T, Deleter>`,
`UniquePtr<T[], Deleter>` and `UniquePtr<void, Deleter>`) have the same `Get`, `Release`,
`Reset`, assignment from `nullptr` and destructor.  The deleter is a callable that the
client supplies; what a call of it does is outside `unique.h`, so a call is recorded in
a log, oldest call first. -/

/-- One call `(data_.GetSecond())(arg)` of a deleter (ghost): which deleter was called,
its argument, and the pointer that `data_.GetFirst()` of the calling `UniquePtr` held
when the call was made. -/
structure DeleterCall where
  deleter : Nat
  arg : Ptr
  held : Ptr
deriving DecidableEq

/-- The class `UniquePtr`: the two elements of its member `data_`, `first` for
`data_.GetFirst()` and `second` for `data_.GetSecond()`, the deleter, identified by a
number. -/
structure UniquePtr where
  first : Ptr
  second : Nat
deriving DecidableEq

/-- Method `T* UniquePtr::Get() const`. -/
def UniquePtr.Get (self : UniquePtr) : Ptr := self.first

/-- Method `T* UniquePtr::Release()`: the pointer returned and the new value of `*this`. -/
def UniquePtr.Release (self : UniquePtr) : Ptr × UniquePtr :=
  let ptr := self.first
  (ptr, { self with first := none })

/-- Method `void UniquePtr::Reset(T* ptr = nullptr)`: the held pointer is read, `ptr` is
stored, and then the deleter is called on the pointer read, with no null test. -/
def UniquePtr.Reset (log : List DeleterCall) (self : UniquePtr) (ptr : Ptr) :
    List DeleterCall × UniquePtr :=
  let old := self.first
  let self := { self with first := ptr }
  (log ++ [⟨self.second, old, self.first⟩], self)

/-- Method `UniquePtr& operator=(std::nullptr_t)`: the call `Reset()`. -/
def UniquePtr.assignNull (log : List DeleterCall) (self : UniquePtr) :
    List DeleterCall × UniquePtr :=
  UniquePtr.Reset log self none

/-- Destructor `UniquePtr::~UniquePtr()`: the deleter is called only under the test
`data_.GetFirst() != nullptr`. -/
def UniquePtr.dtor (log : List DeleterCall) (self : UniquePtr) : List DeleterCall :=
  if self.first ≠ none then
    log ++ [⟨self.second, self.first, self.first⟩]
  else
    log

end SmartPointers


/-! # Theorems -/

namespace SmartPointers

/-! ## The heap -/

theorem derefBlock_eq_ok {m : Machine} {b : Nat} {blk : ControlBlock} :
    m.derefBlock b = .ok blk ↔ m.blocks[b]? = some blk ∧ blk.deleteThisCalls = 0 := by
  unfold Machine.derefBlock
  cases h : m.blocks[b]? with
  | none => simp
  | some x =>
    by_cases hx : x.deleteThisCalls = 0
    · simp [hx]
      rintro rfl; exact hx
    · simp [hx]
      rintro rfl; exact hx

theorem derefObject_eq_ok {m : Machine} {o : Nat} {obj : Object} :
    m.derefObject o = .ok obj ↔
      m.objects[o]? = some obj ∧ obj.dtorCalls = 0 ∧ obj.freeCalls = 0 := by
  unfold Machine.derefObject
  cases h : m.objects[o]? with
  | none => simp
  | some x =>
    by_cases hx : x.dtorCalls = 0 ∧ x.freeCalls = 0
    · simp [hx]
      rintro rfl; exact hx
    · simp [hx]
      rintro rfl h1 h2; exact hx ⟨h1, h2⟩

@[simp] theorem writeBlock_objects (m : Machine) (b : Nat) (blk : ControlBlock) :
    (m.writeBlock b blk).objects = m.objects := rfl

@[simp] theorem writeBlock_blocks (m : Machine) (b : Nat) (blk : ControlBlock) :
    (m.writeBlock b blk).blocks = m.blocks.set b blk := rfl

@[simp] theorem writeObject_blocks (m : Machine) (o : Nat) (obj : Object) :
    (m.writeObject o obj).blocks = m.blocks := rfl

@[simp] theorem writeObject_objects (m : Machine) (o : Nat) (obj : Object) :
    (m.writeObject o obj).objects = m.objects.set o obj := rfl

@[simp] theorem derefBlock_writeObject (m : Machine) (o b : Nat) (obj : Object) :
    (m.writeObject o obj).derefBlock b = m.derefBlock b := rfl

@[simp] theorem derefObject_writeBlock (m : Machine) (o b : Nat) (blk : ControlBlock) :
    (m.writeBlock b blk).derefObject o = m.derefObject o := rfl

theorem writeBlock_writeBlock (m : Machine) (b : Nat) (x y : ControlBlock) :
    (m.writeBlock b x).writeBlock b y = m.writeBlock b y := by
  simp [Machine.writeBlock]

theorem writeBlock_writeObject (m : Machine) (b o : Nat) (x : ControlBlock) (y : Object) :
    (m.writeBlock b x).writeObject o y = (m.writeObject o y).writeBlock b x := rfl

theorem writeObject_writeObject (m : Machine) (o : Nat) (x y : Object) :
    (m.writeObject o x).writeObject o y = m.writeObject o y := by
  simp [Machine.writeObject]

theorem writeBlock_same {m : Machine} {b : Nat} {blk : ControlBlock}
    (h : m.blocks[b]? = some blk) : m.writeBlock b blk = m := by
  cases m with
  | mk bs os =>
    simp only [Machine.writeBlock, Machine.mk.injEq, and_true]
    simp only at h
    apply List.ext_getElem?
    intro i
    by_cases hi : b = i
    · subst hi
      rw [List.getElem?_set_self (by
        rcases List.getElem?_eq_some_iff.mp h with ⟨hl, _⟩; exact hl), h]
    · rw [List.getElem?_set_ne hi]

theorem derefBlock_writeBlock {m : Machine} {b : Nat} {old blk : ControlBlock}
    (h : m.blocks[b]? = some old) :
    (m.writeBlock b blk).derefBlock b =
      if blk.deleteThisCalls = 0 then .ok blk else .error .undefined := by
  have hl : b < m.blocks.length := (List.getElem?_eq_some_iff.mp h).1
  simp [Machine.derefBlock, List.getElem?_set_self hl]

theorem blocks_writeBlock_self {m : Machine} {b : Nat} {old blk : ControlBlock}
    (h : m.blocks[b]? = some old) : (m.writeBlock b blk).blocks[b]? = some blk := by
  have hl : b < m.blocks.length := (List.getElem?_eq_some_iff.mp h).1
  simp [List.getElem?_set_self hl]

/-! ## The counters -/

theorem decSize_pos {x : Nat} (h : 1 ≤ x) : decSize x = x - 1 := by
  unfold decSize
  rw [if_neg (by omega)]

theorem IncSCounter_ok {m : Machine} {b : Nat} {blk : ControlBlock}
    (h : m.derefBlock b = .ok blk) :
    IncSCounter m b =
      .ok (m.writeBlock b { blk with shared_counter_ := blk.shared_counter_ + 1 }) := by
  simp [IncSCounter, h]

theorem IncWCounter_ok {m : Machine} {b : Nat} {blk : ControlBlock}
    (h : m.derefBlock b = .ok blk) :
    IncWCounter m b =
      .ok (m.writeBlock b { blk with weak_counter_ := blk.weak_counter_ + 1 }) := by
  simp [IncWCounter, h]

theorem GetSCounter_ok {m : Machine} {b : Nat} {blk : ControlBlock}
    (h : m.derefBlock b = .ok blk) : GetSCounter m b = .ok blk.shared_counter_ := by
  simp [GetSCounter, h]

theorem DecWCounter_keep {m : Machine} {b : Nat} {blk : ControlBlock}
    (h : m.derefBlock b = .ok blk) (hw : 1 ≤ blk.weak_counter_)
    (hk : ¬ (blk.weak_counter_ = 1 ∧ blk.shared_counter_ = 0)) :
    DecWCounter m b =
      .ok (m.writeBlock b { blk with weak_counter_ := blk.weak_counter_ - 1 }) := by
  have hk' : ¬ (blk.weak_counter_ - 1 = 0 ∧ blk.shared_counter_ = 0) := by
    rintro ⟨h1, h2⟩; exact hk ⟨by omega, h2⟩
  simp [DecWCounter, h, decSize_pos hw, hk', bind, Except.bind, pure, Except.pure]

theorem DecWCounter_free {m : Machine} {b : Nat} {blk : ControlBlock}
    (h : m.derefBlock b = .ok blk) (hw : blk.weak_counter_ = 1)
    (hs : blk.shared_counter_ = 0) :
    DecWCounter m b =
      .ok (m.writeBlock b { blk with weak_counter_ := 0, deleteThisCalls := 1 }) := by
  have hd : blk.deleteThisCalls = 0 := (derefBlock_eq_ok.mp h).2
  simp [DecWCounter, h, hw, hs, hd, decSize, bind, Except.bind, pure, Except.pure]

theorem destroyObject_ok {m : Machine} {o b : Nat} {obj : Object} {blk : ControlBlock}
    (ho : m.derefObject o = .ok obj) (hb : m.derefBlock b = .ok blk)
    (hs : blk.shared_counter_ ≠ 0) (hin : obj.slotsWithin b = true)
    (hk : obj.slotsOn b ≤ blk.weak_counter_) :
    destroyObject m o =
      .ok ((m.writeObject o { obj with dtorCalls := obj.dtorCalls + 1 }).writeBlock b
        { blk with weak_counter_ := blk.weak_counter_ - obj.slotsOn b }) := by
  have hbb := (derefBlock_eq_ok.mp hb).1
  have hd := (derefBlock_eq_ok.mp hb).2
  unfold destroyObject
  simp only [ho, bind, Except.bind]
  cases hbase : obj.base with
  | none =>
    simp only [Object.slotsOn, hbase, Nat.sub_zero]
    rw [writeBlock_same (by simpa using hbb)]
    rfl
  | some e =>
    simp only [Object.slotsWithin, hbase, Bool.and_eq_true, Bool.or_eq_true, beq_iff_eq] at hin
    simp only [Object.slotsOn, hbase, slotOn] at hk ⊢
    obtain ⟨h1, h2⟩ := hin
    rcases h1 with h1 | h1 <;> rcases h2 with h2 | h2
    · simp only [WeakPtr.dtor, h1, h2, pure, Except.pure]
      rw [writeBlock_same (by simpa using hbb)]
    · simp only [WeakPtr.dtor, h1, h2, pure, Except.pure] at hk ⊢
      simp only [if_true, reduceCtorEq, if_false] at hk ⊢
      rw [@DecWCounter_keep _ b blk (by simpa using hb) (by omega) (by omega)]
    · simp only [WeakPtr.dtor, h1, h2, pure, Except.pure] at hk ⊢
      simp only [if_true, reduceCtorEq, if_false] at hk ⊢
      rw [@DecWCounter_keep _ b blk (by simpa using hb) (by omega) (by omega)]
    · simp only [WeakPtr.dtor, h1, h2, pure, Except.pure] at hk ⊢
      simp only [if_true] at hk ⊢
      rw [@DecWCounter_keep _ b blk (by simpa using hb) (by omega) (by omega)]
      simp only []
      rw [@DecWCounter_keep _ b { blk with weak_counter_ := blk.weak_counter_ - 1 }
        (by rw [@derefBlock_writeBlock _ b blk _ (by simpa using hbb)]; simp [hd])
        (by simp; omega) (by simp; omega)]
      simp only [writeBlock_writeBlock]
      have h2 : blk.weak_counter_ - 1 - 1 = blk.weak_counter_ - (1 + 1) := by omega
      rw [h2]

theorem DeleteObject_ok {m : Machine} {o b : Nat} {obj : Object} {blk : ControlBlock}
    (hb : m.derefBlock b = .ok blk) (hp : blk.ptr_ = some o)
    (ho : m.derefObject o = .ok obj)
    (hs : blk.shared_counter_ ≠ 0) (hin : obj.slotsWithin b = true)
    (hk : obj.slotsOn b ≤ blk.weak_counter_) :
    DeleteObject m b =
      .ok ((m.writeObject o (obj.deleted blk.kind)).writeBlock b
        { blk with
          weak_counter_ := blk.weak_counter_ - obj.slotsOn b
          deleteObjectCalls := blk.deleteObjectCalls + 1 }) := by
  have hoo := (derefObject_eq_ok.mp ho).1
  have hf := (derefObject_eq_ok.mp ho).2.2
  have hol : o < m.objects.length := (List.getElem?_eq_some_iff.mp hoo).1
  cases blk with
  | mk s w kind ptr doc dtc =>
    have hbb := (derefBlock_eq_ok.mp hb).1
    have hd := (derefBlock_eq_ok.mp hb).2
    simp only at hp hs hk hd
    subst hp hd
    have hb1 : (m.writeBlock b ⟨s, w, kind, some o, doc + 1, 0⟩).derefBlock b
        = .ok ⟨s, w, kind, some o, doc + 1, 0⟩ := by
      rw [derefBlock_writeBlock hbb]; simp
    have hd1 := destroyObject_ok (m := m.writeBlock b ⟨s, w, kind, some o, doc + 1, 0⟩)
      (by simpa using ho) hb1 hs hin hk
    unfold DeleteObject
    simp only [hb, bind, Except.bind]
    cases kind with
    | Pointer =>
      simp only [hd1, freeObject, writeBlock_objects, writeObject_objects,
        List.getElem?_set_self hol, hf, if_true, pure, Except.pure]
      simp [Machine.writeBlock, Machine.writeObject, Object.deleted, hf]
    | Holder =>
      simp only [hd1]
      simp [Machine.writeBlock, Machine.writeObject, Object.deleted]

theorem DeleteObject_null {m : Machine} {b : Nat} {blk : ControlBlock}
    (hb : m.derefBlock b = .ok blk) (hp : blk.ptr_ = none) (hkind : blk.kind = .Pointer) :
    DeleteObject m b =
      .ok (m.writeBlock b { blk with deleteObjectCalls := blk.deleteObjectCalls + 1 }) := by
  unfold DeleteObject
  simp only [hb, bind, Except.bind, hp, hkind]
  rfl

theorem DecSCounter_many {m : Machine} {b : Nat} {blk : ControlBlock}
    (hb : m.derefBlock b = .ok blk) (hs : 2 ≤ blk.shared_counter_) :
    DecSCounter m b =
      .ok (m.writeBlock b { blk with shared_counter_ := blk.shared_counter_ - 1 }) := by
  unfold DecSCounter
  have h1 : ¬ blk.shared_counter_ = 1 := by omega
  simp only [hb, bind, Except.bind, h1, if_false, decSize_pos (show 1 ≤ blk.shared_counter_ by omega)]
  rfl

theorem DecSCounter_last {m : Machine} {o b : Nat} {obj : Object} {blk : ControlBlock}
    (hb : m.derefBlock b = .ok blk) (hp : blk.ptr_ = some o)
    (ho : m.derefObject o = .ok obj)
    (hs : blk.shared_counter_ = 1) (hin : obj.slotsWithin b = true)
    (hk : obj.slotsOn b ≤ blk.weak_counter_) :
    DecSCounter m b =
      .ok ((m.writeObject o (obj.deleted blk.kind)).writeBlock b
        (blk.released (obj.slotsOn b))) := by
  have hbb := (derefBlock_eq_ok.mp hb).1
  have hd := (derefBlock_eq_ok.mp hb).2
  unfold DecSCounter
  simp only [hb, bind, Except.bind, hs, if_true,
    DeleteObject_ok hb hp ho (by omega) hin hk]
  rw [@derefBlock_writeBlock _ b blk _ (by simpa using hbb)]
  simp only [hd, if_true, ControlBlock.released]
  by_cases hw : blk.weak_counter_ - obj.slotsOn b = 0
  · simp [hw, writeBlock_writeBlock, pure, Except.pure, hs, hd]
  · simp [hw, writeBlock_writeBlock, pure, Except.pure, hs, decSize]

theorem DecSCounter_last_null {m : Machine} {b : Nat} {blk : ControlBlock}
    (hb : m.derefBlock b = .ok blk) (hp : blk.ptr_ = none) (hkind : blk.kind = .Pointer)
    (hs : blk.shared_counter_ = 1) :
    DecSCounter m b = .ok (m.writeBlock b (blk.released 0)) := by
  have hbb := (derefBlock_eq_ok.mp hb).1
  have hd := (derefBlock_eq_ok.mp hb).2
  unfold DecSCounter
  simp only [hb, bind, Except.bind, hs, if_true, DeleteObject_null hb hp hkind]
  rw [@derefBlock_writeBlock _ b blk _ (by simpa using hbb)]
  simp only [hd, if_true, ControlBlock.released, Nat.sub_zero]
  by_cases hw : blk.weak_counter_ = 0
  · simp [hw, writeBlock_writeBlock, pure, Except.pure, hs, hd]
  · simp [hw, writeBlock_writeBlock, pure, Except.pure, hs, decSize]

theorem payloadSlots_writeBlock (m : Machine) (b c : Nat) (x blk blk' : ControlBlock)
    (hp : blk'.ptr_ = blk.ptr_) (hk : blk'.kind = blk.kind) :
    payloadSlots (m.writeBlock c x) b blk' = payloadSlots m b blk := by
  simp [payloadSlots, hp, hk]

theorem DecSCounter_last_payload {m : Machine} {b k : Nat} {blk : ControlBlock}
    (hb : m.derefBlock b = .ok blk) (hs : blk.shared_counter_ = 1)
    (hp : payloadSlots m b blk = some k) (hk : k ≤ blk.weak_counter_) :
    ∃ m', DecSCounter m b = .ok m' ∧ m'.blocks[b]? = some (blk.released k) := by
  have hbb := (derefBlock_eq_ok.mp hb).1
  unfold payloadSlots at hp
  cases hptr : blk.ptr_ with
  | none =>
    simp only [hptr] at hp
    by_cases hkind : blk.kind = .Pointer
    · simp only [hkind, if_true, Option.some.injEq] at hp
      subst hp
      exact ⟨_, DecSCounter_last_null hb hptr hkind hs, blocks_writeBlock_self hbb⟩
    · simp [hkind] at hp
  | some o =>
    simp only [hptr] at hp
    cases ho : m.derefObject o with
    | error e => simp [ho] at hp
    | ok obj =>
      simp only [ho] at hp
      by_cases hin : obj.slotsWithin b = true
      · simp only [hin, if_true, Option.some.injEq] at hp
        subst hp
        exact ⟨_, DecSCounter_last hb hptr ho hs hin hk,
          blocks_writeBlock_self (by simpa using hbb)⟩
      · simp [hin] at hp

/-! ## `DecWCounter` and `DecSCounter` on one block -/

/-- C9. For every allocated control block with weak count `w ≥ 1` and strong count `s`,
`DecWCounter` returns; it writes this block only (so no payload is touched and no
`DeleteObject` is invoked, here or elsewhere); the weak count becomes `w - 1`, the
strong count and the number of `DeleteObject` calls stay; `delete this` is executed
(once) if and only if `w = 1` and `s = 0`. -/
theorem C9_DecWCounter (m : Machine) (b : Nat) (blk : ControlBlock)
    (hb : m.derefBlock b = .ok blk) (hw : 1 ≤ blk.weak_counter_) :
    ∃ blk', DecWCounter m b = .ok (m.writeBlock b blk') ∧
      blk'.weak_counter_ = blk.weak_counter_ - 1 ∧
      blk'.shared_counter_ = blk.shared_counter_ ∧
      blk'.deleteObjectCalls = blk.deleteObjectCalls ∧
      (m.writeBlock b blk').objects = m.objects ∧
      (blk'.deleteThisCalls = 1 ↔ (blk.weak_counter_ = 1 ∧ blk.shared_counter_ = 0)) ∧
      (blk'.deleteThisCalls = 0 ↔ ¬ (blk.weak_counter_ = 1 ∧ blk.shared_counter_ = 0)) := by
  have hd := (derefBlock_eq_ok.mp hb).2
  by_cases hk : blk.weak_counter_ = 1 ∧ blk.shared_counter_ = 0
  · refine ⟨_, DecWCounter_free hb hk.1 hk.2, ?_⟩
    simp [hk]
  · refine ⟨_, DecWCounter_keep hb hw hk, ?_⟩
    simp [hk, hd]

/-- C9, at a block with one weak reference left and no strong one: the call frees it. -/
theorem C9_DecWCounter_witness :
    ∃ blk', DecWCounter ⟨[⟨0, 1, .Pointer, none, 1, 0⟩], []⟩ 0 =
        .ok ((⟨[⟨0, 1, .Pointer, none, 1, 0⟩], []⟩ : Machine).writeBlock 0 blk') ∧
      blk'.weak_counter_ = 1 - 1 ∧ blk'.shared_counter_ = 0 ∧ blk'.deleteObjectCalls = 1 ∧
      ((⟨[⟨0, 1, .Pointer, none, 1, 0⟩], []⟩ : Machine).writeBlock 0 blk').objects = [] ∧
      (blk'.deleteThisCalls = 1 ↔ ((1 : Nat) = 1 ∧ (0 : Nat) = 0)) ∧
      (blk'.deleteThisCalls = 0 ↔ ¬ ((1 : Nat) = 1 ∧ (0 : Nat) = 0)) :=
  C9_DecWCounter ⟨[⟨0, 1, .Pointer, none, 1, 0⟩], []⟩ 0 ⟨0, 1, .Pointer, none, 1, 0⟩
    (by decide) (by decide)

/-- C8, as stated, fails on the block of a self-observing payload.  Right after
`MakeShared` the block has strong count 1 and weak count 2 (the two slots inside the
payload).  `DecSCounter` then invokes `DeleteObject`, which destroys the payload and
with it the two slots: the weak count drops to 0 and the block is freed, although
the weak count was not 0 before the call and the claim has it unchanged. -/
theorem C8_counterexample :
    MakeShared true ⟨[], []⟩ =
      .ok (⟨[⟨1, 2, .Holder, some 0, 0, 0⟩],
            [⟨some ⟨⟨some 0, some 0⟩, ⟨some 0, some 0⟩⟩, 0, 0⟩]⟩, ⟨some 0, some 0⟩) ∧
    DecSCounter ⟨[⟨1, 2, .Holder, some 0, 0, 0⟩],
        [⟨some ⟨⟨some 0, some 0⟩, ⟨some 0, some 0⟩⟩, 0, 0⟩]⟩ 0 =
      .ok ⟨[⟨1, 0, .Holder, some 0, 1, 1⟩],
           [⟨some ⟨⟨some 0, some 0⟩, ⟨some 0, some 0⟩⟩, 1, 0⟩]⟩ := by
  decide

/-- C8 (amended). For every allocated control block with strong count `s ≥ 1` and weak
count `w`, whose payload is alive and keeps `k ≤ w` of the weak references in its own
slots (`k = 0` for a payload without the self-observing capability): `DecSCounter`
returns; if `s = 1` it invokes `DeleteObject` once, which leaves the weak count at
`w - k`, and then frees the block if `w - k = 0` and otherwise sets the strong count
to 0 without freeing; if `s ≥ 2` it sets the strong count to `s - 1`, invokes no
`DeleteObject`, frees nothing and leaves the weak count and the payloads alone.  The
strong count never wraps below 0. -/
theorem C8_DecSCounter (m : Machine) (b k : Nat) (blk : ControlBlock)
    (hb : m.derefBlock b = .ok blk) (hs : 1 ≤ blk.shared_counter_)
    (hp : payloadSlots m b blk = some k) (hk : k ≤ blk.weak_counter_) :
    ∃ m' blk', DecSCounter m b = .ok m' ∧ m'.blocks[b]? = some blk' ∧
      blk'.shared_counter_ ≤ blk.shared_counter_ ∧
      (blk.shared_counter_ = 1 →
        blk'.deleteObjectCalls = blk.deleteObjectCalls + 1 ∧
        blk'.weak_counter_ = blk.weak_counter_ - k ∧
        (blk.weak_counter_ - k = 0 → blk'.deleteThisCalls = 1) ∧
        (blk.weak_counter_ - k ≠ 0 → blk'.deleteThisCalls = 0 ∧ blk'.shared_counter_ = 0)) ∧
      (2 ≤ blk.shared_counter_ →
        blk'.shared_counter_ = blk.shared_counter_ - 1 ∧
        blk'.deleteObjectCalls = blk.deleteObjectCalls ∧
        blk'.deleteThisCalls = 0 ∧
        blk'.weak_counter_ = blk.weak_counter_ ∧
        m'.objects = m.objects) := by
  have hbb := (derefBlock_eq_ok.mp hb).1
  have hd := (derefBlock_eq_ok.mp hb).2
  by_cases h2 : 2 ≤ blk.shared_counter_
  · refine ⟨_, _, DecSCounter_many hb h2, blocks_writeBlock_self hbb, ?_, ?_, ?_⟩
    · simp only; omega
    · intro h1; omega
    · intro _; exact ⟨rfl, rfl, hd, rfl, rfl⟩
  · have h1 : blk.shared_counter_ = 1 := by omega
    obtain ⟨m', hdec, hm'⟩ := DecSCounter_last_payload hb h1 hp hk
    refine ⟨m', blk.released k, hdec, hm', ?_⟩
    unfold ControlBlock.released
    by_cases hw : blk.weak_counter_ - k = 0
    · simp [hw, hd]; omega
    · simp [hw, hd]; omega

/-- C8 (amended), at the block of a self-observing payload with one strong owner, the
two slots and one more weak handle. -/
theorem C8_DecSCounter_witness :
    ∃ m' blk', DecSCounter ⟨[⟨1, 3, .Holder, some 0, 0, 0⟩],
        [⟨some ⟨⟨some 0, some 0⟩, ⟨some 0, some 0⟩⟩, 0, 0⟩]⟩ 0 = .ok m' ∧
      m'.blocks[0]? = some blk' ∧
      blk'.shared_counter_ ≤ 1 ∧
      ((1 : Nat) = 1 →
        blk'.deleteObjectCalls = 0 + 1 ∧
        blk'.weak_counter_ = 3 - 2 ∧
        (3 - 2 = 0 → blk'.deleteThisCalls = 1) ∧
        (3 - 2 ≠ 0 → blk'.deleteThisCalls = 0 ∧ blk'.shared_counter_ = 0)) ∧
      (2 ≤ 1 →
        blk'.shared_counter_ = 1 - 1 ∧
        blk'.deleteObjectCalls = 0 ∧
        blk'.deleteThisCalls = 0 ∧
        blk'.weak_counter_ = 3 ∧
        m'.objects = [⟨some ⟨⟨some 0, some 0⟩, ⟨some 0, some 0⟩⟩, 0, 0⟩]) :=
  C8_DecSCounter ⟨[⟨1, 3, .Holder, some 0, 0, 0⟩],
    [⟨some ⟨⟨some 0, some 0⟩, ⟨some 0, some 0⟩⟩, 0, 0⟩]⟩ 0 2 ⟨1, 3, .Holder, some 0, 0, 0⟩
    (by decide) (by decide) (by decide) (by decide)

/-! ## Promotion, `Lock`, `Get` -/

theorem WeakPtr_UseCount_cases {m : Machine} {w : WeakPtr} {n : Nat}
    (h : w.UseCount m = .ok n) :
    (w.block_ = none ∧ n = 0) ∨
      ∃ b blk, w.block_ = some b ∧ m.derefBlock b = .ok blk ∧ blk.shared_counter_ = n := by
  unfold WeakPtr.UseCount at h
  cases hb : w.block_ with
  | none =>
    simp only [hb, pure, Except.pure, Except.ok.injEq] at h
    exact Or.inl ⟨rfl, h.symm⟩
  | some b =>
    simp only [hb, GetSCounter] at h
    cases hd : m.derefBlock b with
    | error e => simp [hd, bind, Except.bind] at h
    | ok blk =>
      simp only [hd, bind, Except.bind, pure, Except.pure, Except.ok.injEq] at h
      exact Or.inr ⟨b, blk, rfl, hd, h⟩

/-- The returning half of promotion, shared by `Lock`. -/
theorem ofWeak_returns (m : Machine) (w : WeakPtr) (n : Nat) (h : w.UseCount m = .ok n) :
    n ≠ 0 → ∃ b blk, w.block_ = some b ∧ m.derefBlock b = .ok blk ∧
      blk.shared_counter_ = n ∧
      SharedPtr.ofWeak m w =
        .ok (m.writeBlock b { blk with shared_counter_ := blk.shared_counter_ + 1 },
          ⟨w.ptr_, w.block_⟩) := by
  intro h0
  rcases WeakPtr_UseCount_cases h with ⟨_, hn⟩ | ⟨b, blk, hb, hd, hn⟩
  · exact absurd hn h0
  · refine ⟨b, blk, hb, hd, hn, ?_⟩
    simp [SharedPtr.ofWeak, h, h0, bind, Except.bind, hb, IncSCounter_ok hd, pure,
      Except.pure]

/-- C4. For every weak handle `w` of the machine (empty, or on an allocated block), with
`n = w.UseCount()`: the constructor `SharedPtr(w)` throws `BadWeakPtr` if and only if
`n = 0`, that is if and only if `w` is empty or the strong count of its block is 0, and
the machine in which the exception is thrown is the one before the call; otherwise the
constructor returns a handle with the `ptr_` and `block_` of `w`, and the machine differs
only in the strong count of that block, which is one more (so the weak count is the
same). -/
theorem C4_SharedPtr_ofWeak (m : Machine) (w : WeakPtr) (n : Nat)
    (h : w.UseCount m = .ok n) :
    ((∃ m', SharedPtr.ofWeak m w = .error (.BadWeakPtr m')) ↔ n = 0) ∧
    (n = 0 ↔ (w.block_ = none ∨
      ∃ b blk, w.block_ = some b ∧ m.derefBlock b = .ok blk ∧ blk.shared_counter_ = 0)) ∧
    (n = 0 → SharedPtr.ofWeak m w = .error (.BadWeakPtr m)) ∧
    (n ≠ 0 → ∃ b blk, w.block_ = some b ∧ m.derefBlock b = .ok blk ∧
      blk.shared_counter_ = n ∧
      SharedPtr.ofWeak m w =
        .ok (m.writeBlock b { blk with shared_counter_ := blk.shared_counter_ + 1 },
          ⟨w.ptr_, w.block_⟩)) := by
  have hthrow : n = 0 → SharedPtr.ofWeak m w = .error (.BadWeakPtr m) := by
    intro h0
    simp [SharedPtr.ofWeak, h, h0, bind, Except.bind]
  have hret := ofWeak_returns m w n h
  refine ⟨⟨?_, fun h0 => ⟨m, hthrow h0⟩⟩, ⟨?_, ?_⟩, hthrow, hret⟩
  · rintro ⟨m', hm'⟩
    by_contra h0
    obtain ⟨b, blk, _, _, _, hok⟩ := hret h0
    rw [hok] at hm'
    cases hm'
  · intro h0
    rcases WeakPtr_UseCount_cases h with ⟨hb, _⟩ | ⟨b, blk, hb, hd, hn⟩
    · exact Or.inl hb
    · exact Or.inr ⟨b, blk, hb, hd, by omega⟩
  · rintro (hb | ⟨b, blk, hb, hd, hs⟩)
    · rcases WeakPtr_UseCount_cases h with ⟨_, hn⟩ | ⟨b, blk, hb', _, _⟩
      · exact hn
      · rw [hb] at hb'; cases hb'
    · rcases WeakPtr_UseCount_cases h with ⟨hb', _⟩ | ⟨b', blk', hb', hd', hn⟩
      · rw [hb] at hb'; cases hb'
      · rw [hb] at hb'
        cases hb'
        rw [hd] at hd'
        cases hd'
        omega

/-- C4, at a weak handle on a block with two strong owners. -/
theorem C4_SharedPtr_ofWeak_witness :
    ((∃ m', SharedPtr.ofWeak ⟨[⟨2, 1, .Pointer, some 0, 0, 0⟩], [⟨none, 0, 0⟩]⟩
        ⟨some 0, some 0⟩ = .error (.BadWeakPtr m')) ↔ 2 = 0) ∧
    (2 = 0 ↔ ((⟨some 0, some 0⟩ : WeakPtr).block_ = none ∨
      ∃ b blk, (⟨some 0, some 0⟩ : WeakPtr).block_ = some b ∧
        (⟨[⟨2, 1, .Pointer, some 0, 0, 0⟩], [⟨none, 0, 0⟩]⟩ : Machine).derefBlock b = .ok blk ∧
        blk.shared_counter_ = 0)) ∧
    (2 = 0 → SharedPtr.ofWeak ⟨[⟨2, 1, .Pointer, some 0, 0, 0⟩], [⟨none, 0, 0⟩]⟩
        ⟨some 0, some 0⟩ =
      .error (.BadWeakPtr ⟨[⟨2, 1, .Pointer, some 0, 0, 0⟩], [⟨none, 0, 0⟩]⟩)) ∧
    (2 ≠ 0 → ∃ b blk, (⟨some 0, some 0⟩ : WeakPtr).block_ = some b ∧
      (⟨[⟨2, 1, .Pointer, some 0, 0, 0⟩], [⟨none, 0, 0⟩]⟩ : Machine).derefBlock b = .ok blk ∧
      blk.shared_counter_ = 2 ∧
      SharedPtr.ofWeak ⟨[⟨2, 1, .Pointer, some 0, 0, 0⟩], [⟨none, 0, 0⟩]⟩ ⟨some 0, some 0⟩ =
        .ok ((⟨[⟨2, 1, .Pointer, some 0, 0, 0⟩], [⟨none, 0, 0⟩]⟩ : Machine).writeBlock b
            { blk with shared_counter_ := blk.shared_counter_ + 1 },
          ⟨(⟨some 0, some 0⟩ : WeakPtr).ptr_, (⟨some 0, some 0⟩ : WeakPtr).block_⟩)) :=
  C4_SharedPtr_ofWeak ⟨[⟨2, 1, .Pointer, some 0, 0, 0⟩], [⟨none, 0, 0⟩]⟩ ⟨some 0, some 0⟩ 2
    (by decide)

/-- C5. For every machine and every weak handle `w`, `w.Lock()` never throws
`BadWeakPtr`.  When `w` is a handle of the machine (empty, or on an allocated block)
and `n = w.UseCount()`: if `n = 0` the call returns the empty handle (`Get()` null,
`UseCount()` 0) and the machine is unchanged; otherwise it returns a handle with the
`ptr_` and `block_` of `w`, whose `UseCount()` is `n + 1`, in a machine that differs
only in the strong count of that block. -/
theorem C5_WeakPtr_Lock (m : Machine) (w : WeakPtr) :
    (∀ m', WeakPtr.Lock m w ≠ .error (.BadWeakPtr m')) ∧
    ∀ n, w.UseCount m = .ok n →
      (n = 0 → WeakPtr.Lock m w = .ok (m, ⟨none, none⟩) ∧
        SharedPtr.Get m ⟨none, none⟩ = .ok (m, none) ∧
        SharedPtr.UseCount m ⟨none, none⟩ = .ok 0) ∧
      (n ≠ 0 → ∃ b blk, w.block_ = some b ∧ m.derefBlock b = .ok blk ∧
        WeakPtr.Lock m w =
          .ok (m.writeBlock b { blk with shared_counter_ := blk.shared_counter_ + 1 },
            ⟨w.ptr_, w.block_⟩) ∧
        SharedPtr.UseCount
          (m.writeBlock b { blk with shared_counter_ := blk.shared_counter_ + 1 })
          ⟨w.ptr_, w.block_⟩ = .ok (n + 1)) := by
  have hmain : ∀ n, w.UseCount m = .ok n →
      (n = 0 → WeakPtr.Lock m w = .ok (m, ⟨none, none⟩)) ∧
      (n ≠ 0 → ∃ b blk, w.block_ = some b ∧ m.derefBlock b = .ok blk ∧
        blk.shared_counter_ = n ∧
        WeakPtr.Lock m w =
          .ok (m.writeBlock b { blk with shared_counter_ := blk.shared_counter_ + 1 },
            ⟨w.ptr_, w.block_⟩)) := by
    intro n h
    constructor
    · intro h0
      simp [WeakPtr.Lock, h, h0, bind, Except.bind, pure, Except.pure, SharedPtr.empty]
    · intro h0
      obtain ⟨b, blk, hb, hd, hn, hok⟩ := (ofWeak_returns m w n h) h0
      refine ⟨b, blk, hb, hd, hn, ?_⟩
      simp [WeakPtr.Lock, h, h0, bind, Except.bind, hok]
  constructor
  · intro m' hm'
    cases hu : w.UseCount m with
    | error e =>
      simp only [WeakPtr.Lock, hu, bind, Except.bind] at hm'
      unfold WeakPtr.UseCount at hu
      cases hb : w.block_ with
      | none => simp [hb, pure, Except.pure] at hu
      | some b =>
        simp only [hb, GetSCounter, bind, Except.bind] at hu
        cases hd : m.derefBlock b with
        | ok blk => simp [hd, pure, Except.pure] at hu
        | error e' =>
          simp only [hd, Except.error.injEq] at hu
          unfold Machine.derefBlock at hd
          subst hu
          cases hm'
          split at hd
          · split at hd <;> cases hd
          · cases hd
    | ok n =>
      by_cases h0 : n = 0
      · rw [((hmain n hu).1 h0)] at hm'; cases hm'
      · obtain ⟨b, blk, _, _, _, hok⟩ := (hmain n hu).2 h0
        rw [hok] at hm'; cases hm'
  · intro n h
    refine ⟨fun h0 => ⟨(hmain n h).1 h0, rfl, rfl⟩, fun h0 => ?_⟩
    obtain ⟨b, blk, hb, hd, hn, hok⟩ := (hmain n h).2 h0
    refine ⟨b, blk, hb, hd, hok, ?_⟩
    have hbb := (derefBlock_eq_ok.mp hd).1
    have hdd := (derefBlock_eq_ok.mp hd).2
    simp only [SharedPtr.UseCount, hb, GetSCounter, bind, Except.bind]
    rw [derefBlock_writeBlock hbb]
    simp [hdd, hn, pure, Except.pure]

/-- C5, at a weak handle on a block with one strong owner: `Lock` returns a second
owner. -/
theorem C5_WeakPtr_Lock_witness :
    WeakPtr.UseCount ⟨[⟨1, 1, .Pointer, some 0, 0, 0⟩], [⟨none, 0, 0⟩]⟩ ⟨some 0, some 0⟩
      = .ok 1 ∧
    ∃ b blk, (⟨some 0, some 0⟩ : WeakPtr).block_ = some b ∧
      (⟨[⟨1, 1, .Pointer, some 0, 0, 0⟩], [⟨none, 0, 0⟩]⟩ : Machine).derefBlock b = .ok blk ∧
      WeakPtr.Lock ⟨[⟨1, 1, .Pointer, some 0, 0, 0⟩], [⟨none, 0, 0⟩]⟩ ⟨some 0, some 0⟩ =
        .ok ((⟨[⟨1, 1, .Pointer, some 0, 0, 0⟩], [⟨none, 0, 0⟩]⟩ : Machine).writeBlock b
            { blk with shared_counter_ := blk.shared_counter_ + 1 },
          ⟨(⟨some 0, some 0⟩ : WeakPtr).ptr_, (⟨some 0, some 0⟩ : WeakPtr).block_⟩) ∧
      SharedPtr.UseCount
        ((⟨[⟨1, 1, .Pointer, some 0, 0, 0⟩], [⟨none, 0, 0⟩]⟩ : Machine).writeBlock b
          { blk with shared_counter_ := blk.shared_counter_ + 1 })
        ⟨(⟨some 0, some 0⟩ : WeakPtr).ptr_, (⟨some 0, some 0⟩ : WeakPtr).block_⟩
        = .ok (1 + 1) :=
  ⟨by decide,
    ((C5_WeakPtr_Lock ⟨[⟨1, 1, .Pointer, some 0, 0, 0⟩], [⟨none, 0, 0⟩]⟩
      ⟨some 0, some 0⟩).2 1 (by decide)).2 (by decide)⟩

/-- C10. For every handle of the machine, `Get()` and `operator->` leave the machine as
it is; for an empty handle (`block_` null) they return `ptr_`; for a handle on an
allocated block they return null when the strong count of the block is 0 and `ptr_`
otherwise. -/
theorem C10_SharedPtr_Get (m : Machine) (h : SharedPtr) :
    (h.block_ = none →
      SharedPtr.Get m h = .ok (m, h.ptr_) ∧ SharedPtr.arrow m h = .ok (m, h.ptr_)) ∧
    (∀ b blk, h.block_ = some b → m.derefBlock b = .ok blk →
      (blk.shared_counter_ = 0 →
        SharedPtr.Get m h = .ok (m, none) ∧ SharedPtr.arrow m h = .ok (m, none)) ∧
      (blk.shared_counter_ ≠ 0 →
        SharedPtr.Get m h = .ok (m, h.ptr_) ∧ SharedPtr.arrow m h = .ok (m, h.ptr_))) := by
  constructor
  · intro hb
    simp [SharedPtr.Get, SharedPtr.arrow, hb, pure, Except.pure]
  · intro b blk hb hd
    constructor
    · intro hs
      simp [SharedPtr.Get, SharedPtr.arrow, hb, GetSCounter_ok hd, hs, bind, Except.bind,
        pure, Except.pure]
    · intro hs
      simp [SharedPtr.Get, SharedPtr.arrow, hb, GetSCounter_ok hd, hs, bind, Except.bind,
        pure, Except.pure]

/-- C10, at an empty handle and at a handle left on a block whose strong count is 0. -/
theorem C10_SharedPtr_Get_witness :
    (SharedPtr.Get ⟨[⟨0, 1, .Pointer, some 0, 1, 0⟩], [⟨none, 1, 1⟩]⟩ ⟨none, none⟩ =
        .ok (⟨[⟨0, 1, .Pointer, some 0, 1, 0⟩], [⟨none, 1, 1⟩]⟩, none) ∧
      SharedPtr.arrow ⟨[⟨0, 1, .Pointer, some 0, 1, 0⟩], [⟨none, 1, 1⟩]⟩ ⟨none, none⟩ =
        .ok (⟨[⟨0, 1, .Pointer, some 0, 1, 0⟩], [⟨none, 1, 1⟩]⟩, none)) ∧
    (SharedPtr.Get ⟨[⟨0, 1, .Pointer, some 0, 1, 0⟩], [⟨none, 1, 1⟩]⟩ ⟨some 0, some 0⟩ =
        .ok (⟨[⟨0, 1, .Pointer, some 0, 1, 0⟩], [⟨none, 1, 1⟩]⟩, none) ∧
      SharedPtr.arrow ⟨[⟨0, 1, .Pointer, some 0, 1, 0⟩], [⟨none, 1, 1⟩]⟩ ⟨some 0, some 0⟩ =
        .ok (⟨[⟨0, 1, .Pointer, some 0, 1, 0⟩], [⟨none, 1, 1⟩]⟩, none)) :=
  ⟨(C10_SharedPtr_Get ⟨[⟨0, 1, .Pointer, some 0, 1, 0⟩], [⟨none, 1, 1⟩]⟩ ⟨none, none⟩).1 rfl,
    ((C10_SharedPtr_Get ⟨[⟨0, 1, .Pointer, some 0, 1, 0⟩], [⟨none, 1, 1⟩]⟩
      ⟨some 0, some 0⟩).2 0 ⟨0, 1, .Pointer, some 0, 1, 0⟩ rfl (by decide)).1 rfl⟩

/-! ## Self-assignment -/

/-- C7, the code at the failing input.  `a` is the only strong owner of an adopted
object and one weak handle exists (the state after `SharedPtr a(new T); WeakPtr w(a);`).
The statement `a = a` returns with `a` and both counters as before, but `DeleteObject`
has run: the payload is destroyed and released while `a` still points to it.  Without
the weak handle the same statement frees the block and then increments its counter,
which is undefined. -/
theorem C7_self_assignment_destroys :
    (do let st ← afterAdopt false ⟨[], []⟩; run st [.weakOf 0]) =
      .ok ⟨⟨[⟨1, 1, .Pointer, some 0, 0, 0⟩], [⟨none, 0, 0⟩]⟩,
        [some ⟨some 0, some 0⟩], [some ⟨some 0, some 0⟩]⟩ ∧
    SharedPtr.assign ⟨[⟨1, 1, .Pointer, some 0, 0, 0⟩], [⟨none, 0, 0⟩]⟩
        ⟨some 0, some 0⟩ ⟨some 0, some 0⟩ =
      .ok (⟨[⟨1, 1, .Pointer, some 0, 1, 0⟩], [⟨none, 1, 1⟩]⟩, ⟨some 0, some 0⟩) ∧
    afterAdopt false ⟨[], []⟩ =
      .ok ⟨⟨[⟨1, 0, .Pointer, some 0, 0, 0⟩], [⟨none, 0, 0⟩]⟩,
        [some ⟨some 0, some 0⟩], []⟩ ∧
    SharedPtr.assign ⟨[⟨1, 0, .Pointer, some 0, 0, 0⟩], [⟨none, 0, 0⟩]⟩
        ⟨some 0, some 0⟩ ⟨some 0, some 0⟩ = .error .undefined := by
  decide

/-! ## Interleavings of `DecSCounter` and `DecWCounter` -/

theorem bool_list_nil_of_counts {cs : List Bool} (ht : cs.count true = 0)
    (hf : cs.count false = 0) : cs = [] := by
  cases cs with
  | nil => rfl
  | cons x xs => cases x <;> simp at ht hf

theorem bool_list_ne_nil_of_count {cs : List Bool} {x : Bool} (h : cs.count x ≠ 0) :
    cs ≠ [] := by
  rintro rfl
  simp at h

/-- What one call of a sequence leaves for the rest of the sequence. -/
theorem runCalls_step {b k : Nat} {c : Bool} {cs : List Bool} {m : Machine}
    {blk : ControlBlock} (hb : m.derefBlock b = .ok blk)
    (hct : (c :: cs).count true = blk.shared_counter_)
    (hpos : blk.shared_counter_ ≠ 0 →
      payloadSlots m b blk = some k ∧ (c :: cs).count false + k = blk.weak_counter_)
    (hzero : blk.shared_counter_ = 0 → (c :: cs).count false = blk.weak_counter_) :
    ∃ m1 blk1, (if c then DecSCounter m b else DecWCounter m b) = .ok m1 ∧
      m1.blocks[b]? = some blk1 ∧
      ((cs = [] ∧ blk1.deleteThisCalls = 1) ∨
       (cs ≠ [] ∧ blk1.deleteThisCalls = 0 ∧ cs.count true = blk1.shared_counter_ ∧
        (blk1.shared_counter_ ≠ 0 →
          payloadSlots m1 b blk1 = some k ∧ cs.count false + k = blk1.weak_counter_) ∧
        (blk1.shared_counter_ = 0 → cs.count false = blk1.weak_counter_))) := by
  have hbb := (derefBlock_eq_ok.mp hb).1
  have hd := (derefBlock_eq_ok.mp hb).2
  cases c with
  | true =>
    have e1 : (true :: cs).count true = cs.count true + 1 := by simp
    have e2 : (true :: cs).count false = cs.count false := by simp
    rw [e1] at hct
    rw [e2] at hpos hzero
    obtain ⟨hp, hw⟩ := hpos (by omega)
    simp only [if_true]
    by_cases h2 : 2 ≤ blk.shared_counter_
    · refine ⟨_, _, DecSCounter_many hb h2, blocks_writeBlock_self hbb, Or.inr ⟨?_, hd, ?_, ?_, ?_⟩⟩
      · exact bool_list_ne_nil_of_count (x := true) (by omega)
      · simp only; omega
      · intro _
        exact ⟨(payloadSlots_writeBlock m b b _ blk _ rfl rfl).trans hp, hw⟩
      · intro h0; simp only at h0; omega
    · have h1 : blk.shared_counter_ = 1 := by omega
      obtain ⟨m1, hdec, hm1⟩ := DecSCounter_last_payload hb h1 hp (by omega)
      refine ⟨m1, _, hdec, hm1, ?_⟩
      unfold ControlBlock.released
      by_cases hwk : blk.weak_counter_ - k = 0
      · left
        refine ⟨bool_list_nil_of_counts (by omega) (by omega), ?_⟩
        simp [hwk, hd]
      · right
        refine ⟨bool_list_ne_nil_of_count (x := false) (by omega), ?_⟩
        simp only [hwk, if_false, hd, true_and]
        refine ⟨by omega, fun h => absurd rfl h, fun _ => by omega⟩
  | false =>
    have e1 : (false :: cs).count true = cs.count true := by simp
    have e2 : (false :: cs).count false = cs.count false + 1 := by simp
    rw [e1] at hct
    rw [e2] at hpos hzero
    simp only [Bool.false_eq_true, if_false]
    by_cases hs : blk.shared_counter_ = 0
    · have hw := hzero hs
      by_cases h1 : blk.weak_counter_ = 1
      · refine ⟨_, _, DecWCounter_free hb h1 hs, blocks_writeBlock_self hbb, Or.inl ⟨?_, rfl⟩⟩
        exact bool_list_nil_of_counts (by omega) (by omega)
      · refine ⟨_, _, DecWCounter_keep hb (by omega) (by omega), blocks_writeBlock_self hbb,
          Or.inr ⟨?_, hd, ?_, ?_, ?_⟩⟩
        · exact bool_list_ne_nil_of_count (x := false) (by omega)
        · simpa using hct
        · intro h; exact absurd hs h
        · intro _; simp only; omega
    · obtain ⟨hp, hw⟩ := hpos hs
      refine ⟨_, _, DecWCounter_keep hb (by omega) (by omega), blocks_writeBlock_self hbb,
        Or.inr ⟨?_, hd, ?_, ?_, ?_⟩⟩
      · exact bool_list_ne_nil_of_count (x := true) (by omega)
      · simpa using hct
      · intro _
        refine ⟨(payloadSlots_writeBlock m b b _ blk _ rfl rfl).trans hp, ?_⟩
        simp only; omega
      · intro h; exact absurd h hs

theorem runCalls_freed_last (b k : Nat) (calls : List Bool) :
    ∀ (m : Machine) (blk : ControlBlock), m.derefBlock b = .ok blk →
    calls.count true = blk.shared_counter_ →
    (blk.shared_counter_ ≠ 0 →
      payloadSlots m b blk = some k ∧ calls.count false + k = blk.weak_counter_) →
    (blk.shared_counter_ = 0 → calls.count false = blk.weak_counter_) →
    calls ≠ [] →
    (∀ n, n < calls.length → ∃ m' blk', runCalls m b (calls.take n) = .ok m' ∧
      m'.blocks[b]? = some blk' ∧ blk'.deleteThisCalls = 0) ∧
    (∃ m' blk', runCalls m b calls = .ok m' ∧
      m'.blocks[b]? = some blk' ∧ blk'.deleteThisCalls = 1) := by
  induction calls with
  | nil => intro _ _ _ _ _ _ hne; exact absurd rfl hne
  | cons c cs ih =>
    intro m blk hb hct hpos hzero _
    obtain ⟨m1, blk1, h1, hb1, hcase⟩ := runCalls_step hb hct hpos hzero
    constructor
    · intro n hn
      cases n with
      | zero => exact ⟨m, blk, rfl, (derefBlock_eq_ok.mp hb).1, (derefBlock_eq_ok.mp hb).2⟩
      | succ n =>
        simp only [List.take_succ_cons, runCalls, h1, bind, Except.bind]
        rcases hcase with ⟨hnil, _⟩ | ⟨hne, hd, h2, h3, h4⟩
        · subst hnil; simp at hn
        · exact (ih m1 blk1 (derefBlock_eq_ok.mpr ⟨hb1, hd⟩) h2 h3 h4 hne).1 n
            (by simpa using hn)
    · simp only [runCalls, h1, bind, Except.bind]
      rcases hcase with ⟨hnil, hd⟩ | ⟨hne, hd, h2, h3, h4⟩
      · subst hnil; exact ⟨m1, blk1, rfl, hb1, hd⟩
      · exact (ih m1 blk1 (derefBlock_eq_ok.mpr ⟨hb1, hd⟩) h2 h3 h4 hne).2

/-- C3, as stated, fails on the block of a self-observing payload.  Right after
`MakeShared` the block has strong count 1 and weak count 2 (the two slots inside the
payload).  Of the three calls, one `DecSCounter` and two `DecWCounter`, the
`DecSCounter` call alone frees the block, because `DeleteObject` destroys the two slots;
made first, it leaves the next call with a freed block; made last, it finds the weak
count already at 0, the slots wrap it below 0, and the block is never freed. -/
theorem C3_counterexample :
    runCalls ⟨[⟨1, 2, .Holder, some 0, 0, 0⟩],
        [⟨some ⟨⟨some 0, some 0⟩, ⟨some 0, some 0⟩⟩, 0, 0⟩]⟩ 0 [true] =
      .ok ⟨[⟨1, 0, .Holder, some 0, 1, 1⟩],
           [⟨some ⟨⟨some 0, some 0⟩, ⟨some 0, some 0⟩⟩, 1, 0⟩]⟩ ∧
    runCalls ⟨[⟨1, 2, .Holder, some 0, 0, 0⟩],
        [⟨some ⟨⟨some 0, some 0⟩, ⟨some 0, some 0⟩⟩, 0, 0⟩]⟩ 0 [true, false, false] =
      .error .undefined ∧
    runCalls ⟨[⟨1, 2, .Holder, some 0, 0, 0⟩],
        [⟨some ⟨⟨some 0, some 0⟩, ⟨some 0, some 0⟩⟩, 0, 0⟩]⟩ 0 [false, false, true] =
      .ok ⟨[⟨0, SIZE_MAX - 1, .Holder, some 0, 1, 0⟩],
           [⟨some ⟨⟨some 0, some 0⟩, ⟨some 0, some 0⟩⟩, 1, 0⟩]⟩ := by
  decide

/-- C3 (amended). For every allocated control block with strong count `s ≥ 1` and weak
count `w`, whose payload is alive and keeps `k ≤ w` of the weak references in its own
slots (`k = 0` without the self-observing capability; those `k` calls of `DecWCounter`
are the ones `DeleteObject` makes), and for every order of the `s` calls of
`DecSCounter` and the other `w - k` calls of `DecWCounter`: every call returns, after
each proper initial part of the sequence the block is still allocated (`delete this`
has not run), and after the whole sequence `delete this` has run exactly once.  So the
block is freed by the last call, whichever counter reaches zero last. -/
theorem C3_block_freed_by_last_call (m : Machine) (b k : Nat) (blk : ControlBlock)
    (calls : List Bool)
    (hb : m.derefBlock b = .ok blk) (hs : 1 ≤ blk.shared_counter_)
    (hp : payloadSlots m b blk = some k) (hk : k ≤ blk.weak_counter_)
    (hcs : calls.count true = blk.shared_counter_)
    (hcw : calls.count false = blk.weak_counter_ - k) :
    calls.length = blk.shared_counter_ + (blk.weak_counter_ - k) ∧
    (∀ n, n < calls.length → ∃ m' blk', runCalls m b (calls.take n) = .ok m' ∧
      m'.blocks[b]? = some blk' ∧ blk'.deleteThisCalls = 0) ∧
    (∃ m' blk', runCalls m b calls = .ok m' ∧
      m'.blocks[b]? = some blk' ∧ blk'.deleteThisCalls = 1) := by
  refine ⟨?_, runCalls_freed_last b k calls m blk hb hcs (fun _ => ⟨hp, by omega⟩)
    (fun h => by omega) (bool_list_ne_nil_of_count (x := true) (by omega))⟩
  rw [← hcs, ← hcw]
  clear hcs hcw
  induction calls with
  | nil => rfl
  | cons x xs ih => cases x <;> simp [List.count_cons] <;> omega

/-- C3 (amended), at a block with one strong and one weak handle, the strong one
released first: the block outlives the first call and is freed by `DecWCounter`. -/
theorem C3_block_freed_by_last_call_witness :
    [true, false].length = 1 + (1 - 0) ∧
    (∀ n, n < [true, false].length → ∃ m' blk',
      runCalls ⟨[⟨1, 1, .Pointer, some 0, 0, 0⟩], [⟨none, 0, 0⟩]⟩ 0 ([true, false].take n)
        = .ok m' ∧
      m'.blocks[0]? = some blk' ∧ blk'.deleteThisCalls = 0) ∧
    (∃ m' blk',
      runCalls ⟨[⟨1, 1, .Pointer, some 0, 0, 0⟩], [⟨none, 0, 0⟩]⟩ 0 [true, false] = .ok m' ∧
      m'.blocks[0]? = some blk' ∧ blk'.deleteThisCalls = 1) :=
  C3_block_freed_by_last_call ⟨[⟨1, 1, .Pointer, some 0, 0, 0⟩], [⟨none, 0, 0⟩]⟩ 0 0
    ⟨1, 1, .Pointer, some 0, 0, 0⟩ [true, false]
    (by decide) (by decide) (by decide) (by decide) (by decide) (by decide)

/-! ## The invariant under the four counter operations -/

theorem Tracks.deref {b o : Nat} {m : Machine} {ns nw : Nat} (h : Tracks b o m ns nw)
    (hl : 0 < ns ∨ 0 < nw) :
    ∃ blk, m.derefBlock b = .ok blk ∧ blk.shared_counter_ = ns := by
  obtain ⟨blk, obj, hb, _, _, _, hph⟩ := h
  refine ⟨blk, ?_, ?_⟩
  · rw [derefBlock_eq_ok]
    refine ⟨hb, ?_⟩
    rcases hph with h1 | ⟨h0, _, _, _, h2 | h2⟩
    · exact h1.2.2.2.2.1
    · exact h2.2.2.2
    · omega
  · rcases hph with h1 | ⟨h0, _, _, _, h2 | h2⟩
    · exact h1.2.1
    · rw [h2.2.1, h0]
    · omega

theorem Tracks.incS {b o : Nat} {m : Machine} {ns nw : Nat} (h : Tracks b o m ns nw)
    (hl : 0 < ns) : ∃ m', IncSCounter m b = .ok m' ∧ Tracks b o m' (ns + 1) nw := by
  obtain ⟨blk, obj, hb, ho, hp, hin, hph⟩ := h
  rcases hph with h1 | ⟨h0, _⟩
  · have hd : m.derefBlock b = .ok blk := derefBlock_eq_ok.mpr ⟨hb, h1.2.2.2.2.1⟩
    refine ⟨_, IncSCounter_ok hd, _, obj, blocks_writeBlock_self hb, ho, hp, hin, Or.inl ?_⟩
    obtain ⟨_, a, b', c, d, e, f⟩ := h1
    exact ⟨by omega, by simp only; omega, b', c, d, e, f⟩
  · omega

theorem Tracks.incW {b o : Nat} {m : Machine} {ns nw : Nat} (h : Tracks b o m ns nw)
    (hl : 0 < ns ∨ 0 < nw) : ∃ m', IncWCounter m b = .ok m' ∧ Tracks b o m' ns (nw + 1) := by
  obtain ⟨blk, hd, _⟩ := h.deref hl
  obtain ⟨blk', obj, hb, ho, hp, hin, hph⟩ := h
  have hbb := (derefBlock_eq_ok.mp hd).1
  rw [hb] at hbb
  cases hbb
  refine ⟨_, IncWCounter_ok hd, _, obj, blocks_writeBlock_self hb, ho, hp, hin, ?_⟩
  rcases hph with h1 | ⟨h0, a, b', c, h2 | h2⟩
  · obtain ⟨x, a, b', c, d, e, f⟩ := h1
    exact Or.inl ⟨x, a, by simp only; omega, c, d, e, f⟩
  · exact Or.inr ⟨h0, a, b', c, Or.inl ⟨by omega, h2.2.1, by simp only; omega, h2.2.2.2⟩⟩
  · have := (derefBlock_eq_ok.mp hd).2
    omega

theorem Tracks.decW {b o : Nat} {m : Machine} {ns nw : Nat} (h : Tracks b o m ns nw)
    (hl : 0 < nw) : ∃ m', DecWCounter m b = .ok m' ∧ Tracks b o m' ns (nw - 1) := by
  obtain ⟨blk, hd, _⟩ := h.deref (Or.inr hl)
  obtain ⟨blk', obj, hb, ho, hp, hin, hph⟩ := h
  have hbb := (derefBlock_eq_ok.mp hd).1
  rw [hb] at hbb
  cases hbb
  rcases hph with h1 | ⟨h0, a, b', c, h2 | h2⟩
  · obtain ⟨x, a, b', c, d, e, f⟩ := h1
    refine ⟨_, DecWCounter_keep hd (by omega) (by omega), _, obj, blocks_writeBlock_self hb,
      ho, hp, hin, Or.inl ⟨x, a, by simp only; omega, c, d, e, f⟩⟩
  · by_cases h1 : nw = 1
    · refine ⟨_, DecWCounter_free hd (by omega) h2.2.1, _, obj, blocks_writeBlock_self hb,
        ho, hp, hin, Or.inr ⟨h0, a, b', c, Or.inr ⟨by omega, rfl⟩⟩⟩
    · refine ⟨_, DecWCounter_keep hd (by omega) (by omega), _, obj, blocks_writeBlock_self hb,
        ho, hp, hin, Or.inr ⟨h0, a, b', c,
          Or.inl ⟨by omega, h2.2.1, by simp only; omega, h2.2.2.2⟩⟩⟩
  · omega

theorem Tracks.decS {b o : Nat} {m : Machine} {ns nw : Nat} (h : Tracks b o m ns nw)
    (hl : 0 < ns) : ∃ m', DecSCounter m b = .ok m' ∧ Tracks b o m' (ns - 1) nw := by
  obtain ⟨blk, hd, _⟩ := h.deref (Or.inl hl)
  obtain ⟨blk', obj, hb, ho, hp, hin, hph⟩ := h
  have hbb := (derefBlock_eq_ok.mp hd).1
  rw [hb] at hbb
  cases hbb
  rcases hph with h1 | ⟨h0, _⟩
  · obtain ⟨x, a, b', c, d, e, f⟩ := h1
    by_cases h2 : 2 ≤ ns
    · refine ⟨_, DecSCounter_many hd (by omega), _, obj, blocks_writeBlock_self hb,
        ho, hp, hin, Or.inl ⟨by omega, by simp only; omega, b', c, d, e, f⟩⟩
    · have hobj : m.derefObject o = .ok obj := derefObject_eq_ok.mpr ⟨ho, e, f⟩
      have hol : o < m.objects.length := (List.getElem?_eq_some_iff.mp ho).1
      refine ⟨_, DecSCounter_last hd hp hobj (by omega) hin (by omega), _,
        obj.deleted blk.kind,
        blocks_writeBlock_self (by simpa using hb), ?_, ?_, ?_, Or.inr ?_⟩
      · simp [List.getElem?_set_self hol]
      · unfold ControlBlock.released; split <;> exact hp
      · simpa [Object.deleted, Object.slotsWithin] using hin
      · have hk : blk.weak_counter_ - obj.slotsOn b = nw := by omega
        unfold ControlBlock.released
        rw [hk]
        by_cases hnw : nw = 0
        · simp [hnw, Object.deleted, c, d, e, f]
          omega
        · simp [hnw, Object.deleted, c, d, e, f]
          omega
  · omega

/-! ## Counting the handles of a variable table -/

theorem countP_set_add {β : Type} (q : β → Bool) :
    ∀ (l : List β) (i : Nat) (old y : β), l[i]? = some old →
      (l.set i y).countP q + (if q old then 1 else 0) =
        l.countP q + (if q y then 1 else 0)
  | [], i, old, y, h => by simp at h
  | x :: xs, 0, old, y, h => by
    simp only [List.getElem?_cons_zero, Option.some.injEq] at h
    subst h
    simp only [List.set_cons_zero, List.countP_cons]
    omega
  | x :: xs, i + 1, old, y, h => by
    simp only [List.getElem?_cons_succ] at h
    have ih := countP_set_add q xs i old y h
    simp only [List.set_cons_succ, List.countP_cons]
    omega

theorem countP_pos_of_getElem {β : Type} (q : β → Bool) (l : List β) (i : Nat) (x : β)
    (h : l[i]? = some x) (hq : q x = true) : 0 < l.countP q := by
  rw [List.countP_pos_iff]
  exact ⟨x, List.getElem?_mem h, hq⟩

theorem countP_two_of_getElem {β : Type} (q : β → Bool) (l : List β) (i j : Nat) (x y z : β)
    (hij : i ≠ j) (hi : l[i]? = some x) (hj : l[j]? = some y)
    (hx : q x = true) (hy : q y = true) (hz : q z = false) : 2 ≤ l.countP q := by
  have h1 := countP_set_add q l i x z hi
  have h2 : (l.set i z)[j]? = some y := by rw [List.getElem?_set_ne hij]; exact hj
  have h3 := countP_pos_of_getElem q (l.set i z) j y h2 hy
  simp only [hx, hz, if_true] at h1
  simp only [Bool.false_eq_true, if_false] at h1
  omega

theorem liveShared_push (b : Nat) (S : List (Option SharedPtr)) (x : SharedPtr) :
    liveShared b (S ++ [some x]) = liveShared b S + (if x.block_ = some b then 1 else 0) := by
  simp [liveShared, List.countP_append, List.countP_cons]

theorem liveWeak_push (b : Nat) (W : List (Option WeakPtr)) (x : WeakPtr) :
    liveWeak b (W ++ [some x]) = liveWeak b W + (if x.block_ = some b then 1 else 0) := by
  simp [liveWeak, List.countP_append, List.countP_cons]

theorem liveShared_set (b : Nat) (S : List (Option SharedPtr)) (i : Nat) (old : SharedPtr)
    (y : Option SharedPtr) (h : S[i]? = some (some old)) :
    liveShared b (S.set i y) + (if old.block_ = some b then 1 else 0) =
      liveShared b S + (if (y.any fun x => x.block_ == some b) = true then 1 else 0) := by
  have := countP_set_add (fun h : Option SharedPtr => h.any fun x => x.block_ == some b)
    S i (some old) y h
  simpa [liveShared] using this

theorem liveWeak_set (b : Nat) (W : List (Option WeakPtr)) (i : Nat) (old : WeakPtr)
    (y : Option WeakPtr) (h : W[i]? = some (some old)) :
    liveWeak b (W.set i y) + (if old.block_ = some b then 1 else 0) =
      liveWeak b W + (if (y.any fun x => x.block_ == some b) = true then 1 else 0) := by
  have := countP_set_add (fun h : Option WeakPtr => h.any fun x => x.block_ == some b)
    W i (some old) y h
  simpa [liveWeak] using this

theorem liveShared_pos (b : Nat) (S : List (Option SharedPtr)) (i : Nat) (h : SharedPtr)
    (hi : S[i]? = some (some h)) (hb : h.block_ = some b) : 0 < liveShared b S :=
  countP_pos_of_getElem _ S i (some h) hi (by simp [hb])

theorem liveWeak_pos (b : Nat) (W : List (Option WeakPtr)) (i : Nat) (h : WeakPtr)
    (hi : W[i]? = some (some h)) (hb : h.block_ = some b) : 0 < liveWeak b W :=
  countP_pos_of_getElem _ W i (some h) hi (by simp [hb])

theorem liveShared_two (b : Nat) (S : List (Option SharedPtr)) (i j : Nat) (x y : SharedPtr)
    (hij : i ≠ j) (hi : S[i]? = some (some x)) (hj : S[j]? = some (some y))
    (hx : x.block_ = some b) (hy : y.block_ = some b) : 2 ≤ liveShared b S :=
  countP_two_of_getElem _ S i j (some x) (some y) none hij hi hj (by simp [hx]) (by simp [hy])
    rfl

theorem liveWeak_two (b : Nat) (W : List (Option WeakPtr)) (i j : Nat) (x y : WeakPtr)
    (hij : i ≠ j) (hi : W[i]? = some (some x)) (hj : W[j]? = some (some y))
    (hx : x.block_ = some b) (hy : y.block_ = some b) : 2 ≤ liveWeak b W :=
  countP_two_of_getElem _ W i j (some x) (some y) none hij hi hj (by simp [hx]) (by simp [hy])
    rfl

theorem getShared_eq_some {st : State} {i : Nat} {h : SharedPtr} :
    st.getShared i = some h ↔ st.shared[i]? = some (some h) := by
  unfold State.getShared
  split
  · rename_i x hx; simp [hx]
  · rename_i hx
    constructor
    · intro h'; cases h'
    · intro h'; exact absurd h' (hx h)

theorem getWeak_eq_some {st : State} {i : Nat} {h : WeakPtr} :
    st.getWeak i = some h ↔ st.weak[i]? = some (some h) := by
  unfold State.getWeak
  split
  · rename_i x hx; simp [hx]
  · rename_i hx
    constructor
    · intro h'; cases h'
    · intro h'; exact absurd h' (hx h)

theorem sharedWithin_get {b : Nat} {S : List (Option SharedPtr)} (hw : sharedWithin b S)
    {i : Nat} {h : SharedPtr} (hi : S[i]? = some (some h)) :
    h.block_ = none ∨ h.block_ = some b :=
  hw h (List.getElem?_mem hi)

theorem weakWithin_get {b : Nat} {W : List (Option WeakPtr)} (hw : weakWithin b W)
    {i : Nat} {h : WeakPtr} (hi : W[i]? = some (some h)) :
    h.block_ = none ∨ h.block_ = some b :=
  hw h (List.getElem?_mem hi)

theorem sharedWithin_push {b : Nat} {S : List (Option SharedPtr)} (hw : sharedWithin b S)
    {x : SharedPtr} (hx : x.block_ = none ∨ x.block_ = some b) :
    sharedWithin b (S ++ [some x]) := by
  intro y hy
  simp only [List.mem_append, List.mem_singleton, Option.some.injEq] at hy
  rcases hy with hy | rfl
  · exact hw y hy
  · exact hx

theorem weakWithin_push {b : Nat} {W : List (Option WeakPtr)} (hw : weakWithin b W)
    {x : WeakPtr} (hx : x.block_ = none ∨ x.block_ = some b) :
    weakWithin b (W ++ [some x]) := by
  intro y hy
  simp only [List.mem_append, List.mem_singleton, Option.some.injEq] at hy
  rcases hy with hy | rfl
  · exact hw y hy
  · exact hx

theorem sharedWithin_set {b : Nat} {S : List (Option SharedPtr)} (hw : sharedWithin b S)
    (i : Nat) {y : Option SharedPtr}
    (hy : ∀ x, y = some x → x.block_ = none ∨ x.block_ = some b) :
    sharedWithin b (S.set i y) := by
  intro x hx
  rcases List.mem_or_eq_of_mem_set hx with h | h
  · exact hw x h
  · exact hy x h.symm

theorem weakWithin_set {b : Nat} {W : List (Option WeakPtr)} (hw : weakWithin b W)
    (i : Nat) {y : Option WeakPtr}
    (hy : ∀ x, y = some x → x.block_ = none ∨ x.block_ = some b) :
    weakWithin b (W.set i y) := by
  intro x hx
  rcases List.mem_or_eq_of_mem_set hx with h | h
  · exact hw x h
  · exact hy x h.symm

theorem Tracks.cast {b o : Nat} {m : Machine} {ns nw ns' nw' : Nat}
    (h : Tracks b o m ns nw) (hs : ns' = ns) (hw : nw' = nw) : Tracks b o m ns' nw' := by
  subst hs hw; exact h

/-! ## One statement keeps the invariant -/

theorem step_copy {b o : Nat} {m : Machine} {S : List (Option SharedPtr)}
    {W : List (Option WeakPtr)} (i : Nat) (hinv : Inv b o ⟨m, S, W⟩) :
    ∃ st', step ⟨m, S, W⟩ (.copy i) = .ok st' ∧ Inv b o st' ∧
      liveShared b S ≤ liveShared b st'.shared + 1 := by
  obtain ⟨ht, hS, hW⟩ := hinv
  simp only at ht hS hW
  cases hg : State.getShared ⟨m, S, W⟩ i with
  | none => exact ⟨_, by simp only [step, hg]; rfl, ⟨ht, hS, hW⟩, by simp⟩
  | some h =>
    have hi : S[i]? = some (some h) := getShared_eq_some.mp hg
    rcases sharedWithin_get hS hi with hb | hb
    · refine ⟨⟨m, S ++ [some ⟨h.ptr_, h.block_⟩], W⟩, ?_, ⟨?_, ?_, hW⟩, ?_⟩
      · simp [step, hg, SharedPtr.copy, hb, pure, Except.pure, bind, Except.bind]
      · exact ht.cast (by simp [liveShared_push, hb]) rfl
      · exact sharedWithin_push hS (Or.inl hb)
      · simp [liveShared_push, hb]
    · obtain ⟨m', hinc, ht'⟩ := ht.incS (liveShared_pos b S i h hi hb)
      refine ⟨⟨m', S ++ [some ⟨h.ptr_, h.block_⟩], W⟩, ?_, ⟨?_, ?_, hW⟩, ?_⟩
      · simp [step, hg, SharedPtr.copy, hb, hinc, pure, Except.pure, bind, Except.bind]
      · exact ht'.cast (by simp [liveShared_push, hb]) rfl
      · exact sharedWithin_push hS (Or.inr hb)
      · simp [liveShared_push, hb]; omega

theorem step_move {b o : Nat} {m : Machine} {S : List (Option SharedPtr)}
    {W : List (Option WeakPtr)} (i : Nat) (hinv : Inv b o ⟨m, S, W⟩) :
    ∃ st', step ⟨m, S, W⟩ (.move i) = .ok st' ∧ Inv b o st' ∧
      liveShared b S ≤ liveShared b st'.shared + 1 := by
  obtain ⟨ht, hS, hW⟩ := hinv
  simp only at ht hS hW
  cases hg : State.getShared ⟨m, S, W⟩ i with
  | none => exact ⟨_, by simp only [step, hg]; rfl, ⟨ht, hS, hW⟩, by simp⟩
  | some h =>
    have hi : S[i]? = some (some h) := getShared_eq_some.mp hg
    have hc := liveShared_set b S i h (some ⟨none, none⟩) hi
    have hn : liveShared b (S.set i (some ⟨none, none⟩) ++ [some ⟨h.ptr_, h.block_⟩]) =
        liveShared b S := by
      rw [liveShared_push]
      simp only [Option.any_some, beq_iff_eq, reduceCtorEq, if_false] at hc
      simp only
      omega
    refine ⟨⟨m, S.set i (some ⟨none, none⟩) ++ [some ⟨h.ptr_, h.block_⟩], W⟩, ?_,
      ⟨?_, ?_, hW⟩, ?_⟩
    · simp [step, hg, SharedPtr.move, pure, Except.pure]
    · exact ht.cast hn rfl
    · refine sharedWithin_push (sharedWithin_set hS i ?_) (sharedWithin_get hS hi)
      intro x hx
      cases hx
      exact Or.inl rfl
    · simp only [hn]; omega

theorem step_reset {b o : Nat} {m : Machine} {S : List (Option SharedPtr)}
    {W : List (Option WeakPtr)} (i : Nat) (hinv : Inv b o ⟨m, S, W⟩) :
    ∃ st', step ⟨m, S, W⟩ (.reset i) = .ok st' ∧ Inv b o st' ∧
      liveShared b S ≤ liveShared b st'.shared + 1 := by
  obtain ⟨ht, hS, hW⟩ := hinv
  simp only at ht hS hW
  cases hg : State.getShared ⟨m, S, W⟩ i with
  | none => exact ⟨_, by simp only [step, hg]; rfl, ⟨ht, hS, hW⟩, by simp⟩
  | some h =>
    have hi : S[i]? = some (some h) := getShared_eq_some.mp hg
    rcases sharedWithin_get hS hi with hb | hb
    · have hc := liveShared_set b S i h (some h) hi
      simp only [Option.any_some, beq_iff_eq, hb, reduceCtorEq, if_false] at hc
      refine ⟨⟨m, S.set i (some h), W⟩, ?_, ⟨?_, ?_, hW⟩, ?_⟩
      · simp [step, hg, SharedPtr.Reset, hb, pure, Except.pure, bind, Except.bind]
      · exact ht.cast (by simpa using hc) rfl
      · exact sharedWithin_set hS i (fun x hx => by cases hx; exact Or.inl hb)
      · simp only; omega
    · have hc := liveShared_set b S i h (some ⟨none, none⟩) hi
      simp only [Option.any_some, beq_iff_eq, hb, reduceCtorEq, if_false, if_true] at hc
      obtain ⟨m', hdec, ht'⟩ := ht.decS (liveShared_pos b S i h hi hb)
      refine ⟨⟨m', S.set i (some ⟨none, none⟩), W⟩, ?_, ⟨?_, ?_, hW⟩, ?_⟩
      · simp [step, hg, SharedPtr.Reset, hb, hdec, pure, Except.pure, bind, Except.bind]
      · exact ht'.cast (by simp only; omega) rfl
      · exact sharedWithin_set hS i (fun x hx => by cases hx; exact Or.inl rfl)
      · simp only; omega

theorem step_destroy {b o : Nat} {m : Machine} {S : List (Option SharedPtr)}
    {W : List (Option WeakPtr)} (i : Nat) (hinv : Inv b o ⟨m, S, W⟩) :
    ∃ st', step ⟨m, S, W⟩ (.destroy i) = .ok st' ∧ Inv b o st' ∧
      liveShared b S ≤ liveShared b st'.shared + 1 := by
  obtain ⟨ht, hS, hW⟩ := hinv
  simp only at ht hS hW
  cases hg : State.getShared ⟨m, S, W⟩ i with
  | none => exact ⟨_, by simp only [step, hg]; rfl, ⟨ht, hS, hW⟩, by simp⟩
  | some h =>
    have hi : S[i]? = some (some h) := getShared_eq_some.mp hg
    have hc := liveShared_set b S i h none hi
    rcases sharedWithin_get hS hi with hb | hb
    · simp only [Option.any_none, hb, reduceCtorEq, if_false, Bool.false_eq_true] at hc
      refine ⟨⟨m, S.set i none, W⟩, ?_, ⟨?_, ?_, hW⟩, ?_⟩
      · simp [step, hg, SharedPtr.dtor, hb, pure, Except.pure, bind, Except.bind]
      · exact ht.cast (by simpa using hc) rfl
      · exact sharedWithin_set hS i (fun x hx => by cases hx)
      · simp only; omega
    · simp only [Option.any_none, hb, if_true, Bool.false_eq_true, if_false] at hc
      obtain ⟨m', hdec, ht'⟩ := ht.decS (liveShared_pos b S i h hi hb)
      refine ⟨⟨m', S.set i none, W⟩, ?_, ⟨?_, ?_, hW⟩, ?_⟩
      · simp [step, hg, SharedPtr.dtor, hb, hdec, pure, Except.pure, bind, Except.bind]
      · exact ht'.cast (by simp only; omega) rfl
      · exact sharedWithin_set hS i (fun x hx => by cases hx)
      · simp only; omega

theorem step_lock {b o : Nat} {m : Machine} {S : List (Option SharedPtr)}
    {W : List (Option WeakPtr)} (k : Nat) (hinv : Inv b o ⟨m, S, W⟩) :
    ∃ st', step ⟨m, S, W⟩ (.lock k) = .ok st' ∧ Inv b o st' ∧
      liveShared b S ≤ liveShared b st'.shared + 1 := by
  obtain ⟨ht, hS, hW⟩ := hinv
  simp only at ht hS hW
  cases hg : State.getWeak ⟨m, S, W⟩ k with
  | none => exact ⟨_, by simp only [step, hg]; rfl, ⟨ht, hS, hW⟩, by simp⟩
  | some w =>
    have hi : W[k]? = some (some w) := getWeak_eq_some.mp hg
    have hempty : ∀ hl : WeakPtr.Lock m w = .ok (m, ⟨none, none⟩),
        ∃ st', step ⟨m, S, W⟩ (.lock k) = .ok st' ∧ Inv b o st' ∧
          liveShared b S ≤ liveShared b st'.shared + 1 := by
      intro hl
      refine ⟨⟨m, S ++ [some ⟨none, none⟩], W⟩, ?_, ⟨?_, ?_, hW⟩, ?_⟩
      · simp [step, hg, hl, pure, Except.pure, bind, Except.bind]
      · exact ht.cast (by simp [liveShared_push]) rfl
      · exact sharedWithin_push hS (Or.inl rfl)
      · simp [liveShared_push]
    rcases weakWithin_get hW hi with hb | hb
    · apply hempty
      simp [WeakPtr.Lock, WeakPtr.UseCount, hb, pure, Except.pure, bind, Except.bind,
        SharedPtr.empty]
    · obtain ⟨blk, hd, hs⟩ := ht.deref (Or.inr (liveWeak_pos b W k w hi hb))
      have hu : w.UseCount m = .ok (liveShared b S) := by
        simp [WeakPtr.UseCount, hb, GetSCounter_ok hd, hs]
      by_cases h0 : liveShared b S = 0
      · apply hempty
        simp [WeakPtr.Lock, hu, h0, pure, Except.pure, bind, Except.bind, SharedPtr.empty]
      · obtain ⟨m', hinc, ht'⟩ := ht.incS (by omega)
        refine ⟨⟨m', S ++ [some ⟨w.ptr_, w.block_⟩], W⟩, ?_, ⟨?_, ?_, hW⟩, ?_⟩
        · simp [step, hg, WeakPtr.Lock, SharedPtr.ofWeak, hu, h0, hb, hinc, pure,
            Except.pure, bind, Except.bind]
        · exact ht'.cast (by simp [liveShared_push, hb]) rfl
        · exact sharedWithin_push hS (Or.inr hb)
        · simp [liveShared_push, hb]; omega

theorem step_promote {b o : Nat} {m : Machine} {S : List (Option SharedPtr)}
    {W : List (Option WeakPtr)} (k : Nat) (hinv : Inv b o ⟨m, S, W⟩) :
    ∃ st', step ⟨m, S, W⟩ (.promote k) = .ok st' ∧ Inv b o st' ∧
      liveShared b S ≤ liveShared b st'.shared + 1 := by
  obtain ⟨ht, hS, hW⟩ := hinv
  simp only at ht hS hW
  cases hg : State.getWeak ⟨m, S, W⟩ k with
  | none => exact ⟨_, by simp only [step, hg]; rfl, ⟨ht, hS, hW⟩, by simp⟩
  | some w =>
    have hi : W[k]? = some (some w) := getWeak_eq_some.mp hg
    have hthrow : ∀ hl : SharedPtr.ofWeak m w = .error (.BadWeakPtr m),
        ∃ st', step ⟨m, S, W⟩ (.promote k) = .ok st' ∧ Inv b o st' ∧
          liveShared b S ≤ liveShared b st'.shared + 1 := by
      intro hl
      refine ⟨⟨m, S, W⟩, ?_, ⟨ht, hS, hW⟩, by simp⟩
      simp [step, hg, hl, pure, Except.pure]
    rcases weakWithin_get hW hi with hb | hb
    · apply hthrow
      simp [SharedPtr.ofWeak, WeakPtr.UseCount, hb, pure, Except.pure, bind, Except.bind]
    · obtain ⟨blk, hd, hs⟩ := ht.deref (Or.inr (liveWeak_pos b W k w hi hb))
      have hu : w.UseCount m = .ok (liveShared b S) := by
        simp [WeakPtr.UseCount, hb, GetSCounter_ok hd, hs]
      by_cases h0 : liveShared b S = 0
      · apply hthrow
        simp [SharedPtr.ofWeak, hu, h0, pure, Except.pure, bind, Except.bind]
      · obtain ⟨m', hinc, ht'⟩ := ht.incS (by omega)
        refine ⟨⟨m', S ++ [some ⟨w.ptr_, w.block_⟩], W⟩, ?_, ⟨?_, ?_, hW⟩, ?_⟩
        · simp [step, hg, SharedPtr.ofWeak, hu, h0, hb, hinc, pure,
            Except.pure, bind, Except.bind]
        · exact ht'.cast (by simp [liveShared_push, hb]) rfl
        · exact sharedWithin_push hS (Or.inr hb)
        · simp [liveShared_push, hb]; omega

theorem getElem?_set_other {β : Type} (l : List β) (i j : Nat) (x y : β)
    (hj : l[j]? = some y) (hxy : i = j → x = y) : (l.set i x)[j]? = some y := by
  by_cases hij : i = j
  · subst hij
    rw [List.getElem?_set_self (List.getElem?_eq_some_iff.mp hj).1, hxy rfl]
  · rw [List.getElem?_set_ne hij, hj]

theorem step_swap {b o : Nat} {m : Machine} {S : List (Option SharedPtr)}
    {W : List (Option WeakPtr)} (i j : Nat) (hinv : Inv b o ⟨m, S, W⟩) :
    ∃ st', step ⟨m, S, W⟩ (.swap i j) = .ok st' ∧ Inv b o st' ∧
      liveShared b S ≤ liveShared b st'.shared + 1 := by
  obtain ⟨ht, hS, hW⟩ := hinv
  simp only at ht hS hW
  cases hg : State.getShared ⟨m, S, W⟩ i with
  | none => exact ⟨_, by simp only [step, hg]; rfl, ⟨ht, hS, hW⟩, by simp⟩
  | some a =>
    cases hg' : State.getShared ⟨m, S, W⟩ j with
    | none => exact ⟨_, by simp only [step, hg, hg']; rfl, ⟨ht, hS, hW⟩, by simp⟩
    | some c =>
      have hi : S[i]? = some (some a) := getShared_eq_some.mp hg
      have hj : S[j]? = some (some c) := getShared_eq_some.mp hg'
      have hj' : (S.set i (some ⟨c.ptr_, c.block_⟩))[j]? = some (some c) :=
        getElem?_set_other S i j _ _ hj (fun _ => rfl)
      have h1 := liveShared_set b S i a (some ⟨c.ptr_, c.block_⟩) hi
      have h2 := liveShared_set b (S.set i (some ⟨c.ptr_, c.block_⟩)) j c
        (some ⟨a.ptr_, a.block_⟩) hj'
      simp only [Option.any_some, beq_iff_eq] at h1 h2
      have hn : liveShared b ((S.set i (some ⟨c.ptr_, c.block_⟩)).set j
          (some ⟨a.ptr_, a.block_⟩)) = liveShared b S := by omega
      refine ⟨⟨m, (S.set i (some ⟨c.ptr_, c.block_⟩)).set j (some ⟨a.ptr_, a.block_⟩), W⟩,
        ?_, ⟨?_, ?_, hW⟩, ?_⟩
      · simp [step, hg, hg', SharedPtr.Swap, pure, Except.pure]
      · exact ht.cast hn rfl
      · refine sharedWithin_set (sharedWithin_set hS i ?_) j ?_
        · intro x hx; cases hx; exact sharedWithin_get hS hj
        · intro x hx; cases hx; exact sharedWithin_get hS hi
      · simp only [hn]; omega

theorem step_assign {b o : Nat} {m : Machine} {S : List (Option SharedPtr)}
    {W : List (Option WeakPtr)} (i j : Nat) (hij : i ≠ j) (hinv : Inv b o ⟨m, S, W⟩) :
    ∃ st', step ⟨m, S, W⟩ (.assign i j) = .ok st' ∧ Inv b o st' ∧
      liveShared b S ≤ liveShared b st'.shared + 1 := by
  obtain ⟨ht, hS, hW⟩ := hinv
  simp only at ht hS hW
  cases hg : State.getShared ⟨m, S, W⟩ i with
  | none => exact ⟨_, by simp only [step, hg]; rfl, ⟨ht, hS, hW⟩, by simp⟩
  | some a =>
    cases hg' : State.getShared ⟨m, S, W⟩ j with
    | none => exact ⟨_, by simp only [step, hg, hg']; rfl, ⟨ht, hS, hW⟩, by simp⟩
    | some c =>
      have hi : S[i]? = some (some a) := getShared_eq_some.mp hg
      have hj : S[j]? = some (some c) := getShared_eq_some.mp hg'
      have h1 := liveShared_set b S i a (some ⟨c.ptr_, c.block_⟩) hi
      simp only [Option.any_some, beq_iff_eq] at h1
      obtain ⟨L, hL⟩ : ∃ L, liveShared b (S.set i (some ⟨c.ptr_, c.block_⟩)) = L := ⟨_, rfl⟩
      rw [hL] at h1
      have hwithin : sharedWithin b (S.set i (some ⟨c.ptr_, c.block_⟩)) :=
        sharedWithin_set hS i (fun x hx => by cases hx; exact sharedWithin_get hS hj)
      rcases sharedWithin_get hS hi with ha | ha <;>
        rcases sharedWithin_get hS hj with hc | hc
      · simp only [ha, hc, reduceCtorEq, if_false] at h1
        refine ⟨⟨m, S.set i (some ⟨c.ptr_, c.block_⟩), W⟩, ?_, ⟨?_, hwithin, hW⟩, ?_⟩
        · simp [step, hg, hg', SharedPtr.assign, ha, hc, pure, Except.pure, bind,
            Except.bind]
        · exact ht.cast (by simp only [hL]; omega) rfl
        · simp only [hL]; omega
      · simp only [ha, hc, reduceCtorEq, if_false, if_true] at h1
        obtain ⟨m', hinc, ht'⟩ := ht.incS (liveShared_pos b S j c hj hc)
        refine ⟨⟨m', S.set i (some ⟨c.ptr_, c.block_⟩), W⟩, ?_, ⟨?_, hwithin, hW⟩, ?_⟩
        · simp [step, hg, hg', SharedPtr.assign, ha, hc, hinc, pure, Except.pure, bind,
            Except.bind]
        · exact ht'.cast (by simp only [hL]; omega) rfl
        · simp only [hL]; omega
      · simp only [ha, hc, reduceCtorEq, if_false, if_true] at h1
        obtain ⟨m', hdec, ht'⟩ := ht.decS (liveShared_pos b S i a hi ha)
        refine ⟨⟨m', S.set i (some ⟨c.ptr_, c.block_⟩), W⟩, ?_, ⟨?_, hwithin, hW⟩, ?_⟩
        · simp [step, hg, hg', SharedPtr.assign, ha, hc, hdec, pure, Except.pure, bind,
            Except.bind]
        · exact ht'.cast (by simp only [hL]; omega) rfl
        · simp only [hL]; omega
      · simp only [ha, hc, if_true] at h1
        have h2 := liveShared_two b S i j a c hij hi hj ha hc
        obtain ⟨m', hdec, ht'⟩ := ht.decS (by omega)
        obtain ⟨m'', hinc, ht''⟩ := ht'.incS (by omega)
        refine ⟨⟨m'', S.set i (some ⟨c.ptr_, c.block_⟩), W⟩, ?_, ⟨?_, hwithin, hW⟩, ?_⟩
        · simp [step, hg, hg', SharedPtr.assign, ha, hc, hdec, hinc, pure, Except.pure,
            bind, Except.bind]
        · exact ht''.cast (by simp only [hL]; omega) rfl
        · simp only [hL]; omega

theorem step_moveAssign {b o : Nat} {m : Machine} {S : List (Option SharedPtr)}
    {W : List (Option WeakPtr)} (i j : Nat) (hij : i ≠ j) (hinv : Inv b o ⟨m, S, W⟩) :
    ∃ st', step ⟨m, S, W⟩ (.moveAssign i j) = .ok st' ∧ Inv b o st' ∧
      liveShared b S ≤ liveShared b st'.shared + 1 := by
  obtain ⟨ht, hS, hW⟩ := hinv
  simp only at ht hS hW
  cases hg : State.getShared ⟨m, S, W⟩ i with
  | none => exact ⟨_, by simp only [step, hg]; rfl, ⟨ht, hS, hW⟩, by simp⟩
  | some a =>
    cases hg' : State.getShared ⟨m, S, W⟩ j with
    | none => exact ⟨_, by simp only [step, hg, hg']; rfl, ⟨ht, hS, hW⟩, by simp⟩
    | some c =>
      have hi : S[i]? = some (some a) := getShared_eq_some.mp hg
      have hj : S[j]? = some (some c) := getShared_eq_some.mp hg'
      have hj' : (S.set i (some ⟨c.ptr_, c.block_⟩))[j]? = some (some c) := by
        rw [List.getElem?_set_ne hij, hj]
      have h1 := liveShared_set b S i a (some ⟨c.ptr_, c.block_⟩) hi
      have h2 := liveShared_set b (S.set i (some ⟨c.ptr_, c.block_⟩)) j c
        (some ⟨none, none⟩) hj'
      simp only [Option.any_some, beq_iff_eq, reduceCtorEq, if_false] at h1 h2
      have hwithin : sharedWithin b
          ((S.set i (some ⟨c.ptr_, c.block_⟩)).set j (some ⟨none, none⟩)) := by
        refine sharedWithin_set (sharedWithin_set hS i ?_) j ?_
        · intro x hx; cases hx; exact sharedWithin_get hS hj
        · intro x hx; cases hx; exact Or.inl rfl
      rcases sharedWithin_get hS hi with ha | ha
      · simp only [ha, reduceCtorEq, if_false] at h1
        refine ⟨⟨m, (S.set i (some ⟨c.ptr_, c.block_⟩)).set j (some ⟨none, none⟩), W⟩, ?_,
          ⟨?_, hwithin, hW⟩, ?_⟩
        · simp [step, hg, hg', SharedPtr.moveAssign, ha, pure, Except.pure, bind,
            Except.bind]
        · exact ht.cast (by simp only; omega) rfl
        · simp only; omega
      · simp only [ha, if_true] at h1
        obtain ⟨m', hdec, ht'⟩ := ht.decS (liveShared_pos b S i a hi ha)
        refine ⟨⟨m', (S.set i (some ⟨c.ptr_, c.block_⟩)).set j (some ⟨none, none⟩), W⟩, ?_,
          ⟨?_, hwithin, hW⟩, ?_⟩
        · simp [step, hg, hg', SharedPtr.moveAssign, ha, hdec, pure, Except.pure, bind,
            Except.bind]
        · exact ht'.cast (by simp only; omega) rfl
        · simp only; omega

theorem step_weakOf {b o : Nat} {m : Machine} {S : List (Option SharedPtr)}
    {W : List (Option WeakPtr)} (i : Nat) (hinv : Inv b o ⟨m, S, W⟩) :
    ∃ st', step ⟨m, S, W⟩ (.weakOf i) = .ok st' ∧ Inv b o st' ∧
      liveShared b S ≤ liveShared b st'.shared + 1 := by
  obtain ⟨ht, hS, hW⟩ := hinv
  simp only at ht hS hW
  cases hg : State.getShared ⟨m, S, W⟩ i with
  | none => exact ⟨_, by simp only [step, hg]; rfl, ⟨ht, hS, hW⟩, by simp⟩
  | some h =>
    have hi : S[i]? = some (some h) := getShared_eq_some.mp hg
    rcases sharedWithin_get hS hi with hb | hb
    · refine ⟨⟨m, S, W ++ [some ⟨h.ptr_, h.block_⟩]⟩, ?_, ⟨?_, hS, ?_⟩, by simp⟩
      · simp [step, hg, WeakPtr.ofShared, hb, pure, Except.pure, bind, Except.bind]
      · exact ht.cast rfl (by simp [liveWeak_push, hb])
      · exact weakWithin_push hW (Or.inl hb)
    · obtain ⟨m', hinc, ht'⟩ := ht.incW (Or.inl (liveShared_pos b S i h hi hb))
      refine ⟨⟨m', S, W ++ [some ⟨h.ptr_, h.block_⟩]⟩, ?_, ⟨?_, hS, ?_⟩, by simp⟩
      · simp [step, hg, WeakPtr.ofShared, hb, hinc, pure, Except.pure, bind, Except.bind]
      · exact ht'.cast rfl (by simp [liveWeak_push, hb])
      · exact weakWithin_push hW (Or.inr hb)

theorem step_weakCopy {b o : Nat} {m : Machine} {S : List (Option SharedPtr)}
    {W : List (Option WeakPtr)} (k : Nat) (hinv : Inv b o ⟨m, S, W⟩) :
    ∃ st', step ⟨m, S, W⟩ (.weakCopy k) = .ok st' ∧ Inv b o st' ∧
      liveShared b S ≤ liveShared b st'.shared + 1 := by
  obtain ⟨ht, hS, hW⟩ := hinv
  simp only at ht hS hW
  cases hg : State.getWeak ⟨m, S, W⟩ k with
  | none => exact ⟨_, by simp only [step, hg]; rfl, ⟨ht, hS, hW⟩, by simp⟩
  | some h =>
    have hi : W[k]? = some (some h) := getWeak_eq_some.mp hg
    rcases weakWithin_get hW hi with hb | hb
    · refine ⟨⟨m, S, W ++ [some ⟨h.ptr_, h.block_⟩]⟩, ?_, ⟨?_, hS, ?_⟩, by simp⟩
      · simp [step, hg, WeakPtr.copy, hb, pure, Except.pure, bind, Except.bind]
      · exact ht.cast rfl (by simp [liveWeak_push, hb])
      · exact weakWithin_push hW (Or.inl hb)
    · obtain ⟨m', hinc, ht'⟩ := ht.incW (Or.inr (liveWeak_pos b W k h hi hb))
      refine ⟨⟨m', S, W ++ [some ⟨h.ptr_, h.block_⟩]⟩, ?_, ⟨?_, hS, ?_⟩, by simp⟩
      · simp [step, hg, WeakPtr.copy, hb, hinc, pure, Except.pure, bind, Except.bind]
      · exact ht'.cast rfl (by simp [liveWeak_push, hb])
      · exact weakWithin_push hW (Or.inr hb)

theorem step_weakMove {b o : Nat} {m : Machine} {S : List (Option SharedPtr)}
    {W : List (Option WeakPtr)} (k : Nat) (hinv : Inv b o ⟨m, S, W⟩) :
    ∃ st', step ⟨m, S, W⟩ (.weakMove k) = .ok st' ∧ Inv b o st' ∧
      liveShared b S ≤ liveShared b st'.shared + 1 := by
  obtain ⟨ht, hS, hW⟩ := hinv
  simp only at ht hS hW
  cases hg : State.getWeak ⟨m, S, W⟩ k with
  | none => exact ⟨_, by simp only [step, hg]; rfl, ⟨ht, hS, hW⟩, by simp⟩
  | some h =>
    have hi : W[k]? = some (some h) := getWeak_eq_some.mp hg
    have hc := liveWeak_set b W k h (some ⟨none, none⟩) hi
    have hn : liveWeak b (W.set k (some ⟨none, none⟩) ++ [some ⟨h.ptr_, h.block_⟩]) =
        liveWeak b W := by
      rw [liveWeak_push]
      simp only [Option.any_some, beq_iff_eq, reduceCtorEq, if_false] at hc
      simp only
      omega
    refine ⟨⟨m, S, W.set k (some ⟨none, none⟩) ++ [some ⟨h.ptr_, h.block_⟩]⟩, ?_,
      ⟨?_, hS, ?_⟩, by simp⟩
    · simp [step, hg, WeakPtr.move, pure, Except.pure]
    · exact ht.cast rfl hn
    · refine weakWithin_push (weakWithin_set hW k ?_) (weakWithin_get hW hi)
      intro x hx
      cases hx
      exact Or.inl rfl

theorem step_weakReset {b o : Nat} {m : Machine} {S : List (Option SharedPtr)}
    {W : List (Option WeakPtr)} (k : Nat) (hinv : Inv b o ⟨m, S, W⟩) :
    ∃ st', step ⟨m, S, W⟩ (.weakReset k) = .ok st' ∧ Inv b o st' ∧
      liveShared b S ≤ liveShared b st'.shared + 1 := by
  obtain ⟨ht, hS, hW⟩ := hinv
  simp only at ht hS hW
  cases hg : State.getWeak ⟨m, S, W⟩ k with
  | none => exact ⟨_, by simp only [step, hg]; rfl, ⟨ht, hS, hW⟩, by simp⟩
  | some h =>
    have hi : W[k]? = some (some h) := getWeak_eq_some.mp hg
    rcases weakWithin_get hW hi with hb | hb
    · have hc := liveWeak_set b W k h (some h) hi
      simp only [Option.any_some, beq_iff_eq, hb, reduceCtorEq, if_false] at hc
      refine ⟨⟨m, S, W.set k (some h)⟩, ?_, ⟨?_, hS, ?_⟩, by simp⟩
      · simp [step, hg, WeakPtr.Reset, hb, pure, Except.pure, bind, Except.bind]
      · exact ht.cast rfl (by simpa using hc)
      · exact weakWithin_set hW k (fun x hx => by cases hx; exact Or.inl hb)
    · have hc := liveWeak_set b W k h (some ⟨none, none⟩) hi
      simp only [Option.any_some, beq_iff_eq, hb, reduceCtorEq, if_false, if_true] at hc
      obtain ⟨m', hdec, ht'⟩ := ht.decW (liveWeak_pos b W k h hi hb)
      refine ⟨⟨m', S, W.set k (some ⟨none, none⟩)⟩, ?_, ⟨?_, hS, ?_⟩, by simp⟩
      · simp [step, hg, WeakPtr.Reset, hb, hdec, pure, Except.pure, bind, Except.bind]
      · exact ht'.cast rfl (by simp only; omega)
      · exact weakWithin_set hW k (fun x hx => by cases hx; exact Or.inl rfl)

theorem step_weakDestroy {b o : Nat} {m : Machine} {S : List (Option SharedPtr)}
    {W : List (Option WeakPtr)} (k : Nat) (hinv : Inv b o ⟨m, S, W⟩) :
    ∃ st', step ⟨m, S, W⟩ (.weakDestroy k) = .ok st' ∧ Inv b o st' ∧
      liveShared b S ≤ liveShared b st'.shared + 1 := by
  obtain ⟨ht, hS, hW⟩ := hinv
  simp only at ht hS hW
  cases hg : State.getWeak ⟨m, S, W⟩ k with
  | none => exact ⟨_, by simp only [step, hg]; rfl, ⟨ht, hS, hW⟩, by simp⟩
  | some h =>
    have hi : W[k]? = some (some h) := getWeak_eq_some.mp hg
    have hc := liveWeak_set b W k h none hi
    rcases weakWithin_get hW hi with hb | hb
    · simp only [Option.any_none, hb, reduceCtorEq, if_false, Bool.false_eq_true] at hc
      refine ⟨⟨m, S, W.set k none⟩, ?_, ⟨?_, hS, ?_⟩, by simp⟩
      · simp [step, hg, WeakPtr.dtor, hb, pure, Except.pure, bind, Except.bind]
      · exact ht.cast rfl (by simpa using hc)
      · exact weakWithin_set hW k (fun x hx => by cases hx)
    · simp only [Option.any_none, hb, if_true, Bool.false_eq_true, if_false] at hc
      obtain ⟨m', hdec, ht'⟩ := ht.decW (liveWeak_pos b W k h hi hb)
      refine ⟨⟨m', S, W.set k none⟩, ?_, ⟨?_, hS, ?_⟩, by simp⟩
      · simp [step, hg, WeakPtr.dtor, hb, hdec, pure, Except.pure, bind, Except.bind]
      · exact ht'.cast rfl (by simp only; omega)
      · exact weakWithin_set hW k (fun x hx => by cases hx)

theorem step_weakSwap {b o : Nat} {m : Machine} {S : List (Option SharedPtr)}
    {W : List (Option WeakPtr)} (i j : Nat) (hinv : Inv b o ⟨m, S, W⟩) :
    ∃ st', step ⟨m, S, W⟩ (.weakSwap i j) = .ok st' ∧ Inv b o st' ∧
      liveShared b S ≤ liveShared b st'.shared + 1 := by
  obtain ⟨ht, hS, hW⟩ := hinv
  simp only at ht hS hW
  cases hg : State.getWeak ⟨m, S, W⟩ i with
  | none => exact ⟨_, by simp only [step, hg]; rfl, ⟨ht, hS, hW⟩, by simp⟩
  | some a =>
    cases hg' : State.getWeak ⟨m, S, W⟩ j with
    | none => exact ⟨_, by simp only [step, hg, hg']; rfl, ⟨ht, hS, hW⟩, by simp⟩
    | some c =>
      have hi : W[i]? = some (some a) := getWeak_eq_some.mp hg
      have hj : W[j]? = some (some c) := getWeak_eq_some.mp hg'
      have hj' : (W.set i (some ⟨c.ptr_, c.block_⟩))[j]? = some (some c) :=
        getElem?_set_other W i j _ _ hj (fun _ => rfl)
      have h1 := liveWeak_set b W i a (some ⟨c.ptr_, c.block_⟩) hi
      have h2 := liveWeak_set b (W.set i (some ⟨c.ptr_, c.block_⟩)) j c
        (some ⟨a.ptr_, a.block_⟩) hj'
      simp only [Option.any_some, beq_iff_eq] at h1 h2
      have hn : liveWeak b ((W.set i (some ⟨c.ptr_, c.block_⟩)).set j
          (some ⟨a.ptr_, a.block_⟩)) = liveWeak b W := by omega
      refine ⟨⟨m, S, (W.set i (some ⟨c.ptr_, c.block_⟩)).set j (some ⟨a.ptr_, a.block_⟩)⟩,
        ?_, ⟨?_, hS, ?_⟩, by simp⟩
      · simp [step, hg, hg', WeakPtr.Swap, pure, Except.pure]
      · exact ht.cast rfl hn
      · refine weakWithin_set (weakWithin_set hW i ?_) j ?_
        · intro x hx; cases hx; exact weakWithin_get hW hj
        · intro x hx; cases hx; exact weakWithin_get hW hi

theorem step_weakAssign {b o : Nat} {m : Machine} {S : List (Option SharedPtr)}
    {W : List (Option WeakPtr)} (i j : Nat) (hij : i ≠ j) (hinv : Inv b o ⟨m, S, W⟩) :
    ∃ st', step ⟨m, S, W⟩ (.weakAssign i j) = .ok st' ∧ Inv b o st' ∧
      liveShared b S ≤ liveShared b st'.shared + 1 := by
  obtain ⟨ht, hS, hW⟩ := hinv
  simp only at ht hS hW
  cases hg : State.getWeak ⟨m, S, W⟩ i with
  | none => exact ⟨_, by simp only [step, hg]; rfl, ⟨ht, hS, hW⟩, by simp⟩
  | some a =>
    cases hg' : State.getWeak ⟨m, S, W⟩ j with
    | none => exact ⟨_, by simp only [step, hg, hg']; rfl, ⟨ht, hS, hW⟩, by simp⟩
    | some c =>
      have hi : W[i]? = some (some a) := getWeak_eq_some.mp hg
      have hj : W[j]? = some (some c) := getWeak_eq_some.mp hg'
      have h1 := liveWeak_set b W i a (some ⟨c.ptr_, c.block_⟩) hi
      simp only [Option.any_some, beq_iff_eq] at h1
      obtain ⟨L, hL⟩ : ∃ L, liveWeak b (W.set i (some ⟨c.ptr_, c.block_⟩)) = L := ⟨_, rfl⟩
      rw [hL] at h1
      have hwithin : weakWithin b (W.set i (some ⟨c.ptr_, c.block_⟩)) :=
        weakWithin_set hW i (fun x hx => by cases hx; exact weakWithin_get hW hj)
      rcases weakWithin_get hW hi with ha | ha <;>
        rcases weakWithin_get hW hj with hc | hc
      · simp only [ha, hc, reduceCtorEq, if_false] at h1
        refine ⟨⟨m, S, W.set i (some ⟨c.ptr_, c.block_⟩)⟩, ?_, ⟨?_, hS, hwithin⟩, by simp⟩
        · simp [step, hg, hg', WeakPtr.assign, ha, hc, pure, Except.pure, bind,
            Except.bind]
        · exact ht.cast rfl (by simp only [hL]; omega)
      · simp only [ha, hc, reduceCtorEq, if_false, if_true] at h1
        obtain ⟨m', hinc, ht'⟩ := ht.incW (Or.inr (liveWeak_pos b W j c hj hc))
        refine ⟨⟨m', S, W.set i (some ⟨c.ptr_, c.block_⟩)⟩, ?_, ⟨?_, hS, hwithin⟩, by simp⟩
        · simp [step, hg, hg', WeakPtr.assign, ha, hc, hinc, pure, Except.pure, bind,
            Except.bind]
        · exact ht'.cast rfl (by simp only [hL]; omega)
      · simp only [ha, hc, reduceCtorEq, if_false, if_true] at h1
        obtain ⟨m', hdec, ht'⟩ := ht.decW (liveWeak_pos b W i a hi ha)
        refine ⟨⟨m', S, W.set i (some ⟨c.ptr_, c.block_⟩)⟩, ?_, ⟨?_, hS, hwithin⟩, by simp⟩
        · simp [step, hg, hg', WeakPtr.assign, ha, hc, hdec, pure, Except.pure, bind,
            Except.bind]
        · exact ht'.cast rfl (by simp only [hL]; omega)
      · simp only [ha, hc, if_true] at h1
        have h2 := liveWeak_two b W i j a c hij hi hj ha hc
        obtain ⟨m', hdec, ht'⟩ := ht.decW (by omega)
        obtain ⟨m'', hinc, ht''⟩ := ht'.incW (Or.inr (by omega))
        refine ⟨⟨m'', S, W.set i (some ⟨c.ptr_, c.block_⟩)⟩, ?_, ⟨?_, hS, hwithin⟩, by simp⟩
        · simp [step, hg, hg', WeakPtr.assign, ha, hc, hdec, hinc, pure, Except.pure,
            bind, Except.bind]
        · exact ht''.cast rfl (by simp only [hL]; omega)

theorem step_weakAssignShared {b o : Nat} {m : Machine} {S : List (Option SharedPtr)}
    {W : List (Option WeakPtr)} (i j : Nat) (hinv : Inv b o ⟨m, S, W⟩) :
    ∃ st', step ⟨m, S, W⟩ (.weakAssignShared i j) = .ok st' ∧ Inv b o st' ∧
      liveShared b S ≤ liveShared b st'.shared + 1 := by
  obtain ⟨ht, hS, hW⟩ := hinv
  simp only at ht hS hW
  cases hg : State.getWeak ⟨m, S, W⟩ i with
  | none => exact ⟨_, by simp only [step, hg]; rfl, ⟨ht, hS, hW⟩, by simp⟩
  | some a =>
    cases hg' : State.getShared ⟨m, S, W⟩ j with
    | none => exact ⟨_, by simp only [step, hg, hg']; rfl, ⟨ht, hS, hW⟩, by simp⟩
    | some c =>
      have hi : W[i]? = some (some a) := getWeak_eq_some.mp hg
      have hj : S[j]? = some (some c) := getShared_eq_some.mp hg'
      have h1 := liveWeak_set b W i a (some ⟨c.ptr_, c.block_⟩) hi
      simp only [Option.any_some, beq_iff_eq] at h1
      obtain ⟨L, hL⟩ : ∃ L, liveWeak b (W.set i (some ⟨c.ptr_, c.block_⟩)) = L := ⟨_, rfl⟩
      rw [hL] at h1
      have hwithin : weakWithin b (W.set i (some ⟨c.ptr_, c.block_⟩)) :=
        weakWithin_set hW i (fun x hx => by cases hx; exact sharedWithin_get hS hj)
      rcases weakWithin_get hW hi with ha | ha <;>
        rcases sharedWithin_get hS hj with hc | hc
      · simp only [ha, hc, reduceCtorEq, if_false] at h1
        refine ⟨⟨m, S, W.set i (some ⟨c.ptr_, c.block_⟩)⟩, ?_, ⟨?_, hS, hwithin⟩, by simp⟩
        · simp [step, hg, hg', WeakPtr.assignShared, ha, hc, pure, Except.pure, bind,
            Except.bind]
        · exact ht.cast rfl (by simp only [hL]; omega)
      · simp only [ha, hc, reduceCtorEq, if_false, if_true] at h1
        obtain ⟨m', hinc, ht'⟩ := ht.incW (Or.inl (liveShared_pos b S j c hj hc))
        refine ⟨⟨m', S, W.set i (some ⟨c.ptr_, c.block_⟩)⟩, ?_, ⟨?_, hS, hwithin⟩, by simp⟩
        · simp [step, hg, hg', WeakPtr.assignShared, ha, hc, hinc, pure, Except.pure, bind,
            Except.bind]
        · exact ht'.cast rfl (by simp only [hL]; omega)
      · simp only [ha, hc, reduceCtorEq, if_false, if_true] at h1
        obtain ⟨m', hdec, ht'⟩ := ht.decW (liveWeak_pos b W i a hi ha)
        refine ⟨⟨m', S, W.set i (some ⟨c.ptr_, c.block_⟩)⟩, ?_, ⟨?_, hS, hwithin⟩, by simp⟩
        · simp [step, hg, hg', WeakPtr.assignShared, ha, hc, hdec, pure, Except.pure, bind,
            Except.bind]
        · exact ht'.cast rfl (by simp only [hL]; omega)
      · simp only [ha, hc, if_true] at h1
        obtain ⟨m', hdec, ht'⟩ := ht.decW (liveWeak_pos b W i a hi ha)
        obtain ⟨m'', hinc, ht''⟩ := ht'.incW (Or.inl (liveShared_pos b S j c hj hc))
        have hp := liveWeak_pos b W i a hi ha
        refine ⟨⟨m'', S, W.set i (some ⟨c.ptr_, c.block_⟩)⟩, ?_, ⟨?_, hS, hwithin⟩, by simp⟩
        · simp [step, hg, hg', WeakPtr.assignShared, ha, hc, hdec, hinc, pure, Except.pure,
            bind, Except.bind]
        · exact ht''.cast rfl (by simp only [hL]; omega)

theorem step_weakMoveAssign {b o : Nat} {m : Machine} {S : List (Option SharedPtr)}
    {W : List (Option WeakPtr)} (i j : Nat) (hij : i ≠ j) (hinv : Inv b o ⟨m, S, W⟩) :
    ∃ st', step ⟨m, S, W⟩ (.weakMoveAssign i j) = .ok st' ∧ Inv b o st' ∧
      liveShared b S ≤ liveShared b st'.shared + 1 := by
  obtain ⟨ht, hS, hW⟩ := hinv
  simp only at ht hS hW
  cases hg : State.getWeak ⟨m, S, W⟩ i with
  | none => exact ⟨_, by simp only [step, hg]; rfl, ⟨ht, hS, hW⟩, by simp⟩
  | some a =>
    cases hg' : State.getWeak ⟨m, S, W⟩ j with
    | none => exact ⟨_, by simp only [step, hg, hg']; rfl, ⟨ht, hS, hW⟩, by simp⟩
    | some c =>
      have hi : W[i]? = some (some a) := getWeak_eq_some.mp hg
      have hj : W[j]? = some (some c) := getWeak_eq_some.mp hg'
      have hj' : (W.set i (some ⟨c.ptr_, c.block_⟩))[j]? = some (some c) := by
        rw [List.getElem?_set_ne hij, hj]
      have h1 := liveWeak_set b W i a (some ⟨c.ptr_, c.block_⟩) hi
      have h2 := liveWeak_set b (W.set i (some ⟨c.ptr_, c.block_⟩)) j c
        (some ⟨none, none⟩) hj'
      simp only [Option.any_some, beq_iff_eq, reduceCtorEq, if_false] at h1 h2
      have hwithin : weakWithin b
          ((W.set i (some ⟨c.ptr_, c.block_⟩)).set j (some ⟨none, none⟩)) := by
        refine weakWithin_set (weakWithin_set hW i ?_) j ?_
        · intro x hx; cases hx; exact weakWithin_get hW hj
        · intro x hx; cases hx; exact Or.inl rfl
      rcases weakWithin_get hW hi with ha | ha
      · simp only [ha, reduceCtorEq, if_false] at h1
        refine ⟨⟨m, S, (W.set i (some ⟨c.ptr_, c.block_⟩)).set j (some ⟨none, none⟩)⟩, ?_,
          ⟨?_, hS, hwithin⟩, by simp⟩
        · simp [step, hg, hg', WeakPtr.moveAssign, ha, pure, Except.pure, bind,
            Except.bind]
        · exact ht.cast rfl (by simp only; omega)
      · simp only [ha, if_true] at h1
        obtain ⟨m', hdec, ht'⟩ := ht.decW (liveWeak_pos b W i a hi ha)
        refine ⟨⟨m', S, (W.set i (some ⟨c.ptr_, c.block_⟩)).set j (some ⟨none, none⟩)⟩, ?_,
          ⟨?_, hS, hwithin⟩, by simp⟩
        · simp [step, hg, hg', WeakPtr.moveAssign, ha, hdec, pure, Except.pure, bind,
            Except.bind]
        · exact ht'.cast rfl (by simp only; omega)

/-- Every statement on the handles of one block returns, keeps the invariant, and
lowers the number of live strong handles by at most one. -/
theorem step_inv {b o : Nat} {st : State} (op : Op) (hinv : Inv b o st)
    (hop : op.onOneBlock = true) :
    ∃ st', step st op = .ok st' ∧ Inv b o st' ∧
      liveShared b st.shared ≤ liveShared b st'.shared + 1 := by
  obtain ⟨m, S, W⟩ := st
  cases op with
  | adopt e => simp [Op.onOneBlock] at hop
  | make e => simp [Op.onOneBlock] at hop
  | aliasOf i p => simp [Op.onOneBlock] at hop
  | copy i => exact step_copy i hinv
  | move i => exact step_move i hinv
  | promote k => exact step_promote k hinv
  | lock k => exact step_lock k hinv
  | assign i j => exact step_assign i j (by simpa [Op.onOneBlock] using hop) hinv
  | moveAssign i j => exact step_moveAssign i j (by simpa [Op.onOneBlock] using hop) hinv
  | reset i => exact step_reset i hinv
  | swap i j => exact step_swap i j hinv
  | destroy i => exact step_destroy i hinv
  | weakOf i => exact step_weakOf i hinv
  | weakCopy k => exact step_weakCopy k hinv
  | weakMove k => exact step_weakMove k hinv
  | weakAssign k l => exact step_weakAssign k l (by simpa [Op.onOneBlock] using hop) hinv
  | weakMoveAssign k l =>
    exact step_weakMoveAssign k l (by simpa [Op.onOneBlock] using hop) hinv
  | weakAssignShared k i => exact step_weakAssignShared k i hinv
  | weakReset k => exact step_weakReset k hinv
  | weakSwap k l => exact step_weakSwap k l hinv
  | weakDestroy k => exact step_weakDestroy k hinv

/-- Every program on the handles of one block returns and keeps the invariant. -/
theorem run_inv {b o : Nat} (ops : List Op) :
    ∀ (st : State), Inv b o st → (∀ op ∈ ops, op.onOneBlock = true) →
      ∃ st', run st ops = .ok st' ∧ Inv b o st' := by
  induction ops with
  | nil => intro st h _; exact ⟨st, rfl, h⟩
  | cons op ops ih =>
    intro st h hops
    obtain ⟨st1, h1, hinv1, _⟩ := step_inv op h (hops op (List.mem_cons_self _ _))
    obtain ⟨st2, h2, hinv2⟩ := ih st1 hinv1 (fun x hx => hops x (List.mem_cons_of_mem _ hx))
    exact ⟨st2, by simp [run, h1, h2, bind, Except.bind], hinv2⟩

/-! ## The first owner -/

theorem derefBlock_writeBlock_lt {m : Machine} {b : Nat} {blk : ControlBlock}
    (hl : b < m.blocks.length) :
    (m.writeBlock b blk).derefBlock b =
      if blk.deleteThisCalls = 0 then .ok blk else .error .undefined := by
  simp [Machine.derefBlock, List.getElem?_set_self hl]

/-- Installing the weak back-references into a fresh self-observing payload whose block
has just received its first strong reference. -/
theorem installWeakThis_fresh {m : Machine} {b o : Nat} {kind : BlockKind}
    (hb : m.blocks[b]? = some ⟨1, 0, kind, some o, 0, 0⟩)
    (ho : m.objects[o]? = some ⟨some ⟨⟨none, none⟩, ⟨none, none⟩⟩, 0, 0⟩) :
    ∃ m', installWeakThis m ⟨some o, some b⟩ = .ok m' ∧
      m'.blocks[b]? = some ⟨1, 2, kind, some o, 0, 0⟩ ∧
      m'.objects[o]? = some ⟨some ⟨⟨some o, some b⟩, ⟨some o, some b⟩⟩, 0, 0⟩ := by
  have hl : b < m.blocks.length := (List.getElem?_eq_some_iff.mp hb).1
  have hol : o < m.objects.length := (List.getElem?_eq_some_iff.mp ho).1
  have hd : m.derefBlock b = .ok ⟨1, 0, kind, some o, 0, 0⟩ :=
    derefBlock_eq_ok.mpr ⟨hb, rfl⟩
  have hobj : m.derefObject o = .ok ⟨some ⟨⟨none, none⟩, ⟨none, none⟩⟩, 0, 0⟩ :=
    derefObject_eq_ok.mpr ⟨ho, rfl, rfl⟩
  refine ⟨(m.writeObject o ⟨some ⟨⟨some o, some b⟩, ⟨some o, some b⟩⟩, 0, 0⟩).writeBlock b
    ⟨1, 2, kind, some o, 0, 0⟩, ?_, ?_, ?_⟩
  · simp [installWeakThis, WeakPtr.ofShared, WeakPtr.moveAssign, WeakPtr.dtor,
      SharedPtr.copy, SharedPtr.dtor, IncWCounter, IncSCounter, DecSCounter, hd, hobj,
      bind, Except.bind, pure, Except.pure, derefBlock_writeBlock_lt, hl, decSize,
      writeBlock_writeBlock, writeBlock_writeObject, writeObject_writeObject]
  · simp [List.getElem?_set_self hl]
  · simp [List.getElem?_set_self hol]

theorem own_fresh {m : Machine} {b o : Nat} {kind : BlockKind} (esft : Bool)
    (hb : m.blocks[b]? = some ⟨0, 0, kind, some o, 0, 0⟩)
    (ho : m.objects[o]? = some (Object.fresh esft)) :
    IncSCounter m b = .ok (m.writeBlock b ⟨1, 0, kind, some o, 0, 0⟩) ∧
    (esft = false → Tracks b o (m.writeBlock b ⟨1, 0, kind, some o, 0, 0⟩) 1 0) ∧
    (esft = true → ∃ m', installWeakThis (m.writeBlock b ⟨1, 0, kind, some o, 0, 0⟩)
        ⟨some o, some b⟩ = .ok m' ∧ Tracks b o m' 1 0) := by
  have hd : m.derefBlock b = .ok ⟨0, 0, kind, some o, 0, 0⟩ := derefBlock_eq_ok.mpr ⟨hb, rfl⟩
  refine ⟨by rw [IncSCounter_ok hd], ?_, ?_⟩
  · intro he
    subst he
    refine ⟨_, Object.fresh false, blocks_writeBlock_self hb, by simpa using ho, rfl, rfl,
      Or.inl ?_⟩
    simp [Object.fresh, Object.slotsOn]
  · intro he
    subst he
    obtain ⟨m', h1, h2, h3⟩ := @installWeakThis_fresh
      (m.writeBlock b ⟨1, 0, kind, some o, 0, 0⟩) b o kind
      (blocks_writeBlock_self hb) (by simpa [Object.fresh] using ho)
    refine ⟨m', h1, _, _, h2, h3, rfl, ?_, Or.inl ?_⟩
    · simp [Object.slotsWithin]
    · simp [Object.slotsOn, slotOn]

/-- The state after `SharedPtr<T> a(new T)`: the new block has number
`m.blocks.length`, its payload number `m.objects.length`, and the invariant holds with
one live strong handle. -/
theorem afterAdopt_inv (esft : Bool) (m : Machine) :
    ∃ m', afterAdopt esft m =
        .ok ⟨m', [some ⟨some m.objects.length, some m.blocks.length⟩], []⟩ ∧
      Inv m.blocks.length m.objects.length
        ⟨m', [some ⟨some m.objects.length, some m.blocks.length⟩], []⟩ := by
  obtain ⟨h1, h2, h3⟩ := @own_fresh
    ⟨m.blocks ++ [⟨0, 0, .Pointer, some m.objects.length, 0, 0⟩],
      m.objects ++ [Object.fresh esft]⟩
    m.blocks.length m.objects.length .Pointer esft (by simp) (by simp)
  have hw : sharedWithin m.blocks.length
      [some ⟨some m.objects.length, some m.blocks.length⟩] := by
    intro x hx
    simp only [List.mem_singleton, Option.some.injEq] at hx
    subst hx
    exact Or.inr rfl
  have hw' : weakWithin m.blocks.length [] := by
    intro x hx
    simp at hx
  cases esft with
  | false =>
    refine ⟨_, ?_, ⟨(h2 rfl).cast (by simp [liveShared]) (by simp [liveWeak]), hw, hw'⟩⟩
    simp only [afterAdopt, step, Machine.newObject, SharedPtr.ofPtr, Machine.newBlock, h1,
      bind, Except.bind, pure, Except.pure]
    simp [Machine.writeBlock]
  | true =>
    obtain ⟨m', hm', ht⟩ := h3 rfl
    refine ⟨m', ?_, ⟨ht.cast (by simp [liveShared]) (by simp [liveWeak]), hw, hw'⟩⟩
    simp only [afterAdopt, step, Machine.newObject, SharedPtr.ofPtr, Machine.newBlock, h1,
      hm', bind, Except.bind, pure, Except.pure]
    simp [Machine.writeBlock]

/-- The state after `SharedPtr<T> a = MakeShared<T>()`. -/
theorem afterMake_inv (esft : Bool) (m : Machine) :
    ∃ m', afterMake esft m =
        .ok ⟨m', [some ⟨some m.objects.length, some m.blocks.length⟩], []⟩ ∧
      Inv m.blocks.length m.objects.length
        ⟨m', [some ⟨some m.objects.length, some m.blocks.length⟩], []⟩ := by
  obtain ⟨h1, h2, h3⟩ := @own_fresh
    ⟨m.blocks ++ [⟨0, 0, .Holder, some m.objects.length, 0, 0⟩],
      m.objects ++ [Object.fresh esft]⟩
    m.blocks.length m.objects.length .Holder esft (by simp) (by simp)
  have hd : (⟨m.blocks ++ [⟨0, 0, .Holder, some m.objects.length, 0, 0⟩],
      m.objects ++ [Object.fresh esft]⟩ : Machine).derefBlock m.blocks.length =
      .ok ⟨0, 0, .Holder, some m.objects.length, 0, 0⟩ :=
    derefBlock_eq_ok.mpr ⟨by simp, rfl⟩
  have hw : sharedWithin m.blocks.length
      [some ⟨some m.objects.length, some m.blocks.length⟩] := by
    intro x hx
    simp only [List.mem_singleton, Option.some.injEq] at hx
    subst hx
    exact Or.inr rfl
  have hw' : weakWithin m.blocks.length [] := by
    intro x hx
    simp at hx
  cases esft with
  | false =>
    refine ⟨_, ?_, ⟨(h2 rfl).cast (by simp [liveShared]) (by simp [liveWeak]), hw, hw'⟩⟩
    simp only [afterMake, step, MakeShared, Machine.newObject, SharedPtr.ofHolder,
      Machine.newBlock, h1, hd, bind, Except.bind, pure, Except.pure]
    simp [Machine.writeBlock]
  | true =>
    obtain ⟨m', hm', ht⟩ := h3 rfl
    refine ⟨m', ?_, ⟨ht.cast (by simp [liveShared]) (by simp [liveWeak]), hw, hw'⟩⟩
    simp only [afterMake, step, MakeShared, Machine.newObject, SharedPtr.ofHolder,
      Machine.newBlock, h1, hd, hm', bind, Except.bind, pure, Except.pure]
    simp [Machine.writeBlock]

theorem firstOwner_inv (viaMake esft : Bool) (m : Machine) :
    ∃ st0, firstOwner viaMake esft m = .ok st0 ∧
      Inv m.blocks.length m.objects.length st0 := by
  cases viaMake with
  | false =>
    obtain ⟨m', h1, h2⟩ := afterAdopt_inv esft m
    exact ⟨_, by simpa [firstOwner] using h1, h2⟩
  | true =>
    obtain ⟨m', h1, h2⟩ := afterMake_inv esft m
    exact ⟨_, by simpa [firstOwner] using h1, h2⟩

/-- Every program on the handles of the block of a first owner returns, in a state
that satisfies the invariant. -/
theorem program_inv (viaMake esft : Bool) (m : Machine) (ops : List Op)
    (hops : ∀ op ∈ ops, op.onOneBlock = true) :
    ∃ st0 st, firstOwner viaMake esft m = .ok st0 ∧ run st0 ops = .ok st ∧
      Inv m.blocks.length m.objects.length st := by
  obtain ⟨st0, h0, hinv0⟩ := firstOwner_inv viaMake esft m
  obtain ⟨st, h1, hinv⟩ := run_inv ops st0 hinv0 hops
  exact ⟨st0, st, h0, h1, hinv⟩

/-! ## Programs on one block -/

/-- C1. Start from a freshly adopted or `MakeShared` object (self-observing or not, in
any machine) and run any sequence of statements on the handles of its block: copy and
move construction, `Reset()`, destruction (and also `Lock`, promotion, `Swap`,
assignment between different variables and every `WeakPtr` statement).  The program
returns, and for every live `SharedPtr` on that block `UseCount()` is the number of live
`SharedPtr` variables whose `block_` is that block. -/
theorem C1_UseCount_counts_live_handles (viaMake esft : Bool) (m : Machine) (ops : List Op)
    (hops : ∀ op ∈ ops, op.onOneBlock = true) :
    ∃ st0 st, firstOwner viaMake esft m = .ok st0 ∧ run st0 ops = .ok st ∧
      ∀ i h, st.getShared i = some h → h.block_ = some m.blocks.length →
        h.UseCount st.m = .ok (liveShared m.blocks.length st.shared) := by
  obtain ⟨st0, st, h0, h1, ht, _, _⟩ := program_inv viaMake esft m ops hops
  refine ⟨st0, st, h0, h1, ?_⟩
  intro i h hg hb
  obtain ⟨blk, hd, hs⟩ :=
    ht.deref (Or.inl (liveShared_pos _ st.shared i h (getShared_eq_some.mp hg) hb))
  simp [SharedPtr.UseCount, hb, GetSCounter_ok hd, hs]

/-- C1, on a program that copies, moves, resets and destroys. -/
theorem C1_UseCount_counts_live_handles_witness :
    (∀ op ∈ [Op.copy 0, .copy 1, .move 0, .reset 1, .destroy 2], op.onOneBlock = true) ∧
    (do let st ← firstOwner false false ⟨[], []⟩
        run st [.copy 0, .copy 1, .move 0, .reset 1, .destroy 2]) =
      .ok ⟨⟨[⟨1, 0, .Pointer, some 0, 0, 0⟩], [⟨none, 0, 0⟩]⟩,
        [some ⟨none, none⟩, some ⟨none, none⟩, none, some ⟨some 0, some 0⟩], []⟩ ∧
    ∃ st0 st, firstOwner false false ⟨[], []⟩ = .ok st0 ∧
      run st0 [.copy 0, .copy 1, .move 0, .reset 1, .destroy 2] = .ok st ∧
      ∀ i h, st.getShared i = some h →
        h.block_ = some (⟨[], []⟩ : Machine).blocks.length →
        h.UseCount st.m = .ok (liveShared (⟨[], []⟩ : Machine).blocks.length st.shared) :=
  ⟨by decide, by decide,
    C1_UseCount_counts_live_handles false false ⟨[], []⟩
      [.copy 0, .copy 1, .move 0, .reset 1, .destroy 2] (by decide)⟩

/-- C2. Start from a freshly adopted or `MakeShared` object and run any sequence of
statements on the handles of its block (copy, move, assignment from a different
variable, `Reset`, `WeakPtr` derivation, `Lock`, destruction, ...).  The program
returns.  While a strong handle is live, `DeleteObject` has not been invoked on the
block, the payload is not destroyed, and the strong count is the number of live strong
handles; once no strong handle is live, `DeleteObject` has been invoked exactly once
and the payload destroyed exactly once, whatever the program does afterwards.  One more
statement lowers the number of live strong handles by at most one, so the invocation
happens in the statement that takes the strong count from 1 to 0. -/
theorem C2_DeleteObject_exactly_once (viaMake esft : Bool) (m : Machine) (ops : List Op)
    (hops : ∀ op ∈ ops, op.onOneBlock = true) :
    ∃ st0 st blk obj, firstOwner viaMake esft m = .ok st0 ∧ run st0 ops = .ok st ∧
      st.m.blocks[m.blocks.length]? = some blk ∧
      st.m.objects[m.objects.length]? = some obj ∧
      (0 < liveShared m.blocks.length st.shared →
        blk.deleteObjectCalls = 0 ∧ obj.dtorCalls = 0 ∧
        blk.shared_counter_ = liveShared m.blocks.length st.shared) ∧
      (liveShared m.blocks.length st.shared = 0 →
        blk.deleteObjectCalls = 1 ∧ obj.dtorCalls = 1) ∧
      (∀ op, op.onOneBlock = true → ∃ st', step st op = .ok st' ∧
        liveShared m.blocks.length st.shared ≤ liveShared m.blocks.length st'.shared + 1) := by
  obtain ⟨st0, st, h0, h1, hinv⟩ := program_inv viaMake esft m ops hops
  obtain ⟨blk, obj, hb, ho, _, _, hph⟩ := hinv.1
  refine ⟨st0, st, blk, obj, h0, h1, hb, ho, ?_, ?_, ?_⟩
  · intro hpos
    rcases hph with h | h
    · exact ⟨h.2.2.2.1, h.2.2.2.2.2.1, h.2.1⟩
    · omega
  · intro hz
    rcases hph with h | h
    · omega
    · exact ⟨h.2.1, h.2.2.1⟩
  · intro op hop
    obtain ⟨st', hs, _, hle⟩ := step_inv op hinv hop
    exact ⟨st', hs, hle⟩

/-- C2, on a program that ends with no strong handle while a weak one remains. -/
theorem C2_DeleteObject_exactly_once_witness :
    (∀ op ∈ [Op.copy 0, .weakOf 0, .assign 0 1, .destroy 0, .lock 0, .reset 1, .reset 2,
      .lock 0], op.onOneBlock = true) ∧
    ∃ st0 st blk obj, firstOwner true true ⟨[], []⟩ = .ok st0 ∧
      run st0 [.copy 0, .weakOf 0, .assign 0 1, .destroy 0, .lock 0, .reset 1, .reset 2,
        .lock 0] = .ok st ∧
      st.m.blocks[(⟨[], []⟩ : Machine).blocks.length]? = some blk ∧
      st.m.objects[(⟨[], []⟩ : Machine).objects.length]? = some obj ∧
      (0 < liveShared (⟨[], []⟩ : Machine).blocks.length st.shared →
        blk.deleteObjectCalls = 0 ∧ obj.dtorCalls = 0 ∧
        blk.shared_counter_ = liveShared (⟨[], []⟩ : Machine).blocks.length st.shared) ∧
      (liveShared (⟨[], []⟩ : Machine).blocks.length st.shared = 0 →
        blk.deleteObjectCalls = 1 ∧ obj.dtorCalls = 1) ∧
      (∀ op, op.onOneBlock = true → ∃ st', step st op = .ok st' ∧
        liveShared (⟨[], []⟩ : Machine).blocks.length st.shared ≤
          liveShared (⟨[], []⟩ : Machine).blocks.length st'.shared + 1) :=
  ⟨by decide,
    C2_DeleteObject_exactly_once true true ⟨[], []⟩
      [.copy 0, .weakOf 0, .assign 0 1, .destroy 0, .lock 0, .reset 1, .reset 2, .lock 0]
      (by decide)⟩

/-- C6. Start from a freshly adopted or `MakeShared` object and run any sequence of
statements on the handles of its block (`SharedPtr` copy, move, `Reset`, destruction,
`WeakPtr` derivation, copy, destruction, ...).  The program returns, and for every live
`WeakPtr` on that block, however many there are, `Expired()` is true exactly when no
`SharedPtr` on the block is live; in that case `Lock()` returns the empty handle. -/
theorem C6_Expired_iff_no_strong_handle (viaMake esft : Bool) (m : Machine)
    (ops : List Op) (hops : ∀ op ∈ ops, op.onOneBlock = true) :
    ∃ st0 st, firstOwner viaMake esft m = .ok st0 ∧ run st0 ops = .ok st ∧
      ∀ k w, st.getWeak k = some w → w.block_ = some m.blocks.length →
        w.Expired st.m = .ok (liveShared m.blocks.length st.shared == 0) ∧
        (liveShared m.blocks.length st.shared = 0 →
          WeakPtr.Lock st.m w = .ok (st.m, ⟨none, none⟩)) := by
  obtain ⟨st0, st, h0, h1, ht, _, _⟩ := program_inv viaMake esft m ops hops
  refine ⟨st0, st, h0, h1, ?_⟩
  intro k w hg hb
  obtain ⟨blk, hd, hs⟩ :=
    ht.deref (Or.inr (liveWeak_pos _ st.weak k w (getWeak_eq_some.mp hg) hb))
  constructor
  · simp [WeakPtr.Expired, hb, GetSCounter_ok hd, hs, bind, Except.bind, pure, Except.pure]
  · intro hz
    simp [WeakPtr.Lock, WeakPtr.UseCount, hb, GetSCounter_ok hd, hs, hz, bind, Except.bind,
      pure, Except.pure, SharedPtr.empty]

/-- C6, on the scenario of the specification: `A` adopts an object, `B` copies `A`, `W`
is derived from `A`; after destroying `A`, `B.UseCount()` is 1 and `W` is not expired;
after destroying `B`, `W` is expired and `W.Lock()` is empty. -/
theorem C6_Expired_iff_no_strong_handle_witness :
    (∀ op ∈ [Op.copy 0, .weakOf 0, .destroy 0, .destroy 1], op.onOneBlock = true) ∧
    (do let st ← firstOwner false false ⟨[], []⟩
        run st [.copy 0, .weakOf 0, .destroy 0]) =
      .ok ⟨⟨[⟨1, 1, .Pointer, some 0, 0, 0⟩], [⟨none, 0, 0⟩]⟩,
        [none, some ⟨some 0, some 0⟩], [some ⟨some 0, some 0⟩]⟩ ∧
    SharedPtr.UseCount ⟨[⟨1, 1, .Pointer, some 0, 0, 0⟩], [⟨none, 0, 0⟩]⟩ ⟨some 0, some 0⟩
      = .ok 1 ∧
    WeakPtr.Expired ⟨[⟨1, 1, .Pointer, some 0, 0, 0⟩], [⟨none, 0, 0⟩]⟩ ⟨some 0, some 0⟩
      = .ok false ∧
    (do let st ← firstOwner false false ⟨[], []⟩
        run st [.copy 0, .weakOf 0, .destroy 0, .destroy 1]) =
      .ok ⟨⟨[⟨0, 1, .Pointer, some 0, 1, 0⟩], [⟨none, 1, 1⟩]⟩,
        [none, none], [some ⟨some 0, some 0⟩]⟩ ∧
    WeakPtr.Expired ⟨[⟨0, 1, .Pointer, some 0, 1, 0⟩], [⟨none, 1, 1⟩]⟩ ⟨some 0, some 0⟩
      = .ok true ∧
    WeakPtr.Lock ⟨[⟨0, 1, .Pointer, some 0, 1, 0⟩], [⟨none, 1, 1⟩]⟩ ⟨some 0, some 0⟩
      = .ok (⟨[⟨0, 1, .Pointer, some 0, 1, 0⟩], [⟨none, 1, 1⟩]⟩, ⟨none, none⟩) ∧
    ∃ st0 st, firstOwner false false ⟨[], []⟩ = .ok st0 ∧
      run st0 [.copy 0, .weakOf 0, .destroy 0, .destroy 1] = .ok st ∧
      ∀ k w, st.getWeak k = some w → w.block_ = some (⟨[], []⟩ : Machine).blocks.length →
        w.Expired st.m =
          .ok (liveShared (⟨[], []⟩ : Machine).blocks.length st.shared == 0) ∧
        (liveShared (⟨[], []⟩ : Machine).blocks.length st.shared = 0 →
          WeakPtr.Lock st.m w = .ok (st.m, ⟨none, none⟩)) :=
  ⟨by decide, by decide, by decide, by decide, by decide, by decide, by decide,
    C6_Expired_iff_no_strong_handle false false ⟨[], []⟩
      [.copy 0, .weakOf 0, .destroy 0, .destroy 1] (by decide)⟩

/-! ## Move construction -/

/-- C11. For every live `SharedPtr` variable `src` of a program state, the statement
`SharedPtr dst(std::move(src))` returns; `dst` has the `ptr_` and `block_` that `src`
had, `src` is left empty (both fields null, `Get()` null, `UseCount()` 0), and the
machine is the one before the statement, so no strong or weak count has changed and
`dst.UseCount()` is what `src.UseCount()` was. -/
theorem C11_move_construction (st : State) (i : Nat) (src : SharedPtr)
    (hsrc : st.getShared i = some src) :
    (SharedPtr.move src).1 = ⟨src.ptr_, src.block_⟩ ∧
    (SharedPtr.move src).2 = ⟨none, none⟩ ∧
    step st (.move i) =
      .ok ⟨st.m, st.shared.set i (some (SharedPtr.move src).2) ++
        [some (SharedPtr.move src).1], st.weak⟩ ∧
    SharedPtr.Get st.m (SharedPtr.move src).2 = .ok (st.m, none) ∧
    SharedPtr.UseCount st.m (SharedPtr.move src).2 = .ok 0 ∧
    SharedPtr.UseCount st.m (SharedPtr.move src).1 = SharedPtr.UseCount st.m src := by
  refine ⟨rfl, rfl, ?_, rfl, rfl, rfl⟩
  simp [step, hsrc, pure, Except.pure]

/-- C11, at a handle that shares its block with another one. -/
theorem C11_move_construction_witness :
    (SharedPtr.move ⟨some 0, some 0⟩).1 = ⟨some 0, some 0⟩ ∧
    (SharedPtr.move ⟨some 0, some 0⟩).2 = ⟨none, none⟩ ∧
    step ⟨⟨[⟨2, 0, .Pointer, some 0, 0, 0⟩], [⟨none, 0, 0⟩]⟩,
        [some ⟨some 0, some 0⟩, some ⟨some 0, some 0⟩], []⟩ (.move 1) =
      .ok ⟨⟨[⟨2, 0, .Pointer, some 0, 0, 0⟩], [⟨none, 0, 0⟩]⟩,
        [some ⟨some 0, some 0⟩, some ⟨some 0, some 0⟩].set 1
            (some (SharedPtr.move ⟨some 0, some 0⟩).2) ++
          [some (SharedPtr.move ⟨some 0, some 0⟩).1], []⟩ ∧
    SharedPtr.Get ⟨[⟨2, 0, .Pointer, some 0, 0, 0⟩], [⟨none, 0, 0⟩]⟩
        (SharedPtr.move ⟨some 0, some 0⟩).2 =
      .ok (⟨[⟨2, 0, .Pointer, some 0, 0, 0⟩], [⟨none, 0, 0⟩]⟩, none) ∧
    SharedPtr.UseCount ⟨[⟨2, 0, .Pointer, some 0, 0, 0⟩], [⟨none, 0, 0⟩]⟩
        (SharedPtr.move ⟨some 0, some 0⟩).2 = .ok 0 ∧
    SharedPtr.UseCount ⟨[⟨2, 0, .Pointer, some 0, 0, 0⟩], [⟨none, 0, 0⟩]⟩
        (SharedPtr.move ⟨some 0, some 0⟩).1 =
      SharedPtr.UseCount ⟨[⟨2, 0, .Pointer, some 0, 0, 0⟩], [⟨none, 0, 0⟩]⟩
        ⟨some 0, some 0⟩ :=
  C11_move_construction
    ⟨⟨[⟨2, 0, .Pointer, some 0, 0, 0⟩], [⟨none, 0, 0⟩]⟩,
      [some ⟨some 0, some 0⟩, some ⟨some 0, some 0⟩], []⟩ 1 ⟨some 0, some 0⟩ (by decide)

/-! ## Aliasing construction -/

theorem step_aliasOf {b o : Nat} {m : Machine} {S : List (Option SharedPtr)}
    {W : List (Option WeakPtr)} (i : Nat) (p : Ptr) (a : SharedPtr)
    (hinv : Inv b o ⟨m, S, W⟩) (hg : State.getShared ⟨m, S, W⟩ i = some a)
    (hb : a.block_ = some b) :
    ∃ m', step ⟨m, S, W⟩ (.aliasOf i p) = .ok ⟨m', S ++ [some ⟨p, some b⟩], W⟩ ∧
      Inv b o ⟨m', S ++ [some ⟨p, some b⟩], W⟩ := by
  obtain ⟨ht, hS, hW⟩ := hinv
  simp only at ht hS hW
  have hi : S[i]? = some (some a) := getShared_eq_some.mp hg
  obtain ⟨m', hinc, ht'⟩ := ht.incS (liveShared_pos b S i a hi hb)
  refine ⟨m', ?_, ⟨?_, ?_, hW⟩⟩
  · simp [step, hg, SharedPtr.alias, hb, hinc, pure, Except.pure, bind, Except.bind]
  · exact ht'.cast (by simp [liveShared_push]) rfl
  · exact sharedWithin_push hS (Or.inr rfl)

/-- C12. For every machine, every handle `a` on an allocated block with strong count `n`
and every pointer `p`, the aliasing construction `c = SharedPtr(a, p)` returns a handle
with `ptr_ = p` on the block of `a`, the strong count becomes `n + 1` and nothing else
changes, and `c.Get()` is `p`.  In a program on the handles of one block (first owner
by adoption or `MakeShared`, then any statements, then the aliasing construction from a
live handle on the block, then any statements): as long as `c` is live and untouched,
`DeleteObject` has not been invoked on the block and `c.Get()` returns `p`; when `c`
is the only live strong handle left, the strong count is 1. -/
theorem C12_aliasing_keeps_block_alive (viaMake esft : Bool) (m : Machine)
    (ops1 ops2 : List Op) (i : Nat) (p : Ptr)
    (h1 : ∀ op ∈ ops1, op.onOneBlock = true) (h2 : ∀ op ∈ ops2, op.onOneBlock = true) :
    (∀ (m1 : Machine) (a : SharedPtr) (b : Nat) (blk : ControlBlock),
      a.block_ = some b → m1.derefBlock b = .ok blk →
      SharedPtr.alias m1 a p =
        .ok (m1.writeBlock b { blk with shared_counter_ := blk.shared_counter_ + 1 },
          ⟨p, some b⟩) ∧
      SharedPtr.Get (m1.writeBlock b { blk with shared_counter_ := blk.shared_counter_ + 1 })
        ⟨p, some b⟩ =
        .ok (m1.writeBlock b { blk with shared_counter_ := blk.shared_counter_ + 1 }, p) ∧
      SharedPtr.UseCount
        (m1.writeBlock b { blk with shared_counter_ := blk.shared_counter_ + 1 })
        ⟨p, some b⟩ = .ok (blk.shared_counter_ + 1)) ∧
    ∃ st0 st1, firstOwner viaMake esft m = .ok st0 ∧ run st0 ops1 = .ok st1 ∧
      ∀ a, st1.getShared i = some a → a.block_ = some m.blocks.length →
        ∃ st2 st3 blk3, step st1 (.aliasOf i p) = .ok st2 ∧
          st2.shared = st1.shared ++ [some ⟨p, some m.blocks.length⟩] ∧
          run st2 ops2 = .ok st3 ∧
          st3.m.blocks[m.blocks.length]? = some blk3 ∧
          (st3.getShared st1.shared.length = some ⟨p, some m.blocks.length⟩ →
            blk3.deleteObjectCalls = 0 ∧
            SharedPtr.Get st3.m ⟨p, some m.blocks.length⟩ = .ok (st3.m, p) ∧
            (liveShared m.blocks.length st3.shared = 1 → blk3.shared_counter_ = 1)) := by
  constructor
  · intro m1 a b blk hb hd
    have hbb := (derefBlock_eq_ok.mp hd).1
    have hdd := (derefBlock_eq_ok.mp hd).2
    have hd' : (m1.writeBlock b
        { blk with shared_counter_ := blk.shared_counter_ + 1 }).derefBlock b =
        .ok { blk with shared_counter_ := blk.shared_counter_ + 1 } := by
      rw [derefBlock_writeBlock hbb]; simp [hdd]
    refine ⟨?_, ?_, ?_⟩
    · simp [SharedPtr.alias, hb, IncSCounter_ok hd, pure, Except.pure, bind, Except.bind]
    · simp [SharedPtr.Get, GetSCounter_ok hd', pure, Except.pure, bind, Except.bind]
    · simp [SharedPtr.UseCount, GetSCounter_ok hd']
  · obtain ⟨st0, st1, h0, hr1, hinv1⟩ := program_inv viaMake esft m ops1 h1
    refine ⟨st0, st1, h0, hr1, ?_⟩
    intro a hg hb
    obtain ⟨m1, S1, W1⟩ := st1
    obtain ⟨m2, hstep, hinv2⟩ := step_aliasOf i p a hinv1 hg hb
    obtain ⟨st3, hr3, hinv3⟩ := run_inv ops2 _ hinv2 h2
    obtain ⟨blk3, obj3, hb3, _, _, _, hph⟩ := hinv3.1
    refine ⟨_, st3, blk3, hstep, rfl, hr3, hb3, ?_⟩
    intro hc
    have hpos := liveShared_pos m.blocks.length st3.shared S1.length _
      (getShared_eq_some.mp hc) rfl
    rcases hph with h | h
    · have hd3 : st3.m.derefBlock m.blocks.length = .ok blk3 :=
        derefBlock_eq_ok.mpr ⟨hb3, h.2.2.2.2.1⟩
      refine ⟨h.2.2.2.1, ?_, fun h1 => by rw [h.2.1, h1]⟩
      have hne : blk3.shared_counter_ ≠ 0 := by rw [h.2.1]; omega
      simp [SharedPtr.Get, GetSCounter_ok hd3, hne, pure, Except.pure, bind, Except.bind]
    · omega

/-- C12, on the scenario of the specification: `A` adopts, `B` copies `A`, `C` aliases
`A` with the pointer 7, then `A` and `B` are destroyed. -/
theorem C12_aliasing_keeps_block_alive_witness :
    (∀ op ∈ [Op.copy 0], op.onOneBlock = true) ∧
    (∀ op ∈ [Op.destroy 0, .destroy 1], op.onOneBlock = true) ∧
    (do let st ← firstOwner false false ⟨[], []⟩
        let st ← run st [.copy 0, .aliasOf 0 (some 7), .destroy 0, .destroy 1]
        pure (st, SharedPtr.Get st.m ⟨some 7, some 0⟩)) =
      .ok (⟨⟨[⟨1, 0, .Pointer, some 0, 0, 0⟩], [⟨none, 0, 0⟩]⟩,
          [none, none, some ⟨some 7, some 0⟩], []⟩,
        .ok (⟨[⟨1, 0, .Pointer, some 0, 0, 0⟩], [⟨none, 0, 0⟩]⟩, some 7)) ∧
    ∃ st0 st1, firstOwner false false ⟨[], []⟩ = .ok st0 ∧ run st0 [.copy 0] = .ok st1 ∧
      ∀ a, st1.getShared 0 = some a → a.block_ = some (⟨[], []⟩ : Machine).blocks.length →
        ∃ st2 st3 blk3, step st1 (.aliasOf 0 (some 7)) = .ok st2 ∧
          st2.shared = st1.shared ++ [some ⟨some 7, some (⟨[], []⟩ : Machine).blocks.length⟩] ∧
          run st2 [.destroy 0, .destroy 1] = .ok st3 ∧
          st3.m.blocks[(⟨[], []⟩ : Machine).blocks.length]? = some blk3 ∧
          (st3.getShared st1.shared.length =
              some ⟨some 7, some (⟨[], []⟩ : Machine).blocks.length⟩ →
            blk3.deleteObjectCalls = 0 ∧
            SharedPtr.Get st3.m ⟨some 7, some (⟨[], []⟩ : Machine).blocks.length⟩ =
              .ok (st3.m, some 7) ∧
            (liveShared (⟨[], []⟩ : Machine).blocks.length st3.shared = 1 →
              blk3.shared_counter_ = 1)) :=
  ⟨by decide, by decide, by decide,
    (C12_aliasing_keeps_block_alive false false ⟨[], []⟩ [.copy 0] [.destroy 0, .destroy 1]
      0 (some 7) (by decide) (by decide)).2⟩

/-! ## The self-handle accessors of an object that was never owned -/

/-- C16, as stated, fails for `WeakFromThis`: on an object whose two slots are empty
both overloads return, with an empty `WeakPtr`, in the unchanged machine. -/
theorem C16_counterexample :
    EnableSharedFromThis.WeakFromThis ⟨[], []⟩ ⟨⟨none, none⟩, ⟨none, none⟩⟩ =
      .ok (⟨[], []⟩, ⟨none, none⟩) ∧
    EnableSharedFromThis.WeakFromThisConst ⟨[], []⟩ ⟨⟨none, none⟩, ⟨none, none⟩⟩ =
      .ok (⟨[], []⟩, ⟨none, none⟩) := by
  decide

/-- C16 (amended). For a self-observing object that no `SharedPtr` has ever owned (both
weak slots empty), in every machine: `SharedFromThis` (mutable and const) throws
`BadWeakPtr` and changes nothing; `WeakFromThis` (mutable and const, both `noexcept`)
returns an empty `WeakPtr` (`UseCount()` 0, `Expired()` true) and changes nothing. -/
theorem C16_accessors_on_unowned_object (m : Machine) :
    EnableSharedFromThis.SharedFromThis m ⟨⟨none, none⟩, ⟨none, none⟩⟩ =
      .error (.BadWeakPtr m) ∧
    EnableSharedFromThis.SharedFromThisConst m ⟨⟨none, none⟩, ⟨none, none⟩⟩ =
      .error (.BadWeakPtr m) ∧
    EnableSharedFromThis.WeakFromThis m ⟨⟨none, none⟩, ⟨none, none⟩⟩ =
      .ok (m, ⟨none, none⟩) ∧
    EnableSharedFromThis.WeakFromThisConst m ⟨⟨none, none⟩, ⟨none, none⟩⟩ =
      .ok (m, ⟨none, none⟩) ∧
    WeakPtr.UseCount m ⟨none, none⟩ = .ok 0 ∧
    WeakPtr.Expired m ⟨none, none⟩ = .ok true := by
  refine ⟨?_, ?_, rfl, rfl, rfl, rfl⟩
  · simp [EnableSharedFromThis.SharedFromThis, SharedPtr.ofWeak, WeakPtr.UseCount, bind,
      Except.bind, pure, Except.pure]
  · simp [EnableSharedFromThis.SharedFromThisConst, SharedPtr.ofWeak, WeakPtr.UseCount,
      bind, Except.bind, pure, Except.pure]

/-! ## `CompressedPair` -/

/-- Which pairs of types get accessors: none when the two types are the same and not
compressed, both accessors for every other pair. -/
theorem CompressedPair_select_accessors :
    (∀ T : CppType, (T.is_empty && !T.is_final) = false →
      (CompressedPair.select T T).publicAccessors = none) ∧
    (∀ T1 T2 : CppType, T1 ≠ T2 ∨ (T1.is_empty && !T1.is_final) = true →
      (CompressedPair.select T1 T2).publicAccessors.isSome = true) := by
  refine ⟨?_, ?_⟩
  · intro T hT
    simp [CompressedPair.select, hT, CompressedPair.decl, PairDecl.publicAccessors]
  · intro T1 T2 h
    rcases h with h | h
    · simp only [CompressedPair.select, h, decide_False]
      cases (T1.is_empty && !T1.is_final) <;> cases (T2.is_empty && !T2.is_final) <;> rfl
    · by_cases he : T1 = T2
      · subst he
        simp [CompressedPair.select, h, CompressedPair.decl, PairDecl.publicAccessors]
      · simp only [CompressedPair.select, he, decide_False]
        cases (T1.is_empty && !T1.is_final) <;> cases (T2.is_empty && !T2.is_final) <;> rfl

/-- C18, the code at the failing input.  For two types that are the same and not
compressed, such as `CompressedPair<int, int>`, the specialization selected is
`<T1, T2, 0, 0, 1>`, which declares nothing and derives privately from
`<T1, T2, 0, 0, 0>`: a client can call neither `GetFirst()` nor `GetSecond()`.  The
five other combinations that can occur declare both accessors in their `public:`
section, as `CompressedPair<int, char>` and a pointer with an empty deleter show. -/
theorem C18_same_uncompressed_pair_exposes_nothing :
    CompressedPair.select ⟨0, false, false⟩ ⟨0, false, false⟩ =
      ⟨none, some (.isPrivate, (false, false, false))⟩ ∧
    (CompressedPair.select ⟨0, false, false⟩ ⟨0, false, false⟩).publicAccessors = none ∧
    (CompressedPair.decl false false true).publicAccessors = none ∧
    (CompressedPair.select ⟨0, false, false⟩ ⟨1, false, false⟩).publicAccessors =
      some (.member, .member) ∧
    (CompressedPair.select ⟨2, false, false⟩ ⟨3, true, false⟩).publicAccessors =
      some (.member, .base) ∧
    (CompressedPair.decl false false false).publicAccessors = some (.member, .member) ∧
    (CompressedPair.decl false true false).publicAccessors = some (.member, .base) ∧
    (CompressedPair.decl true false false).publicAccessors = some (.base, .member) ∧
    (CompressedPair.decl true true false).publicAccessors = some (.base, .base) ∧
    (CompressedPair.decl true true true).publicAccessors = some (.member, .base) := by
  decide

/-! ## `IntrusivePtr` -/

/-- C20, the code at the failing input.  `p` is the only handle of a new object (the
state after `auto p = MakeIntrusive<T>()`, count 1).  `p.Reset(p.Get())` first calls
`DecRef`, which brings the count to 0 and invokes `Deleter::Destroy` on the object
although `p` is being pointed at it, and then calls `IncRef` on the destroyed object,
which is undefined.  The assignment `p = p`, which tests `ptr_ == other.ptr_` first,
leaves everything as it is. -/
theorem C20_reset_to_own_pointer_destroys :
    MakeIntrusive [] = .ok ([⟨1, 0⟩], ⟨some 0⟩) ∧
    IntrusivePtr.Get ⟨some 0⟩ = some 0 ∧
    DecRef [⟨1, 0⟩] 0 = .ok [⟨0, 1⟩] ∧
    IntrusivePtr.ResetPtr [⟨1, 0⟩] ⟨some 0⟩ (some 0) = .error .undefined ∧
    IntrusivePtr.assign [⟨1, 0⟩] ⟨some 0⟩ ⟨some 0⟩ = .ok ([⟨1, 0⟩], ⟨some 0⟩) := by
  decide

/-! ## What the handle operations do to the machine, for any relation the counters respect -/

theorem bind_eq_ok {ε α β : Type} {x : Except ε α} {f : α → Except ε β} {y : β} :
    (x >>= f) = .ok y ↔ ∃ a, x = .ok a ∧ f a = .ok y := by
  cases x with
  | error e => simp [bind, Except.bind]
  | ok a => simp [bind, Except.bind]

theorem release_weak_rel {R : Machine → Machine → Prop} (hR : RespectsWeak R)
    {m m' : Machine} {blk : Ptr}
    (h : (match blk with
      | none => (pure m : Except Fault Machine)
      | some b => DecWCounter m b) = .ok m') : R m m' := by
  cases blk with
  | none => cases h; exact hR.refl m
  | some b => exact hR.decW m b m' h

theorem acquire_weak_rel {R : Machine → Machine → Prop} (hR : RespectsWeak R)
    {m m' : Machine} {blk : Ptr} {x y : WeakPtr}
    (h : (match blk with
      | none => (pure (m, x) : Except Fault (Machine × WeakPtr))
      | some b => do
        let m ← IncWCounter m b
        pure (m, x)) = .ok (m', y)) : R m m' ∧ y = x := by
  cases blk with
  | none => cases h; exact ⟨hR.refl m, rfl⟩
  | some b =>
    simp only [bind_eq_ok] at h
    obtain ⟨a, ha, hf⟩ := h
    cases hf
    exact ⟨hR.incW m b _ ha, rfl⟩

theorem WeakPtr_copy_rel {R : Machine → Machine → Prop} (hR : RespectsWeak R)
    {m m' : Machine} {w x : WeakPtr} (h : WeakPtr.copy m w = .ok (m', x)) :
    R m m' ∧ x = ⟨w.ptr_, w.block_⟩ :=
  acquire_weak_rel hR h

theorem WeakPtr_ofShared_rel {R : Machine → Machine → Prop} (hR : RespectsWeak R)
    {m m' : Machine} {s : SharedPtr} {x : WeakPtr} (h : WeakPtr.ofShared m s = .ok (m', x)) :
    R m m' ∧ x = ⟨s.ptr_, s.block_⟩ :=
  acquire_weak_rel hR h

theorem WeakPtr_dtor_rel {R : Machine → Machine → Prop} (hR : RespectsWeak R)
    {m m' : Machine} {w : WeakPtr} (h : WeakPtr.dtor m w = .ok m') : R m m' :=
  release_weak_rel hR h

theorem WeakPtr_Reset_rel {R : Machine → Machine → Prop} (hR : RespectsWeak R)
    {m m' : Machine} {w x : WeakPtr} (h : WeakPtr.Reset m w = .ok (m', x)) :
    R m m' ∧ x.block_ = none := by
  unfold WeakPtr.Reset at h
  cases hb : w.block_ with
  | none =>
    simp only [hb] at h
    cases h
    exact ⟨hR.refl m, hb⟩
  | some b =>
    simp only [hb, bind_eq_ok] at h
    obtain ⟨a, ha, hf⟩ := h
    cases hf
    exact ⟨hR.decW m b _ ha, rfl⟩

theorem WeakPtr_assign_rel {R : Machine → Machine → Prop} (hR : RespectsWeak R)
    {m m' : Machine} {w v x : WeakPtr} (h : WeakPtr.assign m w v = .ok (m', x)) :
    R m m' ∧ x = ⟨v.ptr_, v.block_⟩ := by
  unfold WeakPtr.assign at h
  simp only [bind_eq_ok] at h
  obtain ⟨m1, h1, h2⟩ := h
  obtain ⟨h3, h4⟩ := acquire_weak_rel hR h2
  exact ⟨hR.trans _ _ _ (release_weak_rel hR h1) h3, h4⟩

theorem WeakPtr_assignShared_rel {R : Machine → Machine → Prop} (hR : RespectsWeak R)
    {m m' : Machine} {w x : WeakPtr} {v : SharedPtr}
    (h : WeakPtr.assignShared m w v = .ok (m', x)) :
    R m m' ∧ x = ⟨v.ptr_, v.block_⟩ := by
  unfold WeakPtr.assignShared at h
  simp only [bind_eq_ok] at h
  obtain ⟨m1, h1, h2⟩ := h
  obtain ⟨h3, h4⟩ := acquire_weak_rel hR h2
  exact ⟨hR.trans _ _ _ (release_weak_rel hR h1) h3, h4⟩

theorem WeakPtr_moveAssign_rel {R : Machine → Machine → Prop} (hR : RespectsWeak R)
    {m m' : Machine} {w v x y : WeakPtr}
    (h : WeakPtr.moveAssign m w v = .ok (m', x, y)) :
    R m m' ∧ x = ⟨v.ptr_, v.block_⟩ ∧ y = ⟨none, none⟩ := by
  unfold WeakPtr.moveAssign at h
  simp only [bind_eq_ok] at h
  obtain ⟨m1, h1, h2⟩ := h
  cases h2
  exact ⟨release_weak_rel hR h1, rfl, rfl⟩

theorem release_strong_rel {R : Machine → Machine → Prop} (hR : RespectsAll R)
    {m m' : Machine} {blk : Ptr}
    (h : (match blk with
      | none => (pure m : Except Fault Machine)
      | some b => DecSCounter m b) = .ok m') : R m m' := by
  cases blk with
  | none => cases h; exact hR.refl m
  | some b => exact hR.decS m b m' h

theorem acquire_strong_rel {R : Machine → Machine → Prop} (hR : RespectsAll R)
    {m m' : Machine} {blk : Ptr} {x y : SharedPtr}
    (h : (match blk with
      | none => (pure (m, x) : Except Fault (Machine × SharedPtr))
      | some b => do
        let m ← IncSCounter m b
        pure (m, x)) = .ok (m', y)) : R m m' ∧ y = x := by
  cases blk with
  | none => cases h; exact ⟨hR.refl m, rfl⟩
  | some b =>
    simp only [bind_eq_ok] at h
    obtain ⟨a, ha, hf⟩ := h
    cases hf
    exact ⟨hR.incS m b _ ha, rfl⟩

theorem SharedPtr_copy_rel {R : Machine → Machine → Prop} (hR : RespectsAll R)
    {m m' : Machine} {s x : SharedPtr} (h : SharedPtr.copy m s = .ok (m', x)) :
    R m m' ∧ x = ⟨s.ptr_, s.block_⟩ :=
  acquire_strong_rel hR h

theorem SharedPtr_alias_rel {R : Machine → Machine → Prop} (hR : RespectsAll R)
    {m m' : Machine} {s x : SharedPtr} {p : Ptr} (h : SharedPtr.alias m s p = .ok (m', x)) :
    R m m' ∧ x = ⟨p, s.block_⟩ := by
  unfold SharedPtr.alias at h
  cases hb : s.block_ with
  | none => simp [hb] at h
  | some b =>
    simp only [hb, bind_eq_ok] at h
    obtain ⟨a, ha, hf⟩ := h
    cases hf
    exact ⟨hR.incS m b _ ha, rfl⟩

theorem SharedPtr_dtor_rel {R : Machine → Machine → Prop} (hR : RespectsAll R)
    {m m' : Machine} {s : SharedPtr} (h : SharedPtr.dtor m s = .ok m') : R m m' :=
  release_strong_rel hR h

theorem SharedPtr_Reset_rel {R : Machine → Machine → Prop} (hR : RespectsAll R)
    {m m' : Machine} {s x : SharedPtr} (h : SharedPtr.Reset m s = .ok (m', x)) :
    R m m' ∧ x.block_ = none := by
  unfold SharedPtr.Reset at h
  cases hb : s.block_ with
  | none =>
    simp only [hb] at h
    cases h
    exact ⟨hR.refl m, hb⟩
  | some b =>
    simp only [hb, bind_eq_ok] at h
    obtain ⟨a, ha, hf⟩ := h
    cases hf
    exact ⟨hR.decS m b _ ha, rfl⟩

theorem SharedPtr_assign_rel {R : Machine → Machine → Prop} (hR : RespectsAll R)
    {m m' : Machine} {s v x : SharedPtr} (h : SharedPtr.assign m s v = .ok (m', x)) :
    R m m' ∧ x = ⟨v.ptr_, v.block_⟩ := by
  unfold SharedPtr.assign at h
  simp only [bind_eq_ok] at h
  obtain ⟨m1, h1, h2⟩ := h
  obtain ⟨h3, h4⟩ := acquire_strong_rel hR h2
  exact ⟨hR.trans _ _ _ (release_strong_rel hR h1) h3, h4⟩

theorem SharedPtr_moveAssign_rel {R : Machine → Machine → Prop} (hR : RespectsAll R)
    {m m' : Machine} {s v x y : SharedPtr}
    (h : SharedPtr.moveAssign m s v = .ok (m', x, y)) :
    R m m' ∧ x = ⟨v.ptr_, v.block_⟩ ∧ y = ⟨none, none⟩ := by
  unfold SharedPtr.moveAssign at h
  simp only [bind_eq_ok] at h
  obtain ⟨m1, h1, h2⟩ := h
  cases h2
  exact ⟨release_strong_rel hR h1, rfl, rfl⟩

theorem derefBlock_error {m : Machine} {b : Nat} {e : Fault}
    (h : m.derefBlock b = .error e) : e = .undefined := by
  unfold Machine.derefBlock at h
  split at h
  · split at h <;> cases h
    rfl
  · cases h; rfl

theorem WeakPtr_UseCount_error {m : Machine} {w : WeakPtr} {e : Fault}
    (h : w.UseCount m = .error e) : e = .undefined := by
  unfold WeakPtr.UseCount at h
  cases hb : w.block_ with
  | none => simp [hb, pure, Except.pure] at h
  | some b =>
    simp only [hb, GetSCounter] at h
    cases hd : m.derefBlock b with
    | error e' =>
      simp only [hd, bind, Except.bind, Except.error.injEq] at h
      subst h
      exact derefBlock_error hd
    | ok blk => simp [hd, bind, Except.bind, pure, Except.pure] at h

theorem IncSCounter_error {m : Machine} {b : Nat} {e : Fault}
    (h : IncSCounter m b = .error e) : e = .undefined := by
  unfold IncSCounter at h
  cases hd : m.derefBlock b with
  | error e' =>
    simp only [hd, bind, Except.bind, Except.error.injEq] at h
    subst h
    exact derefBlock_error hd
  | ok blk => simp [hd, bind, Except.bind, pure, Except.pure] at h

/-- Promotion: what it returns when it returns, and where it throws when it throws. -/
theorem SharedPtr_ofWeak_rel {R : Machine → Machine → Prop} (hR : RespectsAll R)
    {m : Machine} {w : WeakPtr} :
    (∀ m' x, SharedPtr.ofWeak m w = .ok (m', x) →
      R m m' ∧ x = ⟨w.ptr_, w.block_⟩ ∧ ∃ n, w.UseCount m = .ok n ∧ n ≠ 0) ∧
    (∀ m1, SharedPtr.ofWeak m w = .error (.BadWeakPtr m1) →
      m1 = m ∧ w.UseCount m = .ok 0) := by
  unfold SharedPtr.ofWeak
  cases hu : w.UseCount m with
  | error e =>
    have he := WeakPtr_UseCount_error hu
    subst he
    simp [bind, Except.bind]
  | ok n =>
    by_cases h0 : n = 0
    · subst h0
      simp [bind, Except.bind, eq_comm]
    · simp only [bind, Except.bind, h0, if_false]
      constructor
      · intro m' x h
        obtain ⟨h1, h2⟩ := acquire_strong_rel hR h
        exact ⟨h1, h2, n, rfl, h0⟩
      · intro m1 h
        cases hb : w.block_ with
        | none => simp [hb, pure, Except.pure] at h
        | some b =>
          simp only [hb] at h
          cases hi : IncSCounter m b with
          | error e =>
            have := IncSCounter_error hi
            subst this
            simp [hi] at h
          | ok m2 => simp [hi, pure, Except.pure] at h

theorem WeakPtr_Lock_rel {R : Machine → Machine → Prop} (hR : RespectsAll R)
    {m m' : Machine} {w : WeakPtr} {x : SharedPtr} (h : WeakPtr.Lock m w = .ok (m', x)) :
    R m m' ∧ ((w.UseCount m = .ok 0 ∧ x = ⟨none, none⟩) ∨
      ((∃ n, w.UseCount m = .ok n ∧ n ≠ 0) ∧ x = ⟨w.ptr_, w.block_⟩)) := by
  unfold WeakPtr.Lock at h
  simp only [bind_eq_ok] at h
  obtain ⟨n, hn, h2⟩ := h
  by_cases h0 : n = 0
  · subst h0
    simp only [if_true, pure, Except.pure, Except.ok.injEq, Prod.mk.injEq] at h2
    obtain ⟨rfl, rfl⟩ := h2
    exact ⟨hR.refl m, Or.inl ⟨hn, rfl⟩⟩
  · simp only [h0, if_false] at h2
    obtain ⟨h3, h4, h5⟩ := (SharedPtr_ofWeak_rel hR).1 m' x h2
    exact ⟨h3, Or.inr ⟨h5, h4⟩⟩

theorem WeakPtr_Reset_handle {m m' : Machine} {w x : WeakPtr}
    (h : WeakPtr.Reset m w = .ok (m', x)) :
    x = (match w.block_ with
      | none => w
      | some _ => ⟨none, none⟩) := by
  unfold WeakPtr.Reset at h
  cases hb : w.block_ with
  | none => simp only [hb] at h; cases h; rfl
  | some b =>
    simp only [hb, bind_eq_ok] at h
    obtain ⟨a, _, hf⟩ := h
    cases hf
    rfl

theorem SharedPtr_Reset_handle {m m' : Machine} {s x : SharedPtr}
    (h : SharedPtr.Reset m s = .ok (m', x)) :
    x = (match s.block_ with
      | none => s
      | some _ => ⟨none, none⟩) := by
  unfold SharedPtr.Reset at h
  cases hb : s.block_ with
  | none => simp only [hb] at h; cases h; rfl
  | some b =>
    simp only [hb, bind_eq_ok] at h
    obtain ⟨a, _, hf⟩ := h
    cases hf
    rfl

theorem getShared_eq_lookup (st : State) (i : Nat) :
    st.getShared i = lookup st.shared i := by
  unfold State.getShared lookup
  cases st.shared[i]? with
  | none => rfl
  | some x => cases x <;> rfl

theorem getWeak_eq_lookup (st : State) (k : Nat) : st.getWeak k = lookup st.weak k := by
  unfold State.getWeak lookup
  cases st.weak[k]? with
  | none => rfl
  | some x => cases x <;> rfl

/-- The effect of a `WeakPtr` statement other than `Lock` and promotion: the machines
are related by every relation that the weak counter operations respect, the
`SharedPtr` variables are untouched, and the tables are the ones `storeStep` gives. -/
theorem step_weak_effect {R : Machine → Machine → Prop} (hR : RespectsWeak R)
    (live : WeakPtr → Bool) {m : Machine} {S : List (Option SharedPtr)}
    {W : List (Option WeakPtr)} {st' : State} (op : Op)
    (hop : op.isWeakOnly = true) (h : step ⟨m, S, W⟩ op = .ok st') :
    R m st'.m ∧ (st'.shared, st'.weak) = storeStep live S W op := by
  cases op with
  | adopt e => simp [Op.isWeakOnly] at hop
  | make e => simp [Op.isWeakOnly] at hop
  | copy i => simp [Op.isWeakOnly] at hop
  | move i => simp [Op.isWeakOnly] at hop
  | aliasOf i p => simp [Op.isWeakOnly] at hop
  | promote k => simp [Op.isWeakOnly] at hop
  | lock k => simp [Op.isWeakOnly] at hop
  | assign i j => simp [Op.isWeakOnly] at hop
  | moveAssign i j => simp [Op.isWeakOnly] at hop
  | reset i => simp [Op.isWeakOnly] at hop
  | swap i j => simp [Op.isWeakOnly] at hop
  | destroy i => simp [Op.isWeakOnly] at hop
  | weakOf i =>
    simp only [step, storeStep, getShared_eq_lookup] at h ⊢
    cases hg : lookup S i with
    | none => simp only [hg] at h ⊢; cases h; exact ⟨hR.refl m, rfl⟩
    | some a =>
      simp only [hg, bind_eq_ok] at h ⊢
      obtain ⟨⟨m1, x⟩, h1, h2⟩ := h
      cases h2
      obtain ⟨hr, hx⟩ := WeakPtr_ofShared_rel hR h1
      subst hx
      exact ⟨hr, rfl⟩
  | weakCopy k =>
    simp only [step, storeStep, getWeak_eq_lookup] at h ⊢
    cases hg : lookup W k with
    | none => simp only [hg] at h ⊢; cases h; exact ⟨hR.refl m, rfl⟩
    | some a =>
      simp only [hg, bind_eq_ok] at h ⊢
      obtain ⟨⟨m1, x⟩, h1, h2⟩ := h
      cases h2
      obtain ⟨hr, hx⟩ := WeakPtr_copy_rel hR h1
      subst hx
      exact ⟨hr, rfl⟩
  | weakMove k =>
    simp only [step, storeStep, getWeak_eq_lookup] at h ⊢
    cases hg : lookup W k with
    | none => simp only [hg] at h ⊢; cases h; exact ⟨hR.refl m, rfl⟩
    | some a =>
      simp only [hg] at h ⊢
      cases h
      exact ⟨hR.refl m, rfl⟩
  | weakAssign k l =>
    simp only [step, storeStep, getWeak_eq_lookup] at h ⊢
    cases hg : lookup W k with
    | none => simp only [hg] at h ⊢; cases h; exact ⟨hR.refl m, rfl⟩
    | some a =>
      cases hg' : lookup W l with
      | none => simp only [hg, hg'] at h ⊢; cases h; exact ⟨hR.refl m, rfl⟩
      | some c =>
        simp only [hg, hg', bind_eq_ok] at h ⊢
        obtain ⟨⟨m1, x⟩, h1, h2⟩ := h
        cases h2
        obtain ⟨hr, hx⟩ := WeakPtr_assign_rel hR h1
        subst hx
        exact ⟨hr, rfl⟩
  | weakMoveAssign k l =>
    simp only [step, storeStep, getWeak_eq_lookup] at h ⊢
    cases hg : lookup W k with
    | none => simp only [hg] at h ⊢; cases h; exact ⟨hR.refl m, rfl⟩
    | some a =>
      cases hg' : lookup W l with
      | none => simp only [hg, hg'] at h ⊢; cases h; exact ⟨hR.refl m, rfl⟩
      | some c =>
        simp only [hg, hg', bind_eq_ok] at h ⊢
        obtain ⟨⟨m1, x, y⟩, h1, h2⟩ := h
        cases h2
        obtain ⟨hr, hx, hy⟩ := WeakPtr_moveAssign_rel hR h1
        subst hx hy
        exact ⟨hr, rfl⟩
  | weakAssignShared k i =>
    simp only [step, storeStep, getWeak_eq_lookup, getShared_eq_lookup] at h ⊢
    cases hg : lookup W k with
    | none => simp only [hg] at h ⊢; cases h; exact ⟨hR.refl m, rfl⟩
    | some a =>
      cases hg' : lookup S i with
      | none => simp only [hg, hg'] at h ⊢; cases h; exact ⟨hR.refl m, rfl⟩
      | some c =>
        simp only [hg, hg', bind_eq_ok] at h ⊢
        obtain ⟨⟨m1, x⟩, h1, h2⟩ := h
        cases h2
        obtain ⟨hr, hx⟩ := WeakPtr_assignShared_rel hR h1
        subst hx
        exact ⟨hr, rfl⟩
  | weakReset k =>
    simp only [step, storeStep, getWeak_eq_lookup] at h ⊢
    cases hg : lookup W k with
    | none => simp only [hg] at h ⊢; cases h; exact ⟨hR.refl m, rfl⟩
    | some a =>
      simp only [hg, bind_eq_ok] at h ⊢
      obtain ⟨⟨m1, x⟩, h1, h2⟩ := h
      cases h2
      have hx := WeakPtr_Reset_handle h1
      subst hx
      exact ⟨(WeakPtr_Reset_rel hR h1).1, rfl⟩
  | weakSwap k l =>
    simp only [step, storeStep, getWeak_eq_lookup] at h ⊢
    cases hg : lookup W k with
    | none => simp only [hg] at h ⊢; cases h; exact ⟨hR.refl m, rfl⟩
    | some a =>
      cases hg' : lookup W l with
      | none => simp only [hg, hg'] at h ⊢; cases h; exact ⟨hR.refl m, rfl⟩
      | some c =>
        simp only [hg, hg'] at h ⊢
        cases h
        exact ⟨hR.refl m, rfl⟩
  | weakDestroy k =>
    simp only [step, storeStep, getWeak_eq_lookup] at h ⊢
    cases hg : lookup W k with
    | none => simp only [hg] at h ⊢; cases h; exact ⟨hR.refl m, rfl⟩
    | some a =>
      simp only [hg, bind_eq_ok] at h ⊢
      obtain ⟨m1, h1, h2⟩ := h
      cases h2
      exact ⟨WeakPtr_dtor_rel hR h1, rfl⟩

/-! ## `WeakPtr` statements leave the strong side alone -/

theorem IncWCounter_eq_ok {m m' : Machine} {b : Nat} (h : IncWCounter m b = .ok m') :
    ∃ blk, m.derefBlock b = .ok blk ∧
      m' = m.writeBlock b { blk with weak_counter_ := blk.weak_counter_ + 1 } := by
  unfold IncWCounter at h
  simp only [bind_eq_ok] at h
  obtain ⟨blk, hd, h2⟩ := h
  cases h2
  exact ⟨blk, hd, rfl⟩

theorem DecWCounter_eq_ok {m m' : Machine} {b : Nat} (h : DecWCounter m b = .ok m') :
    ∃ blk blk', m.derefBlock b = .ok blk ∧ m' = m.writeBlock b blk' ∧
      blk'.shared_counter_ = blk.shared_counter_ ∧
      blk'.deleteObjectCalls = blk.deleteObjectCalls ∧
      blk'.kind = blk.kind ∧ blk'.ptr_ = blk.ptr_ ∧
      (blk'.deleteThisCalls = 0 ∨ blk.shared_counter_ = 0) := by
  unfold DecWCounter at h
  simp only [bind_eq_ok] at h
  obtain ⟨blk, hd, h2⟩ := h
  have hdd := (derefBlock_eq_ok.mp hd).2
  split at h2
  · rename_i hc
    cases h2
    exact ⟨blk, _, hd, rfl, rfl, rfl, rfl, rfl, Or.inr hc.2⟩
  · cases h2
    exact ⟨blk, _, hd, rfl, rfl, rfl, rfl, rfl, Or.inl hdd⟩

theorem getElem?_set_cases {β : Type} (l : List β) (b c : Nat) (x y : β)
    (hb : l[b]? = some y) :
    (c = b ∧ (l.set b x)[c]? = some x ∧ l[c]? = some y) ∨
    (c ≠ b ∧ (l.set b x)[c]? = l[c]?) := by
  by_cases hcb : c = b
  · subst hcb
    exact Or.inl ⟨rfl, by rw [List.getElem?_set_self (List.getElem?_eq_some_iff.mp hb).1], hb⟩
  · exact Or.inr ⟨hcb, by rw [List.getElem?_set_ne (Ne.symm hcb)]⟩

theorem StrongFrame_writeBlock {m : Machine} {b : Nat} {blk blk' : ControlBlock}
    (hb : m.blocks[b]? = some blk) (hs : blk'.shared_counter_ = blk.shared_counter_)
    (hd : blk'.deleteObjectCalls = blk.deleteObjectCalls) :
    StrongFrame m (m.writeBlock b blk') := by
  refine ⟨rfl, by simp, ?_⟩
  intro c x hx
  rcases getElem?_set_cases m.blocks b c blk' blk hb with ⟨rfl, h1, h2⟩ | ⟨_, h1⟩
  · rw [hx] at h2
    cases h2
    exact ⟨blk', h1, hs, hd⟩
  · exact ⟨x, by simpa [h1] using hx, rfl, rfl⟩

theorem StrongFrame_respectsWeak : RespectsWeak StrongFrame where
  refl := fun m => ⟨rfl, rfl, fun c blk h => ⟨blk, h, rfl, rfl⟩⟩
  trans := by
    intro a b c ⟨h1, h2, h3⟩ ⟨k1, k2, k3⟩
    refine ⟨k1.trans h1, k2.trans h2, ?_⟩
    intro i blk hi
    obtain ⟨blk1, e1, e2, e3⟩ := h3 i blk hi
    obtain ⟨blk2, f1, f2, f3⟩ := k3 i blk1 e1
    exact ⟨blk2, f1, f2.trans e2, f3.trans e3⟩
  incW := by
    intro m b m' h
    obtain ⟨blk, hd, rfl⟩ := IncWCounter_eq_ok h
    exact StrongFrame_writeBlock (derefBlock_eq_ok.mp hd).1 rfl rfl
  decW := by
    intro m b m' h
    obtain ⟨blk, blk', hd, rfl, hs, hdo, _⟩ := DecWCounter_eq_ok h
    exact StrongFrame_writeBlock (derefBlock_eq_ok.mp hd).1 hs hdo

theorem storeStep_weak_shared (live : WeakPtr → Bool) (S : List (Option SharedPtr))
    (W : List (Option WeakPtr)) (op : Op) (hop : op.isWeakOnly = true) :
    (storeStep live S W op).1 = S := by
  cases op <;> simp [Op.isWeakOnly] at hop <;> simp only [storeStep] <;>
    (repeat' split) <;> rfl

/-- C17. Every `WeakPtr` statement other than `Lock` and promotion (construction from
a `WeakPtr` by copy or move, construction and assignment from a `SharedPtr`, copy and
move assignment, `Reset`, `Swap`, destruction), when it returns, leaves every payload
as it was and every block with the same strong count and the same number of
`DeleteObject` calls, and leaves the `SharedPtr` variables alone; default construction
gives the empty handle and touches nothing.  For every machine and every `WeakPtr`,
`UseCount()` is 0 when `block_` is null and the strong count of the block otherwise, and
`Expired()` holds exactly when `UseCount()` is 0.  After any program on the handles of
the block of a first owner, each of these statements (an assignment taking its value
from a different variable) does return. -/
theorem C17_weak_statements_keep_strong_side :
    (∀ (st st' : State) (op : Op), op.isWeakOnly = true → step st op = .ok st' →
      StrongFrame st.m st'.m ∧ st'.shared = st.shared) ∧
    WeakPtr.empty = ⟨none, none⟩ ∧
    (∀ (m : Machine) (w : WeakPtr),
      (w.block_ = none → w.UseCount m = .ok 0) ∧
      (∀ b blk, w.block_ = some b → m.derefBlock b = .ok blk →
        w.UseCount m = .ok blk.shared_counter_) ∧
      (∀ n, w.UseCount m = .ok n →
        w.Expired m = .ok (n == 0) ∧ (w.Expired m = .ok true ↔ n = 0))) ∧
    (∀ (viaMake esft : Bool) (m : Machine) (ops : List Op) (op : Op),
      (∀ x ∈ ops, x.onOneBlock = true) → op.isWeakOnly = true → op.onOneBlock = true →
      ∃ st0 st st', firstOwner viaMake esft m = .ok st0 ∧ run st0 ops = .ok st ∧
        step st op = .ok st' ∧ StrongFrame st.m st'.m ∧ st'.shared = st.shared) := by
  have key : ∀ (st st' : State) (op : Op), op.isWeakOnly = true → step st op = .ok st' →
      StrongFrame st.m st'.m ∧ st'.shared = st.shared := by
    intro st st' op hop h
    obtain ⟨m, S, W⟩ := st
    obtain ⟨h1, h2⟩ := step_weak_effect StrongFrame_respectsWeak (fun _ => true) op hop h
    refine ⟨h1, ?_⟩
    have h3 := congrArg Prod.fst h2
    simp only at h3
    rw [h3, storeStep_weak_shared _ _ _ _ hop]
  refine ⟨key, rfl, ?_, ?_⟩
  rotate_left
  · intro viaMake esft m ops op hops hw ho
    obtain ⟨st0, st, h0, h1, hinv⟩ := program_inv viaMake esft m ops hops
    obtain ⟨st', hs, _, _⟩ := step_inv op hinv ho
    exact ⟨st0, st, st', h0, h1, hs, key st st' op hw hs⟩
  · intro m w
    refine ⟨?_, ?_, ?_⟩
    · intro hb
      simp [WeakPtr.UseCount, hb, pure, Except.pure]
    · intro b blk hb hd
      simp [WeakPtr.UseCount, hb, GetSCounter_ok hd]
    · intro n hn
      have he : w.Expired m = .ok (n == 0) := by
        rcases WeakPtr_UseCount_cases hn with ⟨hb, h0⟩ | ⟨b, blk, hb, hd, hs⟩
        · subst h0
          simp [WeakPtr.Expired, hb, pure, Except.pure]
        · simp [WeakPtr.Expired, hb, GetSCounter_ok hd, hs, bind, Except.bind, pure,
            Except.pure]
      refine ⟨he, ?_⟩
      rw [he]
      simp

/-- C17, on the assignment of a weak handle from another one, both on a block with one
strong owner. -/
theorem C17_weak_statements_keep_strong_side_witness :
    StrongFrame ⟨[⟨1, 2, .Pointer, some 0, 0, 0⟩], [⟨none, 0, 0⟩]⟩
      ⟨[⟨1, 2, .Pointer, some 0, 0, 0⟩], [⟨none, 0, 0⟩]⟩ ∧
    ([some ⟨some 0, some 0⟩] : List (Option SharedPtr)) = [some ⟨some 0, some 0⟩] ∧
    (WeakPtr.Expired ⟨[⟨1, 2, .Pointer, some 0, 0, 0⟩], [⟨none, 0, 0⟩]⟩ ⟨some 0, some 0⟩ =
        .ok ((1 : Nat) == 0) ∧
      (WeakPtr.Expired ⟨[⟨1, 2, .Pointer, some 0, 0, 0⟩], [⟨none, 0, 0⟩]⟩ ⟨some 0, some 0⟩ =
        .ok true ↔ (1 : Nat) = 0)) ∧
    (∃ st0 st st', firstOwner false false ⟨[], []⟩ = .ok st0 ∧
      run st0 [.weakOf 0] = .ok st ∧ step st (.weakCopy 0) = .ok st' ∧
      StrongFrame st.m st'.m ∧ st'.shared = st.shared) :=
  ⟨(C17_weak_statements_keep_strong_side.1
      ⟨⟨[⟨1, 2, .Pointer, some 0, 0, 0⟩], [⟨none, 0, 0⟩]⟩, [some ⟨some 0, some 0⟩],
        [some ⟨some 0, some 0⟩, some ⟨some 0, some 0⟩]⟩
      ⟨⟨[⟨1, 2, .Pointer, some 0, 0, 0⟩], [⟨none, 0, 0⟩]⟩, [some ⟨some 0, some 0⟩],
        [some ⟨some 0, some 0⟩, some ⟨some 0, some 0⟩]⟩
      (.weakAssign 0 1) (by decide) (by decide)).1,
    (C17_weak_statements_keep_strong_side.1
      ⟨⟨[⟨1, 2, .Pointer, some 0, 0, 0⟩], [⟨none, 0, 0⟩]⟩, [some ⟨some 0, some 0⟩],
        [some ⟨some 0, some 0⟩, some ⟨some 0, some 0⟩]⟩
      ⟨⟨[⟨1, 2, .Pointer, some 0, 0, 0⟩], [⟨none, 0, 0⟩]⟩, [some ⟨some 0, some 0⟩],
        [some ⟨some 0, some 0⟩, some ⟨some 0, some 0⟩]⟩
      (.weakAssign 0 1) (by decide) (by decide)).2,
    (C17_weak_statements_keep_strong_side.2.2.1
      ⟨[⟨1, 2, .Pointer, some 0, 0, 0⟩], [⟨none, 0, 0⟩]⟩ ⟨some 0, some 0⟩).2.2 1
      (by decide),
    C17_weak_statements_keep_strong_side.2.2.2 false false ⟨[], []⟩ [.weakOf 0]
      (.weakCopy 0) (by decide) (by decide) (by decide)⟩

/-! ## The effect of a statement that allocates no block -/

/-- The effect of a statement that allocates no block: the machines are related by
every relation that the four counter operations respect, and the tables are the ones
`storeStep` gives. -/
theorem step_effect {R : Machine → Machine → Prop} (hR : RespectsAll R)
    {m : Machine} {S : List (Option SharedPtr)}
    {W : List (Option WeakPtr)} {st' : State} (op : Op)
    (hop : op.createsBlock = false) (h : step ⟨m, S, W⟩ op = .ok st') :
    R m st'.m ∧ (st'.shared, st'.weak) = storeStep (usable m) S W op := by
  cases op with
  | adopt e => simp [Op.createsBlock] at hop
  | make e => simp [Op.createsBlock] at hop
  | weakOf i => exact step_weak_effect hR.toRespectsWeak _ _ rfl h
  | weakCopy k => exact step_weak_effect hR.toRespectsWeak _ _ rfl h
  | weakMove k => exact step_weak_effect hR.toRespectsWeak _ _ rfl h
  | weakAssign k l => exact step_weak_effect hR.toRespectsWeak _ _ rfl h
  | weakMoveAssign k l => exact step_weak_effect hR.toRespectsWeak _ _ rfl h
  | weakAssignShared k i => exact step_weak_effect hR.toRespectsWeak _ _ rfl h
  | weakReset k => exact step_weak_effect hR.toRespectsWeak _ _ rfl h
  | weakSwap k l => exact step_weak_effect hR.toRespectsWeak _ _ rfl h
  | weakDestroy k => exact step_weak_effect hR.toRespectsWeak _ _ rfl h
  | copy i =>
    simp only [step, storeStep, getShared_eq_lookup] at h ⊢
    cases hg : lookup S i with
    | none => simp only [hg] at h ⊢; cases h; exact ⟨hR.refl m, rfl⟩
    | some a =>
      simp only [hg, bind_eq_ok] at h ⊢
      obtain ⟨⟨m1, x⟩, h1, h2⟩ := h
      cases h2
      obtain ⟨hr, hx⟩ := SharedPtr_copy_rel hR h1
      subst hx
      exact ⟨hr, rfl⟩
  | move i =>
    simp only [step, storeStep, getShared_eq_lookup] at h ⊢
    cases hg : lookup S i with
    | none => simp only [hg] at h ⊢; cases h; exact ⟨hR.refl m, rfl⟩
    | some a =>
      simp only [hg] at h ⊢
      cases h
      exact ⟨hR.refl m, rfl⟩
  | aliasOf i p =>
    simp only [step, storeStep, getShared_eq_lookup] at h ⊢
    cases hg : lookup S i with
    | none => simp only [hg] at h ⊢; cases h; exact ⟨hR.refl m, rfl⟩
    | some a =>
      simp only [hg, bind_eq_ok] at h ⊢
      obtain ⟨⟨m1, x⟩, h1, h2⟩ := h
      cases h2
      obtain ⟨hr, hx⟩ := SharedPtr_alias_rel hR h1
      subst hx
      exact ⟨hr, rfl⟩
  | promote k =>
    simp only [step, storeStep, getWeak_eq_lookup] at h ⊢
    cases hg : lookup W k with
    | none => simp only [hg] at h ⊢; cases h; exact ⟨hR.refl m, rfl⟩
    | some w =>
      simp only [hg] at h ⊢
      cases hp : SharedPtr.ofWeak m w with
      | ok r =>
        obtain ⟨m1, x⟩ := r
        simp only [hp] at h
        cases h
        obtain ⟨hr, hx, n, hn, hn0⟩ := (SharedPtr_ofWeak_rel hR).1 m1 x hp
        subst hx
        have hu : usable m w = true := by simp [usable, hn, hn0]
        simp only [hu, if_true]
        exact ⟨hr, trivial⟩
      | error e =>
        cases e with
        | undefined => simp [hp] at h
        | BadWeakPtr m1 =>
          simp only [hp] at h
          cases h
          obtain ⟨rfl, hn⟩ := (SharedPtr_ofWeak_rel hR).2 m1 hp
          have hu : usable m1 w = false := by simp [usable, hn]
          simp only [hu]
          exact ⟨hR.refl _, rfl⟩
  | lock k =>
    simp only [step, storeStep, getWeak_eq_lookup] at h ⊢
    cases hg : lookup W k with
    | none => simp only [hg] at h ⊢; cases h; exact ⟨hR.refl m, rfl⟩
    | some w =>
      simp only [hg, bind_eq_ok] at h ⊢
      obtain ⟨⟨m1, x⟩, h1, h2⟩ := h
      cases h2
      obtain ⟨hr, ⟨hn, hx⟩ | ⟨⟨n, hn, hn0⟩, hx⟩⟩ := WeakPtr_Lock_rel hR h1
      · subst hx
        have hu : usable m w = false := by simp [usable, hn]
        simp only [hu]
        exact ⟨hr, rfl⟩
      · subst hx
        have hu : usable m w = true := by simp [usable, hn, hn0]
        simp only [hu, if_true]
        exact ⟨hr, trivial⟩
  | assign i j =>
    simp only [step, storeStep, getShared_eq_lookup] at h ⊢
    cases hg : lookup S i with
    | none => simp only [hg] at h ⊢; cases h; exact ⟨hR.refl m, rfl⟩
    | some a =>
      cases hg' : lookup S j with
      | none => simp only [hg, hg'] at h ⊢; cases h; exact ⟨hR.refl m, rfl⟩
      | some c =>
        simp only [hg, hg', bind_eq_ok] at h ⊢
        obtain ⟨⟨m1, x⟩, h1, h2⟩ := h
        cases h2
        obtain ⟨hr, hx⟩ := SharedPtr_assign_rel hR h1
        subst hx
        exact ⟨hr, rfl⟩
  | moveAssign i j =>
    simp only [step, storeStep, getShared_eq_lookup] at h ⊢
    cases hg : lookup S i with
    | none => simp only [hg] at h ⊢; cases h; exact ⟨hR.refl m, rfl⟩
    | some a =>
      cases hg' : lookup S j with
      | none => simp only [hg, hg'] at h ⊢; cases h; exact ⟨hR.refl m, rfl⟩
      | some c =>
        simp only [hg, hg', bind_eq_ok] at h ⊢
        obtain ⟨⟨m1, x, y⟩, h1, h2⟩ := h
        cases h2
        obtain ⟨hr, hx, hy⟩ := SharedPtr_moveAssign_rel hR h1
        subst hx hy
        exact ⟨hr, rfl⟩
  | reset i =>
    simp only [step, storeStep, getShared_eq_lookup] at h ⊢
    cases hg : lookup S i with
    | none => simp only [hg] at h ⊢; cases h; exact ⟨hR.refl m, rfl⟩
    | some a =>
      simp only [hg, bind_eq_ok] at h ⊢
      obtain ⟨⟨m1, x⟩, h1, h2⟩ := h
      cases h2
      have hx := SharedPtr_Reset_handle h1
      subst hx
      exact ⟨(SharedPtr_Reset_rel hR h1).1, rfl⟩
  | swap i j =>
    simp only [step, storeStep, getShared_eq_lookup] at h ⊢
    cases hg : lookup S i with
    | none => simp only [hg] at h ⊢; cases h; exact ⟨hR.refl m, rfl⟩
    | some a =>
      cases hg' : lookup S j with
      | none => simp only [hg, hg'] at h ⊢; cases h; exact ⟨hR.refl m, rfl⟩
      | some c =>
        simp only [hg, hg'] at h ⊢
        cases h
        exact ⟨hR.refl m, rfl⟩
  | destroy i =>
    simp only [step, storeStep, getShared_eq_lookup] at h ⊢
    cases hg : lookup S i with
    | none => simp only [hg] at h ⊢; cases h; exact ⟨hR.refl m, rfl⟩
    | some a =>
      simp only [hg, bind_eq_ok] at h ⊢
      obtain ⟨m1, h1, h2⟩ := h
      cases h2
      exact ⟨SharedPtr_dtor_rel hR h1, rfl⟩

theorem run_rel {R : Machine → Machine → Prop} (hR : RespectsAll R) (ops : List Op) :
    ∀ (st st' : State), (∀ op ∈ ops, op.createsBlock = false) → run st ops = .ok st' →
      R st.m st'.m := by
  induction ops with
  | nil =>
    intro st st' _ h
    cases h
    exact hR.refl _
  | cons op ops ih =>
    intro st st' hops h
    simp only [run, bind_eq_ok] at h
    obtain ⟨st1, h1, h2⟩ := h
    obtain ⟨m, S, W⟩ := st
    exact hR.trans _ _ _ (step_effect hR op (hops op (List.mem_cons_self _ _)) h1).1
      (ih st1 st' (fun x hx => hops x (List.mem_cons_of_mem _ hx)) h2)

/-! ## Payloads change only by being destroyed -/

theorem IncSCounter_eq_ok {m m' : Machine} {b : Nat} (h : IncSCounter m b = .ok m') :
    ∃ blk, m.derefBlock b = .ok blk ∧
      m' = m.writeBlock b { blk with shared_counter_ := blk.shared_counter_ + 1 } := by
  unfold IncSCounter at h
  simp only [bind_eq_ok] at h
  obtain ⟨blk, hd, h2⟩ := h
  cases h2
  exact ⟨blk, hd, rfl⟩

theorem ObjMono_refl (m : Machine) : ObjMono m m := ⟨rfl, fun _ _ h _ _ => h⟩

theorem ObjMono_trans {a b c : Machine} (h : ObjMono a b) (k : ObjMono b c) : ObjMono a c :=
  ⟨k.1.trans h.1, fun o obj ho hd hf => h.2 o obj (k.2 o obj ho hd hf) hd hf⟩

theorem ObjMono_of_objects {m m' : Machine} (h : m'.objects = m.objects) : ObjMono m m' :=
  ⟨by rw [h], fun o obj ho _ _ => by rw [← h]; exact ho⟩

theorem ObjMono_writeObject (m : Machine) (o : Nat) (obj : Object)
    (h : ¬ (obj.dtorCalls = 0 ∧ obj.freeCalls = 0)) : ObjMono m (m.writeObject o obj) := by
  refine ⟨by simp [Machine.writeObject], ?_⟩
  intro o' obj' ho hd hf
  simp only [Machine.writeObject] at ho
  by_cases hoo : o = o'
  · subst hoo
    by_cases hl : o < m.objects.length
    · rw [List.getElem?_set_self hl] at ho
      cases ho
      exact absurd ⟨hd, hf⟩ h
    · rw [List.getElem?_eq_none (by simpa using hl)] at ho
      cases ho
  · rwa [List.getElem?_set_ne hoo] at ho

theorem ObjMono_incS {m m' : Machine} {b : Nat} (h : IncSCounter m b = .ok m') :
    ObjMono m m' := by
  obtain ⟨blk, _, rfl⟩ := IncSCounter_eq_ok h
  exact ObjMono_of_objects rfl

theorem ObjMono_incW {m m' : Machine} {b : Nat} (h : IncWCounter m b = .ok m') :
    ObjMono m m' := by
  obtain ⟨blk, _, rfl⟩ := IncWCounter_eq_ok h
  exact ObjMono_of_objects rfl

theorem ObjMono_decW {m m' : Machine} {b : Nat} (h : DecWCounter m b = .ok m') :
    ObjMono m m' := by
  obtain ⟨blk, blk', _, rfl, _⟩ := DecWCounter_eq_ok h
  exact ObjMono_of_objects rfl

theorem ObjMono_weak_dtor {m m' : Machine} {w : WeakPtr} (h : WeakPtr.dtor m w = .ok m') :
    ObjMono m m' := by
  unfold WeakPtr.dtor at h
  cases hb : w.block_ with
  | none => simp only [hb] at h; cases h; exact ObjMono_refl m
  | some b => simp only [hb] at h; exact ObjMono_decW h

theorem ObjMono_destroyObject {m m' : Machine} {o : Nat} (h : destroyObject m o = .ok m') :
    ObjMono m m' := by
  unfold destroyObject at h
  simp only [bind_eq_ok] at h
  obtain ⟨obj, _, h2⟩ := h
  cases hbase : obj.base with
  | none =>
    simp only [hbase] at h2
    cases h2
    exact ObjMono_writeObject m o _ (by simp)
  | some e =>
    simp only [hbase, bind_eq_ok] at h2
    obtain ⟨m1, h3, h4⟩ := h2
    exact ObjMono_trans (ObjMono_writeObject m o _ (by simp))
      (ObjMono_trans (ObjMono_weak_dtor h3) (ObjMono_weak_dtor h4))

theorem ObjMono_freeObject {m m' : Machine} {o : Nat} (h : freeObject m o = .ok m') :
    ObjMono m m' := by
  unfold freeObject at h
  cases ho : m.objects[o]? with
  | none => simp [ho] at h
  | some obj =>
    simp only [ho] at h
    split at h
    · cases h
      exact ObjMono_writeObject m o _ (by simp)
    · cases h

theorem ObjMono_DeleteObject {m m' : Machine} {b : Nat} (h : DeleteObject m b = .ok m') :
    ObjMono m m' := by
  unfold DeleteObject at h
  simp only [bind_eq_ok] at h
  obtain ⟨blk, _, h2⟩ := h
  have h0 : ObjMono m
      (m.writeBlock b { blk with deleteObjectCalls := blk.deleteObjectCalls + 1 }) :=
    ObjMono_of_objects rfl
  split at h2
  · cases h2
    exact h0
  · simp only [bind_eq_ok] at h2
    obtain ⟨m1, h3, h4⟩ := h2
    exact ObjMono_trans h0 (ObjMono_trans (ObjMono_destroyObject h3) (ObjMono_freeObject h4))
  · cases h2
  · exact ObjMono_trans h0 (ObjMono_destroyObject h2)

theorem ObjMono_decS {m m' : Machine} {b : Nat} (h : DecSCounter m b = .ok m') :
    ObjMono m m' := by
  unfold DecSCounter at h
  simp only [bind_eq_ok] at h
  obtain ⟨blk, _, h2⟩ := h
  split at h2
  · simp only [bind_eq_ok] at h2
    obtain ⟨m1, h3, blk1, _, h5⟩ := h2
    split at h5 <;> cases h5 <;>
      exact ObjMono_trans (ObjMono_DeleteObject h3) (ObjMono_of_objects rfl)
  · cases h2
    exact ObjMono_of_objects rfl

theorem ObjMono_respectsAll : RespectsAll ObjMono where
  refl := ObjMono_refl
  trans := fun _ _ _ h k => ObjMono_trans h k
  incW := fun _ _ _ h => ObjMono_incW h
  decW := fun _ _ _ h => ObjMono_decW h
  incS := fun _ _ _ h => ObjMono_incS h
  decS := fun _ _ _ h => ObjMono_decS h

/-! ## The state right after the first owner, and while a strong handle is live -/

theorem ownFresh_state {m : Machine} {b o : Nat} {kind : BlockKind} (esft : Bool)
    (hb : m.blocks[b]? = some ⟨0, 0, kind, some o, 0, 0⟩)
    (ho : m.objects[o]? = some (Object.fresh esft)) :
    IncSCounter m b = .ok (m.writeBlock b ⟨1, 0, kind, some o, 0, 0⟩) ∧
    ∃ m', (if esft then installWeakThis (m.writeBlock b ⟨1, 0, kind, some o, 0, 0⟩)
          ⟨some o, some b⟩ else .ok (m.writeBlock b ⟨1, 0, kind, some o, 0, 0⟩)) = .ok m' ∧
      m'.blocks[b]? = some ⟨1, if esft then 2 else 0, kind, some o, 0, 0⟩ ∧
      m'.objects[o]? = some
        ⟨if esft then some ⟨⟨some o, some b⟩, ⟨some o, some b⟩⟩ else none, 0, 0⟩ := by
  have hd : m.derefBlock b = .ok ⟨0, 0, kind, some o, 0, 0⟩ := derefBlock_eq_ok.mpr ⟨hb, rfl⟩
  refine ⟨by rw [IncSCounter_ok hd], ?_⟩
  cases esft with
  | false =>
    exact ⟨_, rfl, blocks_writeBlock_self hb, by simpa [Object.fresh] using ho⟩
  | true =>
    obtain ⟨m', h1, h2, h3⟩ := @installWeakThis_fresh
      (m.writeBlock b ⟨1, 0, kind, some o, 0, 0⟩) b o kind
      (blocks_writeBlock_self hb) (by simpa [Object.fresh] using ho)
    exact ⟨m', h1, h2, h3⟩

/-- The state right after the first owner of a fresh object is declared: one
`SharedPtr` variable, a block with strong count 1 whose weak count is 2 for a
self-observing payload (the two slots, both on the new block) and 0 otherwise. -/
theorem firstOwner_state (viaMake esft : Bool) (m : Machine) :
    ∃ m', firstOwner viaMake esft m =
        .ok ⟨m', [some ⟨some m.objects.length, some m.blocks.length⟩], []⟩ ∧
      m'.blocks[m.blocks.length]? = some ⟨1, if esft then 2 else 0,
        if viaMake then .Holder else .Pointer, some m.objects.length, 0, 0⟩ ∧
      m'.objects[m.objects.length]? = some
        ⟨if esft then some ⟨⟨some m.objects.length, some m.blocks.length⟩,
          ⟨some m.objects.length, some m.blocks.length⟩⟩ else none, 0, 0⟩ := by
  cases viaMake with
  | false =>
    obtain ⟨h1, m', h2, h3, h4⟩ := @ownFresh_state
      ⟨m.blocks ++ [⟨0, 0, .Pointer, some m.objects.length, 0, 0⟩],
        m.objects ++ [Object.fresh esft]⟩
      m.blocks.length m.objects.length .Pointer esft (by simp) (by simp)
    refine ⟨m', ?_, by simpa using h3, h4⟩
    cases esft with
    | false =>
      simp only [Bool.false_eq_true, if_false, Except.ok.injEq] at h2
      subst h2
      simp only [firstOwner, afterAdopt, step, Machine.newObject, SharedPtr.ofPtr,
        Machine.newBlock, h1, bind, Except.bind, pure, Except.pure]
      simp [Machine.writeBlock]
    | true =>
      simp only [if_true] at h2
      simp only [firstOwner, afterAdopt, step, Machine.newObject, SharedPtr.ofPtr,
        Machine.newBlock, h1, h2, bind, Except.bind, pure, Except.pure]
      simp [Machine.writeBlock]
  | true =>
    obtain ⟨h1, m', h2, h3, h4⟩ := @ownFresh_state
      ⟨m.blocks ++ [⟨0, 0, .Holder, some m.objects.length, 0, 0⟩],
        m.objects ++ [Object.fresh esft]⟩
      m.blocks.length m.objects.length .Holder esft (by simp) (by simp)
    have hd : (⟨m.blocks ++ [⟨0, 0, .Holder, some m.objects.length, 0, 0⟩],
        m.objects ++ [Object.fresh esft]⟩ : Machine).derefBlock m.blocks.length =
        .ok ⟨0, 0, .Holder, some m.objects.length, 0, 0⟩ :=
      derefBlock_eq_ok.mpr ⟨by simp, rfl⟩
    refine ⟨m', ?_, by simpa using h3, h4⟩
    cases esft with
    | false =>
      simp only [Bool.false_eq_true, if_false, Except.ok.injEq] at h2
      subst h2
      simp only [firstOwner, afterMake, step, MakeShared, Machine.newObject,
        SharedPtr.ofHolder, Machine.newBlock, h1, hd, bind, Except.bind, pure, Except.pure]
      simp [Machine.writeBlock]
    | true =>
      simp only [if_true] at h2
      simp only [firstOwner, afterMake, step, MakeShared, Machine.newObject,
        SharedPtr.ofHolder, Machine.newBlock, h1, hd, h2, bind, Except.bind, pure,
        Except.pure]
      simp [Machine.writeBlock]

theorem onOneBlock_createsBlock {op : Op} (h : op.onOneBlock = true) :
    op.createsBlock = false := by
  cases op <;> simp [Op.onOneBlock] at h <;> rfl

/-- While a strong handle on the block of a first owner is live, the payload is the
object that the first owner left (its slots are untouched), and the block holds the
number of live strong handles and the number of live weak handles plus the slots. -/
theorem owned_state (viaMake esft : Bool) (m : Machine) (ops : List Op)
    (hops : ∀ op ∈ ops, op.onOneBlock = true) :
    ∃ st0 st, firstOwner viaMake esft m = .ok st0 ∧ run st0 ops = .ok st ∧
      Inv m.blocks.length m.objects.length st ∧
      (0 < liveShared m.blocks.length st.shared →
        st.m.objects[m.objects.length]? = some
          ⟨if esft then some ⟨⟨some m.objects.length, some m.blocks.length⟩,
            ⟨some m.objects.length, some m.blocks.length⟩⟩ else none, 0, 0⟩ ∧
        ∃ kind, st.m.blocks[m.blocks.length]? = some
          ⟨liveShared m.blocks.length st.shared,
            liveWeak m.blocks.length st.weak + (if esft then 2 else 0), kind,
            some m.objects.length, 0, 0⟩) := by
  obtain ⟨st0, st, h0, h1, hinv⟩ := program_inv viaMake esft m ops hops
  refine ⟨st0, st, h0, h1, hinv, ?_⟩
  intro hpos
  obtain ⟨m0, e0, _, e2⟩ := firstOwner_state viaMake esft m
  rw [h0] at e0
  cases e0
  have hmono := run_rel ObjMono_respectsAll ops _ st
    (fun op hop => onOneBlock_createsBlock (hops op hop)) h1
  obtain ⟨blk, obj, hb, ho, hp, _, hph⟩ := hinv.1
  rcases hph with ⟨_, a1, a2, a3, a4, a5, a6⟩ | ⟨hz, _⟩
  · have hobj := hmono.2 _ obj ho a5 a6
    simp only at hobj
    rw [e2] at hobj
    cases hobj
    refine ⟨ho, blk.kind, ?_⟩
    rw [hb]
    obtain ⟨s, w, kind, p, d1, d2⟩ := blk
    simp only at a1 a2 a3 a4 hp
    subst a1 a3 a4 hp
    cases esft <;> simp [a2, Object.slotsOn, slotOn]
  · omega

/-! ## The first owner of a self-observing object -/

/-- C15. Forming the first `SharedPtr` over a fresh self-observing object, by adoption
of `new T` or by `MakeShared`, in any machine, returns and leaves the new block with
strong count 1 and weak count 2, the two slots of the payload being weak handles on
that block.  After any program on the handles of the block, while a strong handle is
live the weak count is the number of live `WeakPtr` variables plus 2 whatever the
strong count is; copying a strong handle then adds 1 to the strong count and changes
nothing else in the machine; and destroying the only live strong handle when no
`WeakPtr` variable is live calls `DeleteObject` once, destroys the payload once, leaves
the weak count at 0 and frees the block once. -/
theorem C15_first_owner_of_self_observing (viaMake : Bool) (m : Machine) (ops : List Op)
    (hops : ∀ op ∈ ops, op.onOneBlock = true) :
    ∃ m0 st, firstOwner viaMake true m =
        .ok ⟨m0, [some ⟨some m.objects.length, some m.blocks.length⟩], []⟩ ∧
      m0.blocks[m.blocks.length]? =
        some ⟨1, 2, if viaMake then .Holder else .Pointer, some m.objects.length, 0, 0⟩ ∧
      m0.objects[m.objects.length]? =
        some ⟨some ⟨⟨some m.objects.length, some m.blocks.length⟩,
          ⟨some m.objects.length, some m.blocks.length⟩⟩, 0, 0⟩ ∧
      run ⟨m0, [some ⟨some m.objects.length, some m.blocks.length⟩], []⟩ ops = .ok st ∧
      (0 < liveShared m.blocks.length st.shared →
        ∃ kind, st.m.blocks[m.blocks.length]? =
          some ⟨liveShared m.blocks.length st.shared,
            liveWeak m.blocks.length st.weak + 2, kind, some m.objects.length, 0, 0⟩) ∧
      (∀ i h, st.getShared i = some h → h.block_ = some m.blocks.length →
        ∃ kind, st.m.blocks[m.blocks.length]? =
          some ⟨liveShared m.blocks.length st.shared,
            liveWeak m.blocks.length st.weak + 2, kind, some m.objects.length, 0, 0⟩ ∧
          step st (.copy i) =
            .ok ⟨st.m.writeBlock m.blocks.length
                ⟨liveShared m.blocks.length st.shared + 1,
                  liveWeak m.blocks.length st.weak + 2, kind, some m.objects.length, 0, 0⟩,
              st.shared ++ [some ⟨h.ptr_, some m.blocks.length⟩], st.weak⟩) ∧
      (∀ i h, st.getShared i = some h → h.block_ = some m.blocks.length →
        liveShared m.blocks.length st.shared = 1 → liveWeak m.blocks.length st.weak = 0 →
        ∃ kind, st.m.blocks[m.blocks.length]? =
            some ⟨1, 2, kind, some m.objects.length, 0, 0⟩ ∧
          step st (.destroy i) =
            .ok ⟨(st.m.writeObject m.objects.length
                ⟨some ⟨⟨some m.objects.length, some m.blocks.length⟩,
                  ⟨some m.objects.length, some m.blocks.length⟩⟩, 1,
                  if kind = .Pointer then 1 else 0⟩).writeBlock m.blocks.length
                ⟨1, 0, kind, some m.objects.length, 1, 1⟩,
              st.shared.set i none, st.weak⟩) := by
  obtain ⟨st0, st, h0, h1, hinv, hown⟩ := owned_state viaMake true m ops hops
  obtain ⟨m0, e0, e1, e2⟩ := firstOwner_state viaMake true m
  rw [h0] at e0
  cases e0
  obtain ⟨mm, S, W⟩ := st
  simp only [if_true] at hown e1 e2
  refine ⟨m0, ⟨mm, S, W⟩, h0, e1, e2, h1, fun hpos => (hown hpos).2, ?_, ?_⟩
  · intro i h hg hb
    have hi := getShared_eq_some.mp hg
    obtain ⟨_, kind, hblk⟩ := hown (liveShared_pos _ S i h hi hb)
    have hd := derefBlock_eq_ok.mpr ⟨hblk, rfl⟩
    refine ⟨kind, hblk, ?_⟩
    simp only at hd
    simp [step, hg, SharedPtr.copy, hb, IncSCounter_ok hd, bind, Except.bind, pure,
      Except.pure]
  · intro i h hg hb hs hw
    have hi := getShared_eq_some.mp hg
    obtain ⟨hobj, kind, hblk⟩ := hown (liveShared_pos _ S i h hi hb)
    simp only [hs, hw] at hblk
    have hd := derefBlock_eq_ok.mpr ⟨hblk, rfl⟩
    have ho := derefObject_eq_ok.mpr ⟨hobj, rfl, rfl⟩
    refine ⟨kind, hblk, ?_⟩
    simp only at hd ho
    have hlast := DecSCounter_last hd rfl ho rfl (by simp [Object.slotsWithin])
      (by simp [Object.slotsOn, slotOn])
    simp [step, hg, SharedPtr.dtor, hb, hlast, bind, Except.bind, pure, Except.pure,
      Object.deleted, ControlBlock.released, Object.slotsOn, slotOn]

/-- C15, on `auto a = MakeShared<T>(); SharedPtr<T> c(a);` followed by the destruction
of `c` and then of `a`, for a self-observing `T`, from the empty machine. -/
theorem C15_first_owner_of_self_observing_witness :
    (∀ op ∈ [Op.copy 0, .destroy 1], op.onOneBlock = true) ∧
    firstOwner true true ⟨[], []⟩ =
      .ok ⟨⟨[⟨1, 2, .Holder, some 0, 0, 0⟩],
        [⟨some ⟨⟨some 0, some 0⟩, ⟨some 0, some 0⟩⟩, 0, 0⟩]⟩, [some ⟨some 0, some 0⟩], []⟩ ∧
    (do let st ← firstOwner true true ⟨[], []⟩
        run st [.copy 0]) =
      .ok ⟨⟨[⟨2, 2, .Holder, some 0, 0, 0⟩],
        [⟨some ⟨⟨some 0, some 0⟩, ⟨some 0, some 0⟩⟩, 0, 0⟩]⟩,
        [some ⟨some 0, some 0⟩, some ⟨some 0, some 0⟩], []⟩ ∧
    (do let st ← firstOwner true true ⟨[], []⟩
        run st [.copy 0, .destroy 1, .destroy 0]) =
      .ok ⟨⟨[⟨1, 0, .Holder, some 0, 1, 1⟩],
        [⟨some ⟨⟨some 0, some 0⟩, ⟨some 0, some 0⟩⟩, 1, 0⟩]⟩, [none, none], []⟩ ∧
    ∃ m0 st, firstOwner true true ⟨[], []⟩ = .ok ⟨m0, [some ⟨some 0, some 0⟩], []⟩ ∧
      m0.blocks[0]? = some ⟨1, 2, .Holder, some 0, 0, 0⟩ ∧
      m0.objects[0]? = some ⟨some ⟨⟨some 0, some 0⟩, ⟨some 0, some 0⟩⟩, 0, 0⟩ ∧
      run ⟨m0, [some ⟨some 0, some 0⟩], []⟩ [.copy 0, .destroy 1] = .ok st ∧
      (0 < liveShared 0 st.shared →
        ∃ kind, st.m.blocks[0]? =
          some ⟨liveShared 0 st.shared, liveWeak 0 st.weak + 2, kind, some 0, 0, 0⟩) ∧
      (∀ i h, st.getShared i = some h → h.block_ = some 0 →
        ∃ kind, st.m.blocks[0]? =
          some ⟨liveShared 0 st.shared, liveWeak 0 st.weak + 2, kind, some 0, 0, 0⟩ ∧
          step st (.copy i) =
            .ok ⟨st.m.writeBlock 0
                ⟨liveShared 0 st.shared + 1, liveWeak 0 st.weak + 2, kind, some 0, 0, 0⟩,
              st.shared ++ [some ⟨h.ptr_, some 0⟩], st.weak⟩) ∧
      (∀ i h, st.getShared i = some h → h.block_ = some 0 →
        liveShared 0 st.shared = 1 → liveWeak 0 st.weak = 0 →
        ∃ kind, st.m.blocks[0]? = some ⟨1, 2, kind, some 0, 0, 0⟩ ∧
          step st (.destroy i) =
            .ok ⟨(st.m.writeObject 0
                ⟨some ⟨⟨some 0, some 0⟩, ⟨some 0, some 0⟩⟩, 1,
                  if kind = .Pointer then 1 else 0⟩).writeBlock 0
                ⟨1, 0, kind, some 0, 1, 1⟩,
              st.shared.set i none, st.weak⟩) :=
  ⟨by decide, by decide, by decide, by decide,
    C15_first_owner_of_self_observing true ⟨[], []⟩ [.copy 0, .destroy 1] (by decide)⟩

/-! ## Handles that a self-observing object produces for itself -/

/-- C14. Start from the first owner of a fresh self-observing object (adopted or from
`MakeShared`, in any machine) and run any program on the handles of its block.  For
every live `SharedPtr` variable `sp` on the block, with `n = sp.UseCount()` before the
call (the number of live strong handles, at least 1): the payload is alive and both
overloads of `SharedFromThis()` return a handle `h` on the block of `sp`, pointing to
the payload, with `h.UseCount() = sp.UseCount() = n + 1` right after the call; both
overloads of `WeakFromThis()` return a weak handle `w` on the block of `sp` with
`w.UseCount() = sp.UseCount() = n` right after the call, so the strong count is left
unchanged. -/
theorem C14_self_handles_agree (viaMake : Bool) (m : Machine) (ops : List Op)
    (hops : ∀ op ∈ ops, op.onOneBlock = true) :
    ∃ st0 st, firstOwner viaMake true m = .ok st0 ∧ run st0 ops = .ok st ∧
      ∀ i sp, st.getShared i = some sp → sp.block_ = some m.blocks.length →
        ∃ e n, st.m.objects[m.objects.length]? = some ⟨some e, 0, 0⟩ ∧
          sp.UseCount st.m = .ok n ∧ n = liveShared m.blocks.length st.shared ∧ 1 ≤ n ∧
          (∃ m1 h, e.SharedFromThis st.m = .ok (m1, h) ∧
            h.block_ = sp.block_ ∧ h.ptr_ = some m.objects.length ∧
            h.UseCount m1 = .ok (n + 1) ∧ sp.UseCount m1 = .ok (n + 1)) ∧
          (∃ m1 h, e.SharedFromThisConst st.m = .ok (m1, h) ∧
            h.block_ = sp.block_ ∧ h.ptr_ = some m.objects.length ∧
            h.UseCount m1 = .ok (n + 1) ∧ sp.UseCount m1 = .ok (n + 1)) ∧
          (∃ m2 w, e.WeakFromThis st.m = .ok (m2, w) ∧ w.block_ = sp.block_ ∧
            w.UseCount m2 = .ok n ∧ sp.UseCount m2 = .ok n) ∧
          (∃ m2 w, e.WeakFromThisConst st.m = .ok (m2, w) ∧ w.block_ = sp.block_ ∧
            w.UseCount m2 = .ok n ∧ sp.UseCount m2 = .ok n) := by
  obtain ⟨st0, st, h0, h1, hinv, hown⟩ := owned_state viaMake true m ops hops
  refine ⟨st0, st, h0, h1, ?_⟩
  intro i sp hg hb
  have hi := getShared_eq_some.mp hg
  have hpos := liveShared_pos _ st.shared i sp hi hb
  obtain ⟨hobj, kind, hblk⟩ := hown hpos
  simp only [if_true] at hobj hblk
  have hd := derefBlock_eq_ok.mpr ⟨hblk, rfl⟩
  have hl : m.blocks.length < st.m.blocks.length := (List.getElem?_eq_some_iff.mp hblk).1
  have hne : ¬ liveShared m.blocks.length st.shared = 0 := by omega
  refine ⟨_, liveShared m.blocks.length st.shared, hobj, ?_, rfl, hpos, ?_, ?_, ?_, ?_⟩
  · simp [SharedPtr.UseCount, hb, GetSCounter_ok hd]
  · simp [EnableSharedFromThis.SharedFromThis, SharedPtr.ofWeak, WeakPtr.UseCount,
      SharedPtr.UseCount, hb, GetSCounter, hd, hne, IncSCounter_ok hd,
      derefBlock_writeBlock_lt hl, bind, Except.bind, pure, Except.pure]
    refine ⟨_, _, ⟨rfl, rfl⟩, ?_⟩
    simp [derefBlock_writeBlock_lt hl]
  · simp [EnableSharedFromThis.SharedFromThisConst, SharedPtr.ofWeak, WeakPtr.UseCount,
      SharedPtr.UseCount, hb, GetSCounter, hd, hne, IncSCounter_ok hd,
      derefBlock_writeBlock_lt hl, bind, Except.bind, pure, Except.pure]
    refine ⟨_, _, ⟨rfl, rfl⟩, ?_⟩
    simp [derefBlock_writeBlock_lt hl]
  · simp [EnableSharedFromThis.WeakFromThis, WeakPtr.copy, WeakPtr.UseCount,
      SharedPtr.UseCount, hb, GetSCounter, hd, IncWCounter_ok hd,
      derefBlock_writeBlock_lt hl, bind, Except.bind, pure, Except.pure]
    refine ⟨_, _, ⟨rfl, rfl⟩, ?_⟩
    simp [derefBlock_writeBlock_lt hl]
  · simp [EnableSharedFromThis.WeakFromThisConst, WeakPtr.copy, WeakPtr.UseCount,
      SharedPtr.UseCount, hb, GetSCounter, hd, IncWCounter_ok hd,
      derefBlock_writeBlock_lt hl, bind, Except.bind, pure, Except.pure]
    refine ⟨_, _, ⟨rfl, rfl⟩, ?_⟩
    simp [derefBlock_writeBlock_lt hl]

/-- C14, on `SharedPtr<T> a(new T); SharedPtr<T> c(a); WeakPtr<T> w(a);` for a
self-observing `T`: `a->SharedFromThis().UseCount()` is 3, and `a->WeakFromThis()`
reports 2. -/
theorem C14_self_handles_agree_witness :
    (∀ op ∈ [Op.copy 0, .weakOf 0], op.onOneBlock = true) ∧
    (do let st ← firstOwner false true ⟨[], []⟩
        run st [.copy 0, .weakOf 0]) =
      .ok ⟨⟨[⟨2, 3, .Pointer, some 0, 0, 0⟩],
        [⟨some ⟨⟨some 0, some 0⟩, ⟨some 0, some 0⟩⟩, 0, 0⟩]⟩,
        [some ⟨some 0, some 0⟩, some ⟨some 0, some 0⟩], [some ⟨some 0, some 0⟩]⟩ ∧
    EnableSharedFromThis.SharedFromThis
        ⟨[⟨2, 3, .Pointer, some 0, 0, 0⟩],
          [⟨some ⟨⟨some 0, some 0⟩, ⟨some 0, some 0⟩⟩, 0, 0⟩]⟩
        ⟨⟨some 0, some 0⟩, ⟨some 0, some 0⟩⟩ =
      .ok (⟨[⟨3, 3, .Pointer, some 0, 0, 0⟩],
        [⟨some ⟨⟨some 0, some 0⟩, ⟨some 0, some 0⟩⟩, 0, 0⟩]⟩, ⟨some 0, some 0⟩) ∧
    EnableSharedFromThis.WeakFromThis
        ⟨[⟨2, 3, .Pointer, some 0, 0, 0⟩],
          [⟨some ⟨⟨some 0, some 0⟩, ⟨some 0, some 0⟩⟩, 0, 0⟩]⟩
        ⟨⟨some 0, some 0⟩, ⟨some 0, some 0⟩⟩ =
      .ok (⟨[⟨2, 4, .Pointer, some 0, 0, 0⟩],
        [⟨some ⟨⟨some 0, some 0⟩, ⟨some 0, some 0⟩⟩, 0, 0⟩]⟩, ⟨some 0, some 0⟩) ∧
    ∃ st0 st, firstOwner false true ⟨[], []⟩ = .ok st0 ∧
      run st0 [.copy 0, .weakOf 0] = .ok st ∧
      ∀ i sp, st.getShared i = some sp → sp.block_ = some 0 →
        ∃ e n, st.m.objects[0]? = some ⟨some e, 0, 0⟩ ∧
          sp.UseCount st.m = .ok n ∧ n = liveShared 0 st.shared ∧ 1 ≤ n ∧
          (∃ m1 h, e.SharedFromThis st.m = .ok (m1, h) ∧
            h.block_ = sp.block_ ∧ h.ptr_ = some 0 ∧
            h.UseCount m1 = .ok (n + 1) ∧ sp.UseCount m1 = .ok (n + 1)) ∧
          (∃ m1 h, e.SharedFromThisConst st.m = .ok (m1, h) ∧
            h.block_ = sp.block_ ∧ h.ptr_ = some 0 ∧
            h.UseCount m1 = .ok (n + 1) ∧ sp.UseCount m1 = .ok (n + 1)) ∧
          (∃ m2 w, e.WeakFromThis st.m = .ok (m2, w) ∧ w.block_ = sp.block_ ∧
            w.UseCount m2 = .ok n ∧ sp.UseCount m2 = .ok n) ∧
          (∃ m2 w, e.WeakFromThisConst st.m = .ok (m2, w) ∧ w.block_ = sp.block_ ∧
            w.UseCount m2 = .ok n ∧ sp.UseCount m2 = .ok n) :=
  ⟨by decide, by decide, by decide, by decide,
    C14_self_handles_agree false ⟨[], []⟩ [.copy 0, .weakOf 0] (by decide)⟩

/-! ## Adoption and `MakeShared` are indistinguishable -/

theorem WeakPtr_Expired_of_UseCount {m : Machine} {w : WeakPtr} {n : Nat}
    (hn : w.UseCount m = .ok n) : w.Expired m = .ok (n == 0) := by
  rcases WeakPtr_UseCount_cases hn with ⟨hb, h0⟩ | ⟨b, blk, hb, hd, hs⟩
  · subst h0
    simp [WeakPtr.Expired, hb, pure, Except.pure]
  · simp [WeakPtr.Expired, hb, GetSCounter_ok hd, hs, bind, Except.bind, pure, Except.pure]

theorem WeakPtr_Lock_of_UseCount {m : Machine} {w : WeakPtr} {n : Nat}
    (hn : w.UseCount m = .ok n) :
    ∃ m', w.Lock m = .ok (m', if n = 0 then ⟨none, none⟩ else ⟨w.ptr_, w.block_⟩) := by
  by_cases h0 : n = 0
  · subst h0
    exact ⟨m, by simp [WeakPtr.Lock, hn, bind, Except.bind, pure, Except.pure,
      SharedPtr.empty]⟩
  · obtain ⟨b, blk, _, _, _, h⟩ := ofWeak_returns m w n hn h0
    refine ⟨m.writeBlock b { blk with shared_counter_ := blk.shared_counter_ + 1 }, ?_⟩
    simp [WeakPtr.Lock, hn, h0, h, bind, Except.bind]

theorem storeStep_congr (live live' : WeakPtr → Bool) (S : List (Option SharedPtr))
    (W : List (Option WeakPtr)) (op : Op)
    (h : ∀ k w, lookup W k = some w → live w = live' w) :
    storeStep live S W op = storeStep live' S W op := by
  cases op with
  | promote k =>
    simp only [storeStep]
    cases hg : lookup W k with
    | none => rfl
    | some w => simp only [h k w hg]
  | lock k =>
    simp only [storeStep]
    cases hg : lookup W k with
    | none => rfl
    | some w => simp only [h k w hg]
  | _ => rfl

/-- Two machines in which the same variable tables satisfy the invariant of the block
`b` give every weak handle the same `UseCount()`. -/
theorem Inv_weak_UseCount {b o o' : Nat} {m m' : Machine} {S : List (Option SharedPtr)}
    {W : List (Option WeakPtr)} (h : Inv b o ⟨m, S, W⟩) (h' : Inv b o' ⟨m', S, W⟩)
    {k : Nat} {w : WeakPtr} (hw : W[k]? = some (some w)) :
    ∃ n, w.UseCount m = .ok n ∧ w.UseCount m' = .ok n ∧
      (w.block_ = some b → n = liveShared b S) := by
  rcases weakWithin_get h.2.2 hw with hb | hb
  · exact ⟨0, by simp [WeakPtr.UseCount, hb, pure, Except.pure],
      by simp [WeakPtr.UseCount, hb, pure, Except.pure], by simp [hb]⟩
  · have hpos := liveWeak_pos b W k w hw hb
    obtain ⟨blk, hd, hs⟩ := h.1.deref (Or.inr hpos)
    obtain ⟨blk', hd', hs'⟩ := h'.1.deref (Or.inr hpos)
    exact ⟨liveShared b S, by simp [WeakPtr.UseCount, hb, GetSCounter_ok hd, hs],
      by simp [WeakPtr.UseCount, hb, GetSCounter_ok hd', hs'], fun _ => rfl⟩

theorem Inv_shared_UseCount {b o o' : Nat} {m m' : Machine} {S : List (Option SharedPtr)}
    {W : List (Option WeakPtr)} (h : Inv b o ⟨m, S, W⟩) (h' : Inv b o' ⟨m', S, W⟩)
    {i : Nat} {x : SharedPtr} (hx : S[i]? = some (some x)) :
    ∃ n, x.UseCount m = .ok n ∧ x.UseCount m' = .ok n ∧
      (x.block_ = some b → n = liveShared b S) := by
  rcases sharedWithin_get h.2.1 hx with hb | hb
  · exact ⟨0, by simp [SharedPtr.UseCount, hb, pure, Except.pure],
      by simp [SharedPtr.UseCount, hb, pure, Except.pure], by simp [hb]⟩
  · have hpos := liveShared_pos b S i x hx hb
    obtain ⟨blk, hd, hs⟩ := h.1.deref (Or.inl hpos)
    obtain ⟨blk', hd', hs'⟩ := h'.1.deref (Or.inl hpos)
    exact ⟨liveShared b S, by simp [SharedPtr.UseCount, hb, GetSCounter_ok hd, hs],
      by simp [SharedPtr.UseCount, hb, GetSCounter_ok hd', hs'], fun _ => rfl⟩

theorem lookup_eq_some {α : Type} {l : List (Option α)} {i : Nat} {x : α}
    (h : lookup l i = some x) : l[i]? = some (some x) := by
  unfold lookup at h
  split at h
  · rename_i y hy
    cases h
    exact hy
  · cases h

/-- One statement run in two machines with the same variable tables, both satisfying
the invariant of the block `b`: both return, with the same variable tables. -/
theorem agree_step {b o o' : Nat} {m m' : Machine} {S : List (Option SharedPtr)}
    {W : List (Option WeakPtr)} (op : Op) (hop : op.onOneBlock = true)
    (h : Inv b o ⟨m, S, W⟩) (h' : Inv b o' ⟨m', S, W⟩) :
    ∃ m1 m1' S1 W1, step ⟨m, S, W⟩ op = .ok ⟨m1, S1, W1⟩ ∧
      step ⟨m', S, W⟩ op = .ok ⟨m1', S1, W1⟩ ∧
      Inv b o ⟨m1, S1, W1⟩ ∧ Inv b o' ⟨m1', S1, W1⟩ := by
  obtain ⟨st1, e1, i1, _⟩ := step_inv op h hop
  obtain ⟨st1', e1', i1', _⟩ := step_inv op h' hop
  have hc := onOneBlock_createsBlock hop
  have f := (step_effect ObjMono_respectsAll op hc e1).2
  have f' := (step_effect ObjMono_respectsAll op hc e1').2
  have hcongr : storeStep (usable m) S W op = storeStep (usable m') S W op := by
    apply storeStep_congr
    intro k w hk
    obtain ⟨n, h1, h2, _⟩ := Inv_weak_UseCount h h' (lookup_eq_some hk)
    simp [usable, h1, h2]
  rw [hcongr, ← f'] at f
  obtain ⟨m1, S1, W1⟩ := st1
  obtain ⟨m1', S1', W1'⟩ := st1'
  simp only [Prod.mk.injEq] at f
  obtain ⟨rfl, rfl⟩ := f
  exact ⟨m1, m1', S1, W1, e1, e1', i1, i1'⟩

theorem agree_run {b o o' : Nat} (ops : List Op) :
    ∀ (m m' : Machine) (S : List (Option SharedPtr)) (W : List (Option WeakPtr)),
      (∀ op ∈ ops, op.onOneBlock = true) →
      Inv b o ⟨m, S, W⟩ → Inv b o' ⟨m', S, W⟩ →
      ∃ m1 m1' S1 W1, run ⟨m, S, W⟩ ops = .ok ⟨m1, S1, W1⟩ ∧
        run ⟨m', S, W⟩ ops = .ok ⟨m1', S1, W1⟩ ∧
        Inv b o ⟨m1, S1, W1⟩ ∧ Inv b o' ⟨m1', S1, W1⟩ := by
  induction ops with
  | nil =>
    intro m m' S W _ h h'
    exact ⟨m, m', S, W, rfl, rfl, h, h'⟩
  | cons op ops ih =>
    intro m m' S W hops h h'
    obtain ⟨m1, m1', S1, W1, e, e', i, i'⟩ :=
      agree_step op (hops op (List.mem_cons_self _ _)) h h'
    obtain ⟨m2, m2', S2, W2, g, g', j, j'⟩ :=
      ih m1 m1' S1 W1 (fun x hx => hops x (List.mem_cons_of_mem _ hx)) i i'
    exact ⟨m2, m2', S2, W2, by simp [run, e, g, bind, Except.bind],
      by simp [run, e', g', bind, Except.bind], j, j'⟩

/-- The counters that two machines in the same phase of the block `b` share. -/
theorem Tracks_agree {b o o' : Nat} {m m' : Machine} {ns nw : Nat}
    (h : Tracks b o m ns nw) (h' : Tracks b o' m' ns nw) :
    ∃ blk blk' obj obj', m.blocks[b]? = some blk ∧ m'.blocks[b]? = some blk' ∧
      m.objects[o]? = some obj ∧ m'.objects[o']? = some obj' ∧
      obj.dtorCalls = obj'.dtorCalls ∧ obj.dtorCalls = (if ns = 0 then 1 else 0) ∧
      blk.deleteObjectCalls = blk'.deleteObjectCalls ∧
      blk.deleteThisCalls = blk'.deleteThisCalls ∧
      blk.deleteThisCalls = (if ns = 0 ∧ nw = 0 then 1 else 0) := by
  obtain ⟨blk, obj, hb, ho, _, _, hph⟩ := h
  obtain ⟨blk', obj', hb', ho', _, _, hph'⟩ := h'
  refine ⟨blk, blk', obj, obj', hb, hb', ho, ho', ?_⟩
  rcases hph with ⟨p, _, _, a3, a4, a5, _⟩ | ⟨z, a1, a2, _, ⟨q, _, _, a6⟩ | ⟨q, a6⟩⟩ <;>
  rcases hph' with ⟨p', _, _, c3, c4, c5, _⟩ | ⟨z', c1, c2, _, ⟨q', _, _, c6⟩ | ⟨q', c6⟩⟩ <;>
  first
  | omega
  | (have hns : ¬ ns = 0 := by omega
     simp only [hns, false_and, if_false]
     omega)
  | (have hnw : ¬ nw = 0 := by omega
     simp only [z, hnw, and_false, if_true, if_false]
     omega)
  | (simp only [z, q, and_self, if_true]
     omega)

/-- C13. For a payload type without the self-observing capability, in any machine:
adoption of `new T` and `MakeShared<T>()` both return a first owner whose block has
strong count 1 and weak count 0 (a `ControlBlockPointer` in one case, a
`ControlBlockHolder` in the other).  Run the same program on the handles of the block
(copy, move, `Reset`, `WeakPtr` derivation, `Lock`, destruction, ...) after each of
them: after every prefix of the program both runs have returned with the same variable
tables; every live `SharedPtr` and `WeakPtr` reports the same `UseCount()` in both,
every live `WeakPtr` the same `Expired()` and the same handle from `Lock()`; and the
number of destructor calls on the payload, of `DeleteObject` calls and of `delete this`
on the block are the same in both, so the payload is destroyed at the same statement
and the block is freed at the same statement. -/
theorem C13_adoption_and_MakeShared_agree (m : Machine) (ops : List Op)
    (hops : ∀ op ∈ ops, op.onOneBlock = true) :
    ∃ mA mM,
      firstOwner false false m =
        .ok ⟨mA, [some ⟨some m.objects.length, some m.blocks.length⟩], []⟩ ∧
      firstOwner true false m =
        .ok ⟨mM, [some ⟨some m.objects.length, some m.blocks.length⟩], []⟩ ∧
      mA.blocks[m.blocks.length]? = some ⟨1, 0, .Pointer, some m.objects.length, 0, 0⟩ ∧
      mM.blocks[m.blocks.length]? = some ⟨1, 0, .Holder, some m.objects.length, 0, 0⟩ ∧
      ∀ n, ∃ mA' mM' S W,
        run ⟨mA, [some ⟨some m.objects.length, some m.blocks.length⟩], []⟩ (ops.take n) =
          .ok ⟨mA', S, W⟩ ∧
        run ⟨mM, [some ⟨some m.objects.length, some m.blocks.length⟩], []⟩ (ops.take n) =
          .ok ⟨mM', S, W⟩ ∧
        (∀ (i : Nat) (x : SharedPtr), S[i]? = some (some x) →
          ∃ c, x.UseCount mA' = .ok c ∧ x.UseCount mM' = .ok c) ∧
        (∀ (k : Nat) (w : WeakPtr), W[k]? = some (some w) → ∃ c mA2 mM2 x,
          w.UseCount mA' = .ok c ∧ w.UseCount mM' = .ok c ∧
          w.Expired mA' = .ok (c == 0) ∧ w.Expired mM' = .ok (c == 0) ∧
          w.Lock mA' = .ok (mA2, x) ∧ w.Lock mM' = .ok (mM2, x)) ∧
        ∃ blkA blkM objA objM,
          mA'.blocks[m.blocks.length]? = some blkA ∧
          mM'.blocks[m.blocks.length]? = some blkM ∧
          mA'.objects[m.objects.length]? = some objA ∧
          mM'.objects[m.objects.length]? = some objM ∧
          objA.dtorCalls = objM.dtorCalls ∧
          objA.dtorCalls = (if liveShared m.blocks.length S = 0 then 1 else 0) ∧
          blkA.deleteObjectCalls = blkM.deleteObjectCalls ∧
          blkA.deleteThisCalls = blkM.deleteThisCalls ∧
          blkA.deleteThisCalls =
            (if liveShared m.blocks.length S = 0 ∧ liveWeak m.blocks.length W = 0
              then 1 else 0) := by
  obtain ⟨mA, a0, a1, _⟩ := firstOwner_state false false m
  obtain ⟨mM, c0, c1, _⟩ := firstOwner_state true false m
  obtain ⟨sA, ea, ia⟩ := firstOwner_inv false false m
  obtain ⟨sM, ec, ic⟩ := firstOwner_inv true false m
  rw [a0] at ea
  rw [c0] at ec
  cases ea
  cases ec
  refine ⟨mA, mM, a0, c0, by simpa using a1, by simpa using c1, ?_⟩
  intro n
  obtain ⟨mA', mM', S, W, ra, rc, ja, jc⟩ := agree_run (ops.take n) mA mM _ _
    (fun op hop => hops op (List.mem_of_mem_take hop)) ia ic
  refine ⟨mA', mM', S, W, ra, rc, ?_, ?_, Tracks_agree ja.1 jc.1⟩
  · intro i x hx
    obtain ⟨c, h1, h2, _⟩ := Inv_shared_UseCount ja jc hx
    exact ⟨c, h1, h2⟩
  · intro k w hw
    obtain ⟨c, h1, h2, _⟩ := Inv_weak_UseCount ja jc hw
    obtain ⟨mA2, l1⟩ := WeakPtr_Lock_of_UseCount h1
    obtain ⟨mM2, l2⟩ := WeakPtr_Lock_of_UseCount h2
    exact ⟨c, mA2, mM2, _, h1, h2, WeakPtr_Expired_of_UseCount h1,
      WeakPtr_Expired_of_UseCount h2, l1, l2⟩

/-- C13, on the program that derives a weak handle, copies the owner, destroys both
owners and then the weak handle: the payload is destroyed by the fourth statement and
the block is freed by the fifth, after adoption as after `MakeShared`. -/
theorem C13_adoption_and_MakeShared_agree_witness :
    (∀ op ∈ [Op.weakOf 0, .copy 0, .destroy 0, .destroy 1, .weakDestroy 0],
      op.onOneBlock = true) ∧
    (do let st ← firstOwner false false ⟨[], []⟩
        run st [.weakOf 0, .copy 0, .destroy 0]) =
      .ok ⟨⟨[⟨1, 1, .Pointer, some 0, 0, 0⟩], [⟨none, 0, 0⟩]⟩,
        [none, some ⟨some 0, some 0⟩], [some ⟨some 0, some 0⟩]⟩ ∧
    (do let st ← firstOwner true false ⟨[], []⟩
        run st [.weakOf 0, .copy 0, .destroy 0]) =
      .ok ⟨⟨[⟨1, 1, .Holder, some 0, 0, 0⟩], [⟨none, 0, 0⟩]⟩,
        [none, some ⟨some 0, some 0⟩], [some ⟨some 0, some 0⟩]⟩ ∧
    (do let st ← firstOwner false false ⟨[], []⟩
        run st [.weakOf 0, .copy 0, .destroy 0, .destroy 1]) =
      .ok ⟨⟨[⟨0, 1, .Pointer, some 0, 1, 0⟩], [⟨none, 1, 1⟩]⟩,
        [none, none], [some ⟨some 0, some 0⟩]⟩ ∧
    (do let st ← firstOwner true false ⟨[], []⟩
        run st [.weakOf 0, .copy 0, .destroy 0, .destroy 1]) =
      .ok ⟨⟨[⟨0, 1, .Holder, some 0, 1, 0⟩], [⟨none, 1, 0⟩]⟩,
        [none, none], [some ⟨some 0, some 0⟩]⟩ ∧
    (do let st ← firstOwner false false ⟨[], []⟩
        run st [.weakOf 0, .copy 0, .destroy 0, .destroy 1, .weakDestroy 0]) =
      .ok ⟨⟨[⟨0, 0, .Pointer, some 0, 1, 1⟩], [⟨none, 1, 1⟩]⟩, [none, none], [none]⟩ ∧
    (do let st ← firstOwner true false ⟨[], []⟩
        run st [.weakOf 0, .copy 0, .destroy 0, .destroy 1, .weakDestroy 0]) =
      .ok ⟨⟨[⟨0, 0, .Holder, some 0, 1, 1⟩], [⟨none, 1, 0⟩]⟩, [none, none], [none]⟩ ∧
    ∃ mA mM,
      firstOwner false false ⟨[], []⟩ = .ok ⟨mA, [some ⟨some 0, some 0⟩], []⟩ ∧
      firstOwner true false ⟨[], []⟩ = .ok ⟨mM, [some ⟨some 0, some 0⟩], []⟩ ∧
      mA.blocks[0]? = some ⟨1, 0, .Pointer, some 0, 0, 0⟩ ∧
      mM.blocks[0]? = some ⟨1, 0, .Holder, some 0, 0, 0⟩ ∧
      ∀ n, ∃ mA' mM' S W,
        run ⟨mA, [some ⟨some 0, some 0⟩], []⟩
            ([Op.weakOf 0, .copy 0, .destroy 0, .destroy 1, .weakDestroy 0].take n) =
          .ok ⟨mA', S, W⟩ ∧
        run ⟨mM, [some ⟨some 0, some 0⟩], []⟩
            ([Op.weakOf 0, .copy 0, .destroy 0, .destroy 1, .weakDestroy 0].take n) =
          .ok ⟨mM', S, W⟩ ∧
        (∀ (i : Nat) (x : SharedPtr), S[i]? = some (some x) →
          ∃ c, x.UseCount mA' = .ok c ∧ x.UseCount mM' = .ok c) ∧
        (∀ (k : Nat) (w : WeakPtr), W[k]? = some (some w) → ∃ c mA2 mM2 x,
          w.UseCount mA' = .ok c ∧ w.UseCount mM' = .ok c ∧
          w.Expired mA' = .ok (c == 0) ∧ w.Expired mM' = .ok (c == 0) ∧
          w.Lock mA' = .ok (mA2, x) ∧ w.Lock mM' = .ok (mM2, x)) ∧
        ∃ blkA blkM objA objM,
          mA'.blocks[0]? = some blkA ∧ mM'.blocks[0]? = some blkM ∧
          mA'.objects[0]? = some objA ∧ mM'.objects[0]? = some objM ∧
          objA.dtorCalls = objM.dtorCalls ∧
          objA.dtorCalls = (if liveShared 0 S = 0 then 1 else 0) ∧
          blkA.deleteObjectCalls = blkM.deleteObjectCalls ∧
          blkA.deleteThisCalls = blkM.deleteThisCalls ∧
          blkA.deleteThisCalls = (if liveShared 0 S = 0 ∧ liveWeak 0 W = 0 then 1 else 0) :=
  ⟨by decide, by decide, by decide, by decide, by decide, by decide, by decide,
    C13_adoption_and_MakeShared_agree ⟨[], []⟩
      [.weakOf 0, .copy 0, .destroy 0, .destroy 1, .weakDestroy 0] (by decide)⟩

/-! ## Strong counts and live strong handles, on any number of blocks -/

theorem strongCount_deref {m : Machine} {b : Nat} {blk : ControlBlock}
    (h : m.derefBlock b = .ok blk) : strongCount m b = blk.shared_counter_ := by
  obtain ⟨h1, h2⟩ := derefBlock_eq_ok.mp h
  simp [strongCount, h1, h2]

theorem strongCount_writeBlock {m : Machine} {b : Nat} {old : ControlBlock}
    (blk : ControlBlock) (hb : m.blocks[b]? = some old) (c : Nat) :
    strongCount (m.writeBlock b blk) c =
      if c = b then (if blk.deleteThisCalls = 0 then blk.shared_counter_ else 0)
      else strongCount m c := by
  rcases getElem?_set_cases m.blocks b c blk old hb with ⟨rfl, h1, _⟩ | ⟨hne, h1⟩
  · simp [strongCount, Machine.writeBlock, h1]
  · simp [strongCount, Machine.writeBlock, h1, hne]

theorem strongCount_blocks {m m' : Machine} (h : m'.blocks = m.blocks) (c : Nat) :
    strongCount m' c = strongCount m c := by
  simp [strongCount, h]

theorem strongCount_newBlock (m : Machine) (kind : BlockKind) (ptr : Ptr) (c : Nat) :
    strongCount (m.newBlock kind ptr).1 c = strongCount m c := by
  simp only [strongCount, Machine.newBlock]
  rcases Nat.lt_trichotomy c m.blocks.length with h | h | h
  · rw [List.getElem?_append_left h]
  · subst h
    simp
  · rw [List.getElem?_eq_none (by simp; omega), List.getElem?_eq_none (by omega)]

theorem SameStrong_writeBlock {m : Machine} {b : Nat} {blk blk' : ControlBlock}
    (hd : m.derefBlock b = .ok blk) (hs : blk'.shared_counter_ = blk.shared_counter_)
    (hf : blk'.deleteThisCalls = 0 ∨ blk.shared_counter_ = 0) :
    SameStrong m (m.writeBlock b blk') := by
  intro c
  rw [strongCount_writeBlock blk' (derefBlock_eq_ok.mp hd).1]
  by_cases hc : c = b
  · subst hc
    rw [strongCount_deref hd]
    rcases hf with hf | hf
    · simp [hf, hs]
    · simp [hs, hf]
  · simp [hc]

theorem SameStrong_respectsWeak : RespectsWeak SameStrong where
  refl := fun _ _ => rfl
  trans := fun _ _ _ h k c => (k c).trans (h c)
  incW := by
    intro m b m' h
    obtain ⟨blk, hd, rfl⟩ := IncWCounter_eq_ok h
    exact SameStrong_writeBlock hd rfl (Or.inl (derefBlock_eq_ok.mp hd).2)
  decW := by
    intro m b m' h
    obtain ⟨blk, blk', hd, rfl, hs, _, _, _, hf⟩ := DecWCounter_eq_ok h
    exact SameStrong_writeBlock hd hs hf

theorem SameStrong_weak_dtor {m m' : Machine} {w : WeakPtr} (h : WeakPtr.dtor m w = .ok m') :
    SameStrong m m' :=
  WeakPtr_dtor_rel SameStrong_respectsWeak h

theorem SameStrong_destroyObject {m m' : Machine} {o : Nat}
    (h : destroyObject m o = .ok m') : SameStrong m m' := by
  unfold destroyObject at h
  simp only [bind_eq_ok] at h
  obtain ⟨obj, _, h2⟩ := h
  cases hbase : obj.base with
  | none =>
    simp only [hbase] at h2
    cases h2
    exact fun c => strongCount_blocks rfl c
  | some e =>
    simp only [hbase, bind_eq_ok] at h2
    obtain ⟨m1, h3, h4⟩ := h2
    intro c
    rw [SameStrong_weak_dtor h4 c, SameStrong_weak_dtor h3 c]
    exact strongCount_blocks rfl c

theorem SameStrong_freeObject {m m' : Machine} {o : Nat} (h : freeObject m o = .ok m') :
    SameStrong m m' := by
  unfold freeObject at h
  cases ho : m.objects[o]? with
  | none => simp [ho] at h
  | some obj =>
    simp only [ho] at h
    split at h
    · cases h
      exact fun c => strongCount_blocks rfl c
    · cases h

theorem SameStrong_DeleteObject {m m' : Machine} {b : Nat} (h : DeleteObject m b = .ok m') :
    SameStrong m m' := by
  unfold DeleteObject at h
  simp only [bind_eq_ok] at h
  obtain ⟨blk, hd, h2⟩ := h
  have h0 : SameStrong m
      (m.writeBlock b { blk with deleteObjectCalls := blk.deleteObjectCalls + 1 }) :=
    SameStrong_writeBlock hd rfl (Or.inl (derefBlock_eq_ok.mp hd).2)
  split at h2
  · cases h2
    exact h0
  · simp only [bind_eq_ok] at h2
    obtain ⟨m1, h3, h4⟩ := h2
    intro c
    rw [SameStrong_freeObject h4 c, SameStrong_destroyObject h3 c, h0 c]
  · cases h2
  · intro c
    rw [SameStrong_destroyObject h2 c, h0 c]

theorem strongCount_incS {m m' : Machine} {b : Nat} (h : IncSCounter m b = .ok m') (c : Nat) :
    strongCount m' c = strongCount m c + (if b = c then 1 else 0) := by
  obtain ⟨blk, hd, rfl⟩ := IncSCounter_eq_ok h
  rw [strongCount_writeBlock _ (derefBlock_eq_ok.mp hd).1]
  by_cases hc : c = b
  · subst hc
    simp [strongCount_deref hd, (derefBlock_eq_ok.mp hd).2]
  · have : ¬ b = c := fun e => hc e.symm
    simp [hc, this]

theorem strongCount_decS {m m' : Machine} {b : Nat} (h : DecSCounter m b = .ok m')
    (hpos : 1 ≤ strongCount m b) (c : Nat) :
    strongCount m' c + (if b = c then 1 else 0) = strongCount m c := by
  unfold DecSCounter at h
  simp only [bind_eq_ok] at h
  obtain ⟨blk, hd, h2⟩ := h
  have hs := strongCount_deref hd
  have hf := (derefBlock_eq_ok.mp hd).2
  split at h2
  · rename_i h1
    simp only [bind_eq_ok] at h2
    obtain ⟨m1, h3, blk1, hd1, h5⟩ := h2
    have hss := SameStrong_DeleteObject h3
    have hs1 := strongCount_deref hd1
    have hf1 := (derefBlock_eq_ok.mp hd1).2
    have hb1 : blk1.shared_counter_ = 1 := by rw [← hs1, hss b, hs, h1]
    split at h5 <;> cases h5 <;>
      rw [strongCount_writeBlock _ (derefBlock_eq_ok.mp hd1).1] <;>
      by_cases hc : c = b
    · subst hc; simp [hf1, ← hss c, hs1, hb1]
    · have : ¬ b = c := fun e => hc e.symm
      simp [hc, this, hss c]
    · subst hc; simp [hf1, ← hss c, hs1, hb1, decSize]
    · have : ¬ b = c := fun e => hc e.symm
      simp [hc, this, hss c]
  · cases h2
    rw [strongCount_writeBlock _ (derefBlock_eq_ok.mp hd).1]
    by_cases hc : c = b
    · subst hc
      have : 1 ≤ blk.shared_counter_ := by omega
      simp only [if_true, hf, hs, decSize_pos this]
      omega
    · have : ¬ b = c := fun e => hc e.symm
      simp [hc, this]

theorem acquire_strong_sc {m m' : Machine} {blk : Ptr} {x y : SharedPtr}
    (h : (match blk with
      | none => (pure (m, x) : Except Fault (Machine × SharedPtr))
      | some b => do
        let m ← IncSCounter m b
        pure (m, x)) = .ok (m', y)) :
    y = x ∧ ∀ c, strongCount m' c = strongCount m c + (if blk = some c then 1 else 0) := by
  cases blk with
  | none => cases h; exact ⟨rfl, fun c => by simp⟩
  | some b =>
    simp only [bind_eq_ok] at h
    obtain ⟨a, ha, hf⟩ := h
    cases hf
    exact ⟨rfl, fun c => by simpa using strongCount_incS ha c⟩

theorem release_strong_sc {m m' : Machine} {blk : Ptr}
    (h : (match blk with
      | none => (pure m : Except Fault Machine)
      | some b => DecSCounter m b) = .ok m')
    (hpos : ∀ b, blk = some b → 1 ≤ strongCount m b) :
    ∀ c, strongCount m' c + (if blk = some c then 1 else 0) = strongCount m c := by
  cases blk with
  | none => cases h; exact fun c => by simp
  | some b => exact fun c => by simpa using strongCount_decS h (hpos b rfl) c

theorem installWeakThis_sc {m m' : Machine} {self : SharedPtr}
    (h : installWeakThis m self = .ok m') : SameStrong m m' := by
  unfold installWeakThis at h
  simp only [bind_eq_ok] at h
  obtain ⟨⟨m1, t1⟩, h1, o, _, obj, _, e, _, ⟨m2, s2, t2⟩, h2, m3, h3, ⟨m4, st4⟩, h4,
    ⟨m5, t5⟩, h5, ⟨m6, s6, t6⟩, h6, m7, h7, h8⟩ := h
  have r1 := (WeakPtr_ofShared_rel SameStrong_respectsWeak h1).1
  have r2 := (WeakPtr_moveAssign_rel SameStrong_respectsWeak h2).1
  have r3 := SameStrong_weak_dtor h3
  obtain ⟨hx, r4⟩ := acquire_strong_sc h4
  have r5 := (WeakPtr_ofShared_rel SameStrong_respectsWeak h5).1
  have r6 := (WeakPtr_moveAssign_rel SameStrong_respectsWeak h6).1
  have r7 := SameStrong_weak_dtor h7
  have e3 : ∀ c, strongCount m3 c = strongCount m c := by
    intro c
    rw [r3 c, strongCount_blocks (show (Machine.writeObject m2 o _).blocks = m2.blocks from rfl),
      r2 c, r1 c]
  have e7 : ∀ c, strongCount m7 c = strongCount m4 c := by
    intro c
    rw [r7 c, strongCount_blocks (show (Machine.writeObject m6 o _).blocks = m6.blocks from rfl),
      r6 c, r5 c]
  subst hx
  have r8 := release_strong_sc h8 (by
    intro b hb
    have := r4 b
    rw [e7 b, this]
    have hb' : self.block_ = some b := hb
    simp [hb'])
  intro c
  have a := r8 c
  have b' := r4 c
  rw [e7 c, b', e3 c] at a
  have a' : strongCount m' c + (if self.block_ = some c then 1 else 0) =
      strongCount m c + (if self.block_ = some c then 1 else 0) := a
  omega

theorem SharedPtr_ofPtr_sc {esft : Bool} {m m' : Machine} {ptr : Ptr} {x : SharedPtr}
    (h : SharedPtr.ofPtr esft m ptr = .ok (m', x)) :
    ∀ c, strongCount m' c = strongCount m c + (if x.block_ = some c then 1 else 0) := by
  unfold SharedPtr.ofPtr at h
  simp only [bind_eq_ok] at h
  obtain ⟨m1, h1, h2⟩ := h
  have e1 := strongCount_incS h1
  have e0 := strongCount_newBlock m .Pointer ptr
  cases esft with
  | false =>
    simp only [Bool.false_eq_true, if_false, pure, Except.pure, Except.ok.injEq,
      Prod.mk.injEq] at h2
    obtain ⟨rfl, rfl⟩ := h2
    intro c
    rw [e1 c, e0 c]
    simp
  | true =>
    simp only [if_true, bind_eq_ok] at h2
    obtain ⟨m2, h3, h4⟩ := h2
    simp only [pure, Except.pure, Except.ok.injEq, Prod.mk.injEq] at h4
    obtain ⟨rfl, rfl⟩ := h4
    intro c
    rw [installWeakThis_sc h3 c, e1 c, e0 c]
    simp

theorem SharedPtr_ofHolder_sc {esft : Bool} {m m' : Machine} {block : Nat} {x : SharedPtr}
    (h : SharedPtr.ofHolder esft m block = .ok (m', x)) :
    ∀ c, strongCount m' c = strongCount m c + (if x.block_ = some c then 1 else 0) := by
  unfold SharedPtr.ofHolder at h
  simp only [bind_eq_ok] at h
  obtain ⟨blk, _, m1, h1, h2⟩ := h
  have e1 := strongCount_incS h1
  cases esft with
  | false =>
    simp only [Bool.false_eq_true, if_false, pure, Except.pure, Except.ok.injEq,
      Prod.mk.injEq] at h2
    obtain ⟨rfl, rfl⟩ := h2
    intro c
    rw [e1 c]
    simp
  | true =>
    simp only [if_true, bind_eq_ok] at h2
    obtain ⟨m2, h3, h4⟩ := h2
    simp only [pure, Except.pure, Except.ok.injEq, Prod.mk.injEq] at h4
    obtain ⟨rfl, rfl⟩ := h4
    intro c
    rw [installWeakThis_sc h3 c, e1 c]
    simp

theorem MakeShared_sc {esft : Bool} {m m' : Machine} {x : SharedPtr}
    (h : MakeShared esft m = .ok (m', x)) :
    ∀ c, strongCount m' c = strongCount m c + (if x.block_ = some c then 1 else 0) := by
  unfold MakeShared at h
  intro c
  have e0 := strongCount_newBlock (m.newObject esft).1 .Holder (some (m.newObject esft).2) c
  have e1 := strongCount_blocks (show (m.newObject esft).1.blocks = m.blocks from rfl) c
  have e2 := SharedPtr_ofHolder_sc h c
  rw [e2, ← e1, ← e0]
  rfl

theorem SharedPtr_alias_sc {m m' : Machine} {s x : SharedPtr} {p : Ptr}
    (h : SharedPtr.alias m s p = .ok (m', x)) :
    x = ⟨p, s.block_⟩ ∧
      ∀ c, strongCount m' c = strongCount m c + (if s.block_ = some c then 1 else 0) := by
  unfold SharedPtr.alias at h
  cases hb : s.block_ with
  | none => simp [hb] at h
  | some b =>
    simp only [hb, bind_eq_ok] at h
    obtain ⟨a, ha, hf⟩ := h
    cases hf
    exact ⟨rfl, fun c => by simpa using strongCount_incS ha c⟩

theorem SharedPtr_ofWeak_sc {m m' : Machine} {w : WeakPtr} {x : SharedPtr}
    (h : SharedPtr.ofWeak m w = .ok (m', x)) :
    x = ⟨w.ptr_, w.block_⟩ ∧
      ∀ c, strongCount m' c = strongCount m c + (if w.block_ = some c then 1 else 0) := by
  unfold SharedPtr.ofWeak at h
  simp only [bind_eq_ok] at h
  obtain ⟨n, _, h2⟩ := h
  split at h2
  · cases h2
  · exact acquire_strong_sc h2

theorem WeakPtr_Lock_sc {m m' : Machine} {w : WeakPtr} {x : SharedPtr}
    (h : WeakPtr.Lock m w = .ok (m', x)) :
    ∀ c, strongCount m' c = strongCount m c + (if x.block_ = some c then 1 else 0) := by
  unfold WeakPtr.Lock at h
  simp only [bind_eq_ok] at h
  obtain ⟨n, _, h2⟩ := h
  split at h2
  · cases h2
    intro c
    simp [SharedPtr.empty]
  · obtain ⟨rfl, h3⟩ := SharedPtr_ofWeak_sc h2
    exact h3

theorem SharedPtr_Reset_sc {m m' : Machine} {s x : SharedPtr}
    (h : SharedPtr.Reset m s = .ok (m', x))
    (hpos : ∀ b, s.block_ = some b → 1 ≤ strongCount m b) :
    x.block_ = none ∧
      ∀ c, strongCount m' c + (if s.block_ = some c then 1 else 0) = strongCount m c := by
  unfold SharedPtr.Reset at h
  cases hb : s.block_ with
  | none =>
    simp only [hb] at h
    cases h
    exact ⟨hb, fun c => by simp⟩
  | some b =>
    simp only [hb, bind_eq_ok] at h
    obtain ⟨a, ha, hf⟩ := h
    cases hf
    exact ⟨rfl, fun c => by simpa using strongCount_decS ha (hpos b hb) c⟩

theorem SharedPtr_assign_sc {m m' : Machine} {s v x : SharedPtr}
    (h : SharedPtr.assign m s v = .ok (m', x))
    (hpos : ∀ b, s.block_ = some b → 1 ≤ strongCount m b) :
    x = ⟨v.ptr_, v.block_⟩ ∧
      ∀ c, strongCount m' c + (if s.block_ = some c then 1 else 0) =
        strongCount m c + (if v.block_ = some c then 1 else 0) := by
  unfold SharedPtr.assign at h
  simp only [bind_eq_ok] at h
  obtain ⟨m1, h1, h2⟩ := h
  obtain ⟨hx, h3⟩ := acquire_strong_sc h2
  have h4 := release_strong_sc h1 hpos
  refine ⟨hx, fun c => ?_⟩
  have a := h3 c
  have b := h4 c
  omega

theorem SharedPtr_moveAssign_sc {m m' : Machine} {s v x y : SharedPtr}
    (h : SharedPtr.moveAssign m s v = .ok (m', x, y))
    (hpos : ∀ b, s.block_ = some b → 1 ≤ strongCount m b) :
    x = ⟨v.ptr_, v.block_⟩ ∧ y = ⟨none, none⟩ ∧
      ∀ c, strongCount m' c + (if s.block_ = some c then 1 else 0) = strongCount m c := by
  unfold SharedPtr.moveAssign at h
  simp only [bind_eq_ok] at h
  obtain ⟨m1, h1, h2⟩ := h
  cases h2
  exact ⟨rfl, rfl, release_strong_sc h1 hpos⟩

theorem liveShared_set_some (b : Nat) (S : List (Option SharedPtr)) (i : Nat)
    (old y : SharedPtr) (h : S[i]? = some (some old)) :
    liveShared b (S.set i (some y)) + (if old.block_ = some b then 1 else 0) =
      liveShared b S + (if y.block_ = some b then 1 else 0) := by
  simpa using liveShared_set b S i old (some y) h

theorem liveShared_set_none (b : Nat) (S : List (Option SharedPtr)) (i : Nat)
    (old : SharedPtr) (h : S[i]? = some (some old)) :
    liveShared b (S.set i none) + (if old.block_ = some b then 1 else 0) =
      liveShared b S := by
  simpa using liveShared_set b S i old none h

theorem liveShared_set_set (b : Nat) (S : List (Option SharedPtr)) (i j : Nat)
    (a v x y : SharedPtr) (hi : S[i]? = some (some a)) (hj : S[j]? = some (some v))
    (hx : x.block_ = v.block_) :
    liveShared b ((S.set i (some x)).set j (some y)) + (if a.block_ = some b then 1 else 0) =
      liveShared b S + (if y.block_ = some b then 1 else 0) := by
  have h1 := liveShared_set_some b S i a x hi
  have hz : ∃ z : SharedPtr, (S.set i (some x))[j]? = some (some z) ∧ z.block_ = v.block_ := by
    by_cases hij : i = j
    · subst hij
      exact ⟨x, by rw [List.getElem?_set_self (List.getElem?_eq_some_iff.mp hi).1], hx⟩
    · exact ⟨v, by rw [List.getElem?_set_ne hij]; exact hj, rfl⟩
  obtain ⟨z, hz1, hz2⟩ := hz
  have h2 := liveShared_set_some b (S.set i (some x)) j z y hz1
  rw [hz2] at h2
  rw [hx] at h1
  omega

/-- Every statement that returns keeps the strong count of every block equal to the
number of live `SharedPtr` variables on it. -/
theorem step_counted {st st' : State} (op : Op) (hC : Counted st)
    (h : step st op = .ok st') : Counted st' := by
  obtain ⟨m, S, W⟩ := st
  have hC' : ∀ c, strongCount m c = liveShared c S := hC
  have hpos : ∀ (i : Nat) (a : SharedPtr), lookup S i = some a →
      ∀ b, a.block_ = some b → 1 ≤ strongCount m b := by
    intro i a hi b hb
    rw [hC' b]
    exact liveShared_pos b S i a (lookup_eq_some hi) hb
  have hweak : op.isWeakOnly = true → Counted st' := by
    intro hop
    obtain ⟨h1, h2⟩ := step_weak_effect SameStrong_respectsWeak (fun _ => true) op hop h
    have h3 := congrArg Prod.fst h2
    simp only at h3
    rw [storeStep_weak_shared _ _ _ _ hop] at h3
    intro c
    rw [h1 c, h3]
    exact hC' c
  cases op with
  | weakOf i => exact hweak rfl
  | weakCopy k => exact hweak rfl
  | weakMove k => exact hweak rfl
  | weakAssign k l => exact hweak rfl
  | weakMoveAssign k l => exact hweak rfl
  | weakAssignShared k i => exact hweak rfl
  | weakReset k => exact hweak rfl
  | weakSwap k l => exact hweak rfl
  | weakDestroy k => exact hweak rfl
  | adopt e =>
    simp only [step, bind_eq_ok] at h
    obtain ⟨⟨m1, x⟩, h1, h2⟩ := h
    cases h2
    have e1 := SharedPtr_ofPtr_sc h1
    intro c
    show strongCount m1 c = liveShared c (S ++ [some x])
    rw [liveShared_push, e1 c, ← hC' c]
    rfl
  | make e =>
    simp only [step, bind_eq_ok] at h
    obtain ⟨⟨m1, x⟩, h1, h2⟩ := h
    cases h2
    have e1 := MakeShared_sc h1
    intro c
    show strongCount m1 c = liveShared c (S ++ [some x])
    rw [liveShared_push, e1 c, ← hC' c]
  | copy i =>
    simp only [step, getShared_eq_lookup] at h
    cases hg : lookup S i with
    | none => simp only [hg] at h; cases h; exact hC
    | some a =>
      simp only [hg, bind_eq_ok] at h
      obtain ⟨⟨m1, x⟩, h1, h2⟩ := h
      cases h2
      obtain ⟨hx, e1⟩ := acquire_strong_sc h1
      subst hx
      intro c
      show strongCount m1 c = liveShared c (S ++ [some _])
      rw [liveShared_push, e1 c, ← hC' c]
  | move i =>
    simp only [step, getShared_eq_lookup] at h
    cases hg : lookup S i with
    | none => simp only [hg] at h; cases h; exact hC
    | some a =>
      simp only [hg] at h
      cases h
      intro c
      show strongCount m c = liveShared c (S.set i (some _) ++ [some _])
      have e1 := liveShared_set_some c S i a ⟨none, none⟩ (lookup_eq_some hg)
      rw [liveShared_push, hC' c]
      simp only [SharedPtr.move] at e1 ⊢
      simp only [reduceCtorEq, if_false] at e1
      omega
  | aliasOf i p =>
    simp only [step, getShared_eq_lookup] at h
    cases hg : lookup S i with
    | none => simp only [hg] at h; cases h; exact hC
    | some a =>
      simp only [hg, bind_eq_ok] at h
      obtain ⟨⟨m1, x⟩, h1, h2⟩ := h
      cases h2
      obtain ⟨hx, e1⟩ := SharedPtr_alias_sc h1
      subst hx
      intro c
      show strongCount m1 c = liveShared c (S ++ [some _])
      rw [liveShared_push, e1 c, ← hC' c]
  | promote k =>
    simp only [step, getWeak_eq_lookup] at h
    cases hg : lookup W k with
    | none => simp only [hg] at h; cases h; exact hC
    | some w =>
      simp only [hg] at h
      cases hp : SharedPtr.ofWeak m w with
      | ok r =>
        obtain ⟨m1, x⟩ := r
        simp only [hp] at h
        cases h
        obtain ⟨hx, e1⟩ := SharedPtr_ofWeak_sc hp
        subst hx
        intro c
        show strongCount m1 c = liveShared c (S ++ [some _])
        rw [liveShared_push, e1 c, ← hC' c]
      | error e =>
        cases e with
        | undefined => simp [hp] at h
        | BadWeakPtr m1 =>
          simp only [hp] at h
          cases h
          obtain ⟨rfl, _⟩ := (SharedPtr_ofWeak_rel ObjMono_respectsAll).2 m1 hp
          exact hC
  | lock k =>
    simp only [step, getWeak_eq_lookup] at h
    cases hg : lookup W k with
    | none => simp only [hg] at h; cases h; exact hC
    | some w =>
      simp only [hg, bind_eq_ok] at h
      obtain ⟨⟨m1, x⟩, h1, h2⟩ := h
      cases h2
      have e1 := WeakPtr_Lock_sc h1
      intro c
      show strongCount m1 c = liveShared c (S ++ [some x])
      rw [liveShared_push, e1 c, ← hC' c]
  | assign i j =>
    simp only [step, getShared_eq_lookup] at h
    cases hg : lookup S i with
    | none => simp only [hg] at h; cases h; exact hC
    | some a =>
      cases hg' : lookup S j with
      | none => simp only [hg, hg'] at h; cases h; exact hC
      | some v =>
        simp only [hg, hg', bind_eq_ok] at h
        obtain ⟨⟨m1, x⟩, h1, h2⟩ := h
        cases h2
        obtain ⟨hx, e1⟩ := SharedPtr_assign_sc h1 (hpos i a hg)
        subst hx
        intro c
        show strongCount m1 c = liveShared c (S.set i (some _))
        dsimp only
        have e2 := liveShared_set_some c S i a ⟨v.ptr_, v.block_⟩ (lookup_eq_some hg)
        have e3 := e1 c
        have e4 := hC' c
        simp only at e2
        omega
  | moveAssign i j =>
    simp only [step, getShared_eq_lookup] at h
    cases hg : lookup S i with
    | none => simp only [hg] at h; cases h; exact hC
    | some a =>
      cases hg' : lookup S j with
      | none => simp only [hg, hg'] at h; cases h; exact hC
      | some v =>
        simp only [hg, hg', bind_eq_ok] at h
        obtain ⟨⟨m1, x, y⟩, h1, h2⟩ := h
        cases h2
        obtain ⟨hx, hy, e1⟩ := SharedPtr_moveAssign_sc h1 (hpos i a hg)
        subst hx hy
        intro c
        show strongCount m1 c = liveShared c ((S.set i (some _)).set j (some _))
        dsimp only
        have e2 := liveShared_set_set c S i j a v ⟨v.ptr_, v.block_⟩ ⟨none, none⟩
          (lookup_eq_some hg) (lookup_eq_some hg') rfl
        have e3 := e1 c
        have e4 := hC' c
        simp only [reduceCtorEq, if_false] at e2
        omega
  | reset i =>
    simp only [step, getShared_eq_lookup] at h
    cases hg : lookup S i with
    | none => simp only [hg] at h; cases h; exact hC
    | some a =>
      simp only [hg, bind_eq_ok] at h
      obtain ⟨⟨m1, x⟩, h1, h2⟩ := h
      cases h2
      obtain ⟨hx, e1⟩ := SharedPtr_Reset_sc h1 (hpos i a hg)
      intro c
      show strongCount m1 c = liveShared c (S.set i (some x))
      have e2 := liveShared_set_some c S i a x (lookup_eq_some hg)
      have e3 := e1 c
      have e4 := hC' c
      simp only [hx, reduceCtorEq, if_false] at e2
      omega
  | swap i j =>
    simp only [step, getShared_eq_lookup] at h
    cases hg : lookup S i with
    | none => simp only [hg] at h; cases h; exact hC
    | some a =>
      cases hg' : lookup S j with
      | none => simp only [hg, hg'] at h; cases h; exact hC
      | some v =>
        simp only [hg, hg'] at h
        cases h
        intro c
        show strongCount m c = liveShared c ((S.set i (some _)).set j (some _))
        have e2 := liveShared_set_set c S i j a v ⟨v.ptr_, v.block_⟩ ⟨a.ptr_, a.block_⟩
          (lookup_eq_some hg) (lookup_eq_some hg') rfl
        have e4 := hC' c
        simp only [SharedPtr.Swap]
        simp only at e2
        omega
  | destroy i =>
    simp only [step, getShared_eq_lookup] at h
    cases hg : lookup S i with
    | none => simp only [hg] at h; cases h; exact hC
    | some a =>
      simp only [hg, bind_eq_ok] at h
      obtain ⟨m1, h1, h2⟩ := h
      cases h2
      have e1 := release_strong_sc h1 (hpos i a hg)
      intro c
      show strongCount m1 c = liveShared c (S.set i none)
      have e2 := liveShared_set_none c S i a (lookup_eq_some hg)
      have e3 := e1 c
      have e4 := hC' c
      omega

theorem run_counted (ops : List Op) :
    ∀ (st st' : State), Counted st → run st ops = .ok st' → Counted st' := by
  induction ops with
  | nil =>
    intro st st' hC h
    cases h
    exact hC
  | cons op ops ih =>
    intro st st' hC h
    simp only [run, bind_eq_ok] at h
    obtain ⟨st1, h1, h2⟩ := h
    exact ih st1 st' (step_counted op hC h1) h2

theorem Counted_empty : Counted ⟨⟨[], []⟩, [], []⟩ := by
  intro c
  simp [strongCount, liveShared]

/-- C19. Start with no handle in the empty machine and run any sequence of statements
(adoption, `MakeShared`, copy, move, aliasing construction, promotion, `Lock`, copy and
move assignment including self-assignment, `Reset`, `Swap`, destruction, and every
`WeakPtr` statement), on any number of blocks.  In every state that such a run reaches
(a run that hits undefined behaviour reaches none), every live `SharedPtr` variable
whose `block_` is non-null is on a block that is allocated and not freed, whose strong
count is the number of live `SharedPtr` variables on it, hence at least 1; so `Get()`
and `operator->` return `ptr_`, not through the branch for a strong count of 0. -/
theorem C19_live_handle_has_strong_count (ops : List Op) (st : State)
    (h : run ⟨⟨[], []⟩, [], []⟩ ops = .ok st) :
    ∀ (i : Nat) (x : SharedPtr) (b : Nat), st.getShared i = some x → x.block_ = some b →
      ∃ blk, st.m.derefBlock b = .ok blk ∧ 1 ≤ blk.shared_counter_ ∧
        blk.shared_counter_ = liveShared b st.shared ∧
        x.Get st.m = .ok (st.m, x.ptr_) ∧ x.arrow st.m = .ok (st.m, x.ptr_) := by
  intro i x b hg hb
  have hC := run_counted ops _ st Counted_empty h b
  have hpos := liveShared_pos b st.shared i x (getShared_eq_some.mp hg) hb
  rw [← hC] at hpos
  unfold strongCount at hpos hC
  cases hblk : st.m.blocks[b]? with
  | none => simp [hblk] at hpos
  | some blk =>
    simp only [hblk] at hpos hC
    by_cases hf : blk.deleteThisCalls = 0
    · simp only [hf, if_true] at hpos hC
      have hd : st.m.derefBlock b = .ok blk := derefBlock_eq_ok.mpr ⟨hblk, hf⟩
      have hne : ¬ blk.shared_counter_ = 0 := by omega
      refine ⟨blk, hd, hpos, hC, ?_, ?_⟩
      · simp [SharedPtr.Get, hb, GetSCounter_ok hd, hne, bind, Except.bind, pure, Except.pure]
      · simp [SharedPtr.arrow, hb, GetSCounter_ok hd, hne, bind, Except.bind, pure,
          Except.pure]
    · simp [hf] at hpos

/-- C19, on a program with two blocks, an aliasing handle, a self-assignment (which
destroys the payload of the second block while a weak handle keeps the block) and an
assignment that moves a handle from one block to the other. -/
theorem C19_live_handle_has_strong_count_witness :
    run ⟨⟨[], []⟩, [], []⟩
        [.make true, .adopt false, .aliasOf 0 (some 1), .weakOf 1, .assign 1 1, .assign 0 1] =
      .ok ⟨⟨[⟨1, 2, .Holder, some 0, 0, 0⟩, ⟨2, 1, .Pointer, some 1, 1, 0⟩],
          [⟨some ⟨⟨some 0, some 0⟩, ⟨some 0, some 0⟩⟩, 0, 0⟩, ⟨none, 1, 1⟩]⟩,
        [some ⟨some 1, some 1⟩, some ⟨some 1, some 1⟩, some ⟨some 1, some 0⟩],
        [some ⟨some 1, some 1⟩]⟩ ∧
    ∀ (i : Nat) (x : SharedPtr) (b : Nat),
      State.getShared ⟨⟨[⟨1, 2, .Holder, some 0, 0, 0⟩, ⟨2, 1, .Pointer, some 1, 1, 0⟩],
          [⟨some ⟨⟨some 0, some 0⟩, ⟨some 0, some 0⟩⟩, 0, 0⟩, ⟨none, 1, 1⟩]⟩,
        [some ⟨some 1, some 1⟩, some ⟨some 1, some 1⟩, some ⟨some 1, some 0⟩],
        [some ⟨some 1, some 1⟩]⟩ i = some x → x.block_ = some b →
      ∃ blk, Machine.derefBlock
          ⟨[⟨1, 2, .Holder, some 0, 0, 0⟩, ⟨2, 1, .Pointer, some 1, 1, 0⟩],
            [⟨some ⟨⟨some 0, some 0⟩, ⟨some 0, some 0⟩⟩, 0, 0⟩, ⟨none, 1, 1⟩]⟩ b = .ok blk ∧
        1 ≤ blk.shared_counter_ ∧
        blk.shared_counter_ = liveShared b
          [some ⟨some 1, some 1⟩, some ⟨some 1, some 1⟩, some ⟨some 1, some 0⟩] ∧
        x.Get ⟨[⟨1, 2, .Holder, some 0, 0, 0⟩, ⟨2, 1, .Pointer, some 1, 1, 0⟩],
            [⟨some ⟨⟨some 0, some 0⟩, ⟨some 0, some 0⟩⟩, 0, 0⟩, ⟨none, 1, 1⟩]⟩ =
          .ok (⟨[⟨1, 2, .Holder, some 0, 0, 0⟩, ⟨2, 1, .Pointer, some 1, 1, 0⟩],
            [⟨some ⟨⟨some 0, some 0⟩, ⟨some 0, some 0⟩⟩, 0, 0⟩, ⟨none, 1, 1⟩]⟩, x.ptr_) ∧
        x.arrow ⟨[⟨1, 2, .Holder, some 0, 0, 0⟩, ⟨2, 1, .Pointer, some 1, 1, 0⟩],
            [⟨some ⟨⟨some 0, some 0⟩, ⟨some 0, some 0⟩⟩, 0, 0⟩, ⟨none, 1, 1⟩]⟩ =
          .ok (⟨[⟨1, 2, .Holder, some 0, 0, 0⟩, ⟨2, 1, .Pointer, some 1, 1, 0⟩],
            [⟨some ⟨⟨some 0, some 0⟩, ⟨some 0, some 0⟩⟩, 0, 0⟩, ⟨none, 1, 1⟩]⟩, x.ptr_) :=
  ⟨by decide,
    C19_live_handle_has_strong_count
      [.make true, .adopt false, .aliasOf 0 (some 1), .weakOf 1, .assign 1 1, .assign 0 1]
      ⟨⟨[⟨1, 2, .Holder, some 0, 0, 0⟩, ⟨2, 1, .Pointer, some 1, 1, 0⟩],
          [⟨some ⟨⟨some 0, some 0⟩, ⟨some 0, some 0⟩⟩, 0, 0⟩, ⟨none, 1, 1⟩]⟩,
        [some ⟨some 1, some 1⟩, some ⟨some 1, some 1⟩, some ⟨some 1, some 0⟩],
        [some ⟨some 1, some 1⟩]⟩
      (by decide)⟩

/-! ## `UniquePtr`: `Reset` and the destructor -/

/-- C21. For every `UniquePtr` `u` (holding any pointer `q`, null or not, with any
deleter), every log of earlier deleter calls and every pointer `p`: after `u.Reset(p)`
`Get()` is `p`, the deleter is the one `u` had, and the log has grown by exactly one
call, of that deleter, on `q`, made while `Get()` already was `p`; this is so for a
null `q` too, as for `operator=(nullptr)`.  The destructor adds one call, on the held
pointer, when that pointer is non-null, and no call when it is null. -/
theorem C21_UniquePtr_Reset_calls_deleter_once (log : List DeleterCall) (u : UniquePtr)
    (p : Ptr) :
    (u.Reset log p).2.Get = p ∧
    (u.Reset log p).2.second = u.second ∧
    (u.Reset log p).1 = log ++ [⟨u.second, u.Get, p⟩] ∧
    ((u.Reset log p).1.drop log.length).length = 1 ∧
    (UniquePtr.Reset log ⟨none, u.second⟩ p).1 = log ++ [⟨u.second, none, p⟩] ∧
    (UniquePtr.assignNull log ⟨none, u.second⟩).1 = log ++ [⟨u.second, none, none⟩] ∧
    UniquePtr.dtor log u =
      (if u.Get = none then log else log ++ [⟨u.second, u.Get, u.Get⟩]) ∧
    UniquePtr.dtor log ⟨none, u.second⟩ = log ∧
    UniquePtr.Reset [] ⟨none, 0⟩ (some 3) = ([⟨0, none, some 3⟩], ⟨some 3, 0⟩) ∧
    UniquePtr.Reset [] ⟨some 5, 0⟩ (some 3) = ([⟨0, some 5, some 3⟩], ⟨some 3, 0⟩) ∧
    UniquePtr.dtor [] ⟨none, 0⟩ = [] ∧
    UniquePtr.dtor [] ⟨some 5, 0⟩ = [⟨0, some 5, some 5⟩] := by
  refine ⟨rfl, rfl, rfl, ?_, rfl, rfl, ?_, rfl, rfl, rfl, rfl, rfl⟩
  · simp [UniquePtr.Reset]
  · unfold UniquePtr.dtor UniquePtr.Get
    by_cases h : u.first = none <;> simp [h]

end SmartPointers
